import Mathlib

/-!
# Sliding-window median absolute deviation (`lmad.cpp`)

A shallow embedding of the transform function `Mad` of `src/lmad.cpp`:
`Mad::setup` and `Mad::processPartition`.

`processPartition` is embedded twice, line for line, with two readings of
the arithmetic of `vfloat`.

* The *exact reading* (`Inst`, `body`, `iterate`, `processPartition`) takes
  `vfloat` values as exact rationals (`ℚ`).  It carries the properties that
  do not depend on rounding: which cells are read and written, which rows
  are populated, the row numbers, the treatment of NULL, the contents of
  the window and the formulas of the three columns.  Rounding and overflow
  of doubles are outside this reading; the only operation whose result may
  leave the finite numbers on finite operands there is the division of the
  cutoff column, whose result is a value of `FDiv` (`fdiv`).
* The *double-precision reading* (`Dbl`, `InstD`, `bodyD`, `iterateD`,
  `processPartitionD`, in the section of that name) computes every sum,
  difference, product and quotient in IEEE-754 binary64 with round to
  nearest, ties to even, signed zeros, infinities and NaN.  The properties
  whose truth depends on overflow or rounding (the closed form of the mad
  column, the degenerate window, the monotonicity of the cutoff, the order
  statistics of the median and the range of the statistics) are settled on
  this reading.

Conventions common to both readings.

* The SQL NULL float is the `none` of `Option`.
* `size_t` values are natural numbers.  The places where a conversion or
  a product wraps (`(size_t)params.getIntRef("setsize")` and the byte
  count passed to `malloc`) are written with an explicit `% 2 ^ 64`.  In
  `processPartition` the index arithmetic (`i + 1`, `setsize - 1`,
  `setsize/2 - 1`) stays inside `0 .. setsize` for every `setsize ≥ 1`,
  the values `setup` lets through, so it is written without a modulus.
* `vint rn` is a natural number: it counts the rows of one partition.
* `abs` is the absolute value of a `vfloat`, `std::sort` the ascending
  sort (insertion sort here; the result of sorting does not depend on the
  algorithm: in doubles, for cells without NaN, up to the places of `+0`
  and `-0`, which compare equal).
* The two heap buffers are lists of cells.  Every access carries its
  bounds check and yields `none` out of bounds, so that a run which
  returns `some` has performed in-bounds accesses only.
* `vt_report_error` throws; it is the `Except.error` of `setup`.
-/

namespace Mad

/-! ## Values -/

/-- Result of the floating-point division `a / b` on finite operands in
the exact reading: the exact quotient when the divisor is non-zero (its
rounding and overflow are those of `Dbl.div`, in the double-precision
reading), an infinity for a non-zero dividend over zero (the sign, which
follows the sign of the floating zero, is not tracked), and NaN for zero
over zero. -/
inductive FDiv where
  | fin (q : ℚ)
  | inf
  | nan
  deriving DecidableEq, Repr

/-- Division of `abs ( value - median ) / mad` (line 113) in the exact
reading: no test of the divisor precedes it.  The division in doubles is
`Dbl.div`. -/
def fdiv (a b : ℚ) : FDiv :=
  if b = 0 then (if a = 0 then FDiv.nan else FDiv.inf) else FDiv.fin (a / b)

/-- One output row of the `PartitionWriter`: column 0 (`rownum`) and the
three float columns 1..3 (`median`, `mad`, `cutoff`), `none` after
`setNull`. -/
structure Row where
  rownum : ℕ
  median : Option ℚ
  mad : Option ℚ
  cutoff : Option FDiv
  deriving DecidableEq, Repr

/-- Parameters the `ParamReader` holds: `containsParameter` is `isSome`. -/
structure ParamReader where
  setsize : Option ℤ
  cconst : Option ℚ
  deriving DecidableEq, Repr

/-- Member variables of the class `Mad` (lines 13-15). -/
structure Inst where
  iarray : List ℚ
  sarray : List ℚ
  setsize : ℕ
  deriving DecidableEq, Repr

/-- Variables of `processPartition` that live across iterations of the
read loop: the two buffers, the array index `i` and the row number `rn`.
(`median`, `mad` and `value` are assigned in an iteration before they are
read in it.) -/
structure Loop where
  iarray : List ℚ
  sarray : List ℚ
  i : ℕ
  rn : ℕ
  deriving DecidableEq, Repr

/-! ## `Mad::setup` -/

/-- Bytes in one `vfloat`. -/
def sizeofVfloat : ℕ := 8

/-- Lines 20-38 of `setup`.  `ialloc bytes` and `salloc bytes` are what the
two `malloc` calls return for a request of `bytes` bytes: `none` for
`NULL`, otherwise the (uninitialised) cells of the block. -/
def setup (params : ParamReader) (ialloc salloc : ℕ → Option (List ℚ)) :
    Except (ℕ × String) Inst := do
  let setsize ←
    match params.setsize with
    | none => pure 10
    | some p =>
      let s := (p % 2 ^ 64).toNat
      if s < 1 then throw (100, "Invalid setsize") else pure s
  let iarray ←
    match ialloc (setsize * sizeofVfloat % 2 ^ 64) with
    | none => throw (110, "Error allocating iarray memory")
    | some b => pure b
  let sarray ←
    match salloc (setsize * sizeofVfloat % 2 ^ 64) with
    | none => throw (110, "Error allocating sarray memory")
    | some b => pure b
  pure ⟨iarray, sarray, setsize⟩

/-! ## Buffer primitives -/

/-- Store `a[k] = v`. -/
def store (a : List ℚ) (k : ℕ) (v : ℚ) : Option (List ℚ) :=
  if k < a.length then some (a.set k v) else none

/-- Load `a[k]`. -/
def load (a : List ℚ) (k : ℕ) : Option ℚ := a[k]?

/-- Copy `memcpy(dst, src, n * sizeof(vfloat))`: the first `n` cells of
`dst` become those of `src`. -/
def memcpy (dst src : List ℚ) (n : ℕ) : Option (List ℚ) :=
  if n ≤ dst.length ∧ n ≤ src.length then some (src.take n ++ dst.drop n) else none

/-- Call `std::sort(a, a + n)`: the first `n` cells in ascending order. -/
def sortCells (a : List ℚ) (n : ℕ) : Option (List ℚ) :=
  if n ≤ a.length then some ((a.take n).insertionSort (· ≤ ·) ++ a.drop n) else none

/-- Move `memmove(a, a + 1, sizeof(vfloat) * n)`: cells `1..n` go to
`0..n-1`; the cells from `n` on keep their value. -/
def shiftLeft (a : List ℚ) (n : ℕ) : Option (List ℚ) :=
  if n + 1 ≤ a.length ∨ n = 0 then some ((a.drop 1).take n ++ a.drop n) else none

/-- Lines 95-98 in the exact reading: the median read off the sorted
buffer, `sarray[setsize/2]` or `(sarray[setsize/2] + sarray[setsize/2-1]) / 2`
without rounding or overflow.  In doubles: `medianCellsD`. -/
def medianCells (sarray : List ℚ) (setsize : ℕ) : Option ℚ :=
  if setsize % 2 = 1 then load sarray (setsize / 2)
  else do
    let hi ← load sarray (setsize / 2)
    let lo ← load sarray (setsize / 2 - 1)
    pure ((hi + lo) / 2)

/-- Lines 105-108 in the exact reading: the scaled deviation read off the
sorted buffer of absolute deviations, `cconst * sarray[setsize/2]` or
`cconst * (sarray[setsize/2] + sarray[setsize/2-1]) / 2` (the product
first, as in the code) without rounding or overflow.  In doubles:
`madCellsD`. -/
def madCells (cconst : ℚ) (sarray : List ℚ) (setsize : ℕ) : Option ℚ :=
  if setsize % 2 = 1 then do
    let mid ← load sarray (setsize / 2)
    pure (cconst * mid)
  else do
    let hi ← load sarray (setsize / 2)
    let lo ← load sarray (setsize / 2 - 1)
    pure (cconst * (hi + lo) / 2)

/-- Lines 100-101: `for ( i=0 ; i < setsize ; i++ ) sarray[i] = abs(sarray[i] - median)`,
entered with `i` and `todo = setsize - i` iterations left; returns the
buffer and the final `i`. -/
def deviations (median : ℚ) : ℕ → ℕ → List ℚ → Option (List ℚ × ℕ)
  | 0, i, sarray => some (sarray, i)
  | todo + 1, i, sarray => do
    let x ← load sarray i
    let sarray ← store sarray i |x - median|
    deviations median todo (i + 1) sarray

/-! ## `Mad::processPartition` -/

/-- Output row of the two NULL branches (lines 77-80, 82-85). -/
def nullRow (rn : ℕ) : Row := ⟨rn, none, none, none⟩

/-- One iteration of the `do ... while` body (lines 75-117) on the input
`value`; `none` stands for an out-of-bounds access. -/
def body (setsize : ℕ) (cconst : ℚ) (st : Loop) (value : Option ℚ) : Option (Loop × Row) :=
  match value with
  | none => some ({ st with rn := st.rn + 1 }, nullRow st.rn)
  | some value =>
    if st.i + 1 < setsize then do
      let iarray ← store st.iarray st.i value
      pure ({ st with iarray := iarray, i := st.i + 1, rn := st.rn + 1 }, nullRow st.rn)
    else do
      let iarray ← store st.iarray (setsize - 1) value
      let sarray ← memcpy st.sarray iarray setsize
      let sarray ← sortCells sarray setsize
      let median ← medianCells sarray setsize
      let (sarray, i) ← deviations median setsize 0 sarray
      let sarray ← sortCells sarray setsize
      let mad ← madCells cconst sarray setsize
      let row : Row := ⟨st.rn, some median, some mad, some (fdiv |value - median| mad)⟩
      let iarray ← shiftLeft iarray (setsize - 1)
      pure (⟨iarray, sarray, i, st.rn + 1⟩, row)

/-- The read loop: the body once per input row, in order. -/
def iterate (setsize : ℕ) (cconst : ℚ) : Loop → List (Option ℚ) → Option (List Row)
  | _, [] => some []
  | st, value :: more => do
    let (st, row) ← body setsize cconst st value
    let rows ← iterate setsize cconst st more
    pure (row :: rows)

/-- The loop variables once the body has run on the given rows, in order
(the same loop as `iterate`, keeping the state instead of the rows). -/
def loopState (setsize : ℕ) (cconst : ℚ) : Loop → List (Option ℚ) → Option Loop
  | st, [] => some st
  | st, value :: more => do
    let (st, _) ← body setsize cconst st value
    loopState setsize cconst st more

/-- Default consistency constant (line 64). -/
def defaultCconst : ℚ := 14826 / 10000

/-- The consistency constant `processPartition` works with (lines 64-70):
the parameter `cconst` when it is supplied, the default otherwise. -/
def cconstOf (params : ParamReader) : ℚ :=
  match params.cconst with
  | none => defaultCconst
  | some c => c

/-- Lines 60-118 of `processPartition`.  The loop is a `do ... while`: the
reader stands on a first row when the function is entered, `rest` are the
rows `inputReader.next()` advances to.  `i` starts at 0 and `rn` at 1. -/
def processPartition (self : Inst) (params : ParamReader)
    (first : Option ℚ) (rest : List (Option ℚ)) : Option (List Row) :=
  iterate self.setsize (cconstOf params) ⟨self.iarray, self.sarray, 0, 1⟩ (first :: rest)

/-- The loop variables of `processPartition` on entry to the loop (lines
60 and 65): `i = 0`, `rn = 1`, the buffers as the instance holds them. -/
def entryState (self : Inst) : Loop := ⟨self.iarray, self.sarray, 0, 1⟩

/-- The member variables when `processPartition` returns: the two buffers
hold what the loop left in them, `setsize` is not assigned. -/
def partitionEnd (self : Inst) (params : ParamReader)
    (first : Option ℚ) (rest : List (Option ℚ)) : Option Inst :=
  (loopState self.setsize (cconstOf params) (entryState self) (first :: rest)).map
    (fun st => ⟨st.iarray, st.sarray, self.setsize⟩)

/-- An instance on which `processPartition` may run: a window size of at
least one and two buffers of `setsize` cells each (their contents are
arbitrary). -/
structure Inst.Ready (m : Inst) : Prop where
  pos : 1 ≤ m.setsize
  ilen : m.iarray.length = m.setsize
  slen : m.sarray.length = m.setsize

/-! ## Reference notions -/

/-- Non-missing observations of an input, in arrival order. -/
def observed (xs : List (Option ℚ)) : List ℚ := xs.reduceOption

/-- The `k` most recent values of a list (all of them when there are
fewer). -/
def lastK (k : ℕ) (l : List ℚ) : List ℚ := l.drop (l.length - k)

/-- Non-missing observations up to and including input position `j`. -/
def seenUpTo (xs : List (Option ℚ)) (j : ℕ) : List ℚ := observed (xs.take (j + 1))

/-- The FIFO window at input position `j`: the `K` most recent non-missing
observations up to and including position `j`. -/
def windowAt (K : ℕ) (xs : List (Option ℚ)) (j : ℕ) : List ℚ := lastK K (seenUpTo xs j)

/-- Closed-form median of `K` ascending values `s`: `s[K/2]` for odd `K`,
`(s[K/2] + s[K/2-1]) / 2` for even `K`. -/
def closedMedian (s : List ℚ) (K : ℕ) : ℚ :=
  if K % 2 = 1 then s.getD (K / 2) 0 else (s.getD (K / 2) 0 + s.getD (K / 2 - 1) 0) / 2

/-- Ascending sort. -/
def ascending (l : List ℚ) : List ℚ := l.insertionSort (· ≤ ·)

/-- Median of a window. -/
def winMedian (w : List ℚ) : ℚ := closedMedian (ascending w) w.length

/-- Absolute deviations of the window values from `m`. -/
def absDevs (m : ℚ) (w : List ℚ) : List ℚ := w.map (fun x => |x - m|)

/-- Scaled median absolute deviation of a window. -/
def winMad (C : ℚ) (w : List ℚ) : ℚ :=
  C * closedMedian (ascending (absDevs (winMedian w) w)) w.length

/-- The three statistic columns of a row. -/
def Row.stats (r : Row) : Option ℚ × Option ℚ × Option FDiv := (r.median, r.mad, r.cutoff)

/-- All three statistic columns hold a value. -/
def Row.populated (r : Row) : Prop := r.median.isSome ∧ r.mad.isSome ∧ r.cutoff.isSome

/-- All three statistic columns are NULL. -/
def Row.allNull (r : Row) : Prop := r.median = none ∧ r.mad = none ∧ r.cutoff = none

/-- Row written for a full window `w` whose newest value is `v`. -/
def statRow (C : ℚ) (rn : ℕ) (w : List ℚ) (v : ℚ) : Row :=
  ⟨rn, some (winMedian w), some (winMad C w), some (fdiv |v - winMedian w| (winMad C w))⟩

/-- Row of an observation `x`, given the non-missing values `s` seen up to
and including it. -/
def refRow (K : ℕ) (C : ℚ) (rn : ℕ) (s : List ℚ) : Option ℚ → Row
  | none => nullRow rn
  | some v => if K ≤ s.length then statRow C rn (lastK K s) v else nullRow rn

/-- Rows of a run described on the list of values seen so far instead of
on the buffers. -/
def refRows (K : ℕ) (C : ℚ) : ℕ → List ℚ → List (Option ℚ) → List Row
  | _, _, [] => []
  | rn, seen, x :: xs =>
    refRow K C rn (seen ++ observed [x]) x :: refRows K C (rn + 1) (seen ++ observed [x]) xs

/-- The row of a run on the observations `a * x + c` that corresponds to
the row `r` of the run on the observations `x`. -/
def Row.affine (a c : ℚ) (r : Row) : Row :=
  ⟨r.rownum, r.median.map (fun m => a * m + c), r.mad.map (fun d => a * d), r.cutoff⟩

/-- The buffers of a loop state hold `K` cells each, and the index and the
input buffer agree with the values `seen` so far. -/
structure Inv (K : ℕ) (st : Loop) (seen : List ℚ) : Prop where
  ilen : st.iarray.length = K
  slen : st.sarray.length = K
  warm : seen.length < K → st.i = seen.length ∧ st.iarray.take seen.length = seen
  full : K ≤ seen.length → st.i = K ∧ st.iarray.take (K - 1) = lastK (K - 1) seen

/-! ## Double-precision reading

The definitions above read `vfloat` arithmetic as exact.  The definitions
of this section embed the same lines of `processPartition` with the
arithmetic of IEEE-754 binary64 (round to nearest, ties to even, with
signed zeros, infinities and NaN), the arithmetic the program runs with.
Finite doubles are integer multiples of `2^(-1074)`; every magnitude below
is counted in that unit. -/

/-- A `vfloat` as an IEEE-754 binary64 datum.  `fin neg mag` is the finite
number `(-1)^neg * mag * 2^(-1074)` (so `fin true 0` is `-0.0`), `inf neg`
an infinity and `nan` a NaN.  The magnitudes of doubles are the `mag` below
`2^53` and, in a binade `[2^e, 2^(e+1))` with `53 ≤ e < 2098`, the multiples
of `2^(e - 52)`. -/
inductive Dbl where
  | fin (neg : Bool) (mag : ℕ)
  | inf (neg : Bool)
  | nan
  deriving DecidableEq, Repr

/-- Round `n / d` to the nearest integer, ties to the even one. -/
def roundEven (n d : ℕ) : ℕ :=
  if 2 * (n % d) < d then n / d
  else if d < 2 * (n % d) then n / d + 1
  else if n / d % 2 = 0 then n / d else n / d + 1

/-- Bit `2^k` and the lower bits of the binary order of `x`, added to `e`:
for `2^e ≤ x < 2^(e + 2^(k+1))` the result `r` has `2^r ≤ x < 2^(r+1)`. -/
def binaryOrderFrom : ℕ → ℕ → ℕ → ℕ
  | 0, e, x => if 2 ^ (e + 1) ≤ x then e + 1 else e
  | k + 1, e, x =>
    if 2 ^ (e + 2 ^ (k + 1)) ≤ x then binaryOrderFrom k (e + 2 ^ (k + 1)) x
    else binaryOrderFrom k e x

/-- Binary order of `x`: the `e` with `2^e ≤ x < 2^(e+1)`, for
`1 ≤ x < 2^8192`. -/
def binaryOrder (x : ℕ) : ℕ := binaryOrderFrom 12 0 x

/-- Round the magnitude `n / d` to the nearest magnitude of a double, ties
to even: the quantum is one unit below `2^53` and `2^(e - 52)` in the
binade `[2^e, 2^(e+1))`; `none` is overflow (the rounded magnitude is
`2^2098 = 2^1024 / 2^(-1074)` or more). -/
def roundMag (n d : ℕ) : Option ℕ :=
  let s := binaryOrder (n / d) - 52
  let m := roundEven n (d * 2 ^ s) * 2 ^ s
  if m < 2 ^ 2098 then some m else none

/-- The double nearest to `(-1)^neg * n / d`, an infinity on overflow. -/
def Dbl.round (neg : Bool) (n d : ℕ) : Dbl :=
  match roundMag n d with
  | some m => Dbl.fin neg m
  | none => Dbl.inf neg

/-- Unary minus. -/
def Dbl.neg : Dbl → Dbl
  | Dbl.fin s m => Dbl.fin (!s) m
  | Dbl.inf s => Dbl.inf (!s)
  | Dbl.nan => Dbl.nan

/-- The `abs` of a double. -/
def Dbl.abs : Dbl → Dbl
  | Dbl.fin _ m => Dbl.fin false m
  | Dbl.inf _ => Dbl.inf false
  | Dbl.nan => Dbl.nan

/-- Sum `x + y` of two doubles.  An exact sum of zero is `+0`, except that
`(-0) + (-0)` is `-0`. -/
def Dbl.add : Dbl → Dbl → Dbl
  | Dbl.nan, _ => Dbl.nan
  | _, Dbl.nan => Dbl.nan
  | Dbl.inf a, Dbl.inf b => if a = b then Dbl.inf a else Dbl.nan
  | Dbl.inf a, Dbl.fin _ _ => Dbl.inf a
  | Dbl.fin _ _, Dbl.inf b => Dbl.inf b
  | Dbl.fin a m, Dbl.fin b n =>
    if a = b then Dbl.round a (m + n) 1
    else if n < m then Dbl.round a (m - n) 1
    else if m < n then Dbl.round b (n - m) 1
    else Dbl.fin false 0

/-- Difference `x - y` of two doubles. -/
def Dbl.sub (x y : Dbl) : Dbl := Dbl.add x (Dbl.neg y)

/-- Product `x * y` of two doubles. -/
def Dbl.mul : Dbl → Dbl → Dbl
  | Dbl.nan, _ => Dbl.nan
  | _, Dbl.nan => Dbl.nan
  | Dbl.inf a, Dbl.inf b => Dbl.inf (xor a b)
  | Dbl.inf a, Dbl.fin b n => if n = 0 then Dbl.nan else Dbl.inf (xor a b)
  | Dbl.fin a m, Dbl.inf b => if m = 0 then Dbl.nan else Dbl.inf (xor a b)
  | Dbl.fin a m, Dbl.fin b n => Dbl.round (xor a b) (m * n) (2 ^ 1074)

/-- Quotient `x / y` of two doubles. -/
def Dbl.div : Dbl → Dbl → Dbl
  | Dbl.nan, _ => Dbl.nan
  | _, Dbl.nan => Dbl.nan
  | Dbl.inf _, Dbl.inf _ => Dbl.nan
  | Dbl.inf a, Dbl.fin b _ => Dbl.inf (xor a b)
  | Dbl.fin a _, Dbl.inf b => Dbl.fin (xor a b) 0
  | Dbl.fin a m, Dbl.fin b n =>
    if n = 0 then (if m = 0 then Dbl.nan else Dbl.inf (xor a b))
    else Dbl.round (xor a b) (m * 2 ^ 1074) n

/-- Position of a double on the number line; the two zeros share one
position and the infinities lie beyond every finite double.  (A NaN has no
position; the value given to it is not used by the comparisons.) -/
def Dbl.rank : Dbl → ℤ
  | Dbl.fin false m => (m : ℤ)
  | Dbl.fin true m => -(m : ℤ)
  | Dbl.inf false => ((2 ^ 2098 : ℕ) : ℤ)
  | Dbl.inf true => -((2 ^ 2098 : ℕ) : ℤ)
  | Dbl.nan => 0

/-- A double that is not a NaN. -/
def Dbl.isNumber : Dbl → Bool
  | Dbl.nan => false
  | _ => true

/-- Comparison `x < y` of doubles: false when either is a NaN. -/
def Dbl.lt (x y : Dbl) : Prop := x.isNumber = true ∧ y.isNumber = true ∧ x.rank < y.rank

instance Dbl.decidableLt : DecidableRel Dbl.lt :=
  fun x y => inferInstanceAs (Decidable (x.isNumber = true ∧ y.isNumber = true ∧ x.rank < y.rank))

/-- Comparison `x <= y` of doubles: false when either is a NaN. -/
def Dbl.le (x y : Dbl) : Prop := x.isNumber = true ∧ y.isNumber = true ∧ x.rank ≤ y.rank

instance Dbl.decidableLe : DecidableRel Dbl.le :=
  fun x y => inferInstanceAs (Decidable (x.isNumber = true ∧ y.isNumber = true ∧ x.rank ≤ y.rank))

/-- Order in which `std::sort` leaves two cells: `x` before `y` unless
`y < x`. -/
def Dbl.before (x y : Dbl) : Prop := ¬ Dbl.lt y x

instance Dbl.decidableBefore : DecidableRel Dbl.before :=
  fun x y => inferInstanceAs (Decidable (¬ Dbl.lt y x))

/-- The double `2.0`, to which the `int` divisor of lines 98 and 108 is
converted. -/
def Dbl.two : Dbl := Dbl.fin false (2 * 2 ^ 1074)

/-- The double of the literal `1.4826` (line 64). -/
def defaultCconstD : Dbl := Dbl.round false (14826 * 2 ^ 1074) 10000

/-- The double of the integer `k` times `2^e`, for doubles written down in
statements (`e ≥ -1074`). -/
def Dbl.ofInt (k : ℤ) (e : ℤ) : Dbl :=
  Dbl.fin (decide (k < 0)) (k.natAbs * 2 ^ (e + 1074).toNat)

/-- Output row with double columns. -/
structure RowD where
  rownum : ℕ
  median : Option Dbl
  mad : Option Dbl
  cutoff : Option Dbl
  deriving DecidableEq, Repr

/-- Member variables of the class `Mad`, the buffers holding doubles. -/
structure InstD where
  iarray : List Dbl
  sarray : List Dbl
  setsize : ℕ
  deriving DecidableEq, Repr

/-- Loop variables of `processPartition`, the buffers holding doubles. -/
structure LoopD where
  iarray : List Dbl
  sarray : List Dbl
  i : ℕ
  rn : ℕ
  deriving DecidableEq, Repr

/-- Store `a[k] = v`. -/
def storeD (a : List Dbl) (k : ℕ) (v : Dbl) : Option (List Dbl) :=
  if k < a.length then some (a.set k v) else none

/-- Load `a[k]`. -/
def loadD (a : List Dbl) (k : ℕ) : Option Dbl := a[k]?

/-- Copy `memcpy(dst, src, n * sizeof(vfloat))`. -/
def memcpyD (dst src : List Dbl) (n : ℕ) : Option (List Dbl) :=
  if n ≤ dst.length ∧ n ≤ src.length then some (src.take n ++ dst.drop n) else none

/-- Call `std::sort(a, a + n)`: the first `n` cells in ascending order
(insertion sort here; on cells without NaN every sorting algorithm gives
the same values in the same places, up to the sign of zeros). -/
def sortCellsD (a : List Dbl) (n : ℕ) : Option (List Dbl) :=
  if n ≤ a.length then some ((a.take n).insertionSort Dbl.before ++ a.drop n) else none

/-- Move `memmove(a, a + 1, sizeof(vfloat) * n)`. -/
def shiftLeftD (a : List Dbl) (n : ℕ) : Option (List Dbl) :=
  if n + 1 ≤ a.length ∨ n = 0 then some ((a.drop 1).take n ++ a.drop n) else none

/-- Lines 95-98 in doubles: the middle cell, or the sum of the two central
cells divided by two. -/
def medianCellsD (sarray : List Dbl) (setsize : ℕ) : Option Dbl :=
  if setsize % 2 = 1 then loadD sarray (setsize / 2)
  else do
    let hi ← loadD sarray (setsize / 2)
    let lo ← loadD sarray (setsize / 2 - 1)
    pure (Dbl.div (Dbl.add hi lo) Dbl.two)

/-- Lines 105-108 in doubles: `cconst * sarray[setsize/2]`, or
`cconst * (hi + lo) / 2`, the product first and the division after it. -/
def madCellsD (cconst : Dbl) (sarray : List Dbl) (setsize : ℕ) : Option Dbl :=
  if setsize % 2 = 1 then do
    let mid ← loadD sarray (setsize / 2)
    pure (Dbl.mul cconst mid)
  else do
    let hi ← loadD sarray (setsize / 2)
    let lo ← loadD sarray (setsize / 2 - 1)
    pure (Dbl.div (Dbl.mul cconst (Dbl.add hi lo)) Dbl.two)

/-- Lines 100-101 in doubles. -/
def deviationsD (median : Dbl) : ℕ → ℕ → List Dbl → Option (List Dbl × ℕ)
  | 0, i, sarray => some (sarray, i)
  | todo + 1, i, sarray => do
    let x ← loadD sarray i
    let sarray ← storeD sarray i (Dbl.abs (Dbl.sub x median))
    deviationsD median todo (i + 1) sarray

/-- Output row of the two NULL branches. -/
def nullRowD (rn : ℕ) : RowD := ⟨rn, none, none, none⟩

/-- One iteration of the `do ... while` body (lines 75-117) in doubles. -/
def bodyD (setsize : ℕ) (cconst : Dbl) (st : LoopD) (value : Option Dbl) :
    Option (LoopD × RowD) :=
  match value with
  | none => some ({ st with rn := st.rn + 1 }, nullRowD st.rn)
  | some value =>
    if st.i + 1 < setsize then do
      let iarray ← storeD st.iarray st.i value
      pure ({ st with iarray := iarray, i := st.i + 1, rn := st.rn + 1 }, nullRowD st.rn)
    else do
      let iarray ← storeD st.iarray (setsize - 1) value
      let sarray ← memcpyD st.sarray iarray setsize
      let sarray ← sortCellsD sarray setsize
      let median ← medianCellsD sarray setsize
      let (sarray, i) ← deviationsD median setsize 0 sarray
      let sarray ← sortCellsD sarray setsize
      let mad ← madCellsD cconst sarray setsize
      let row : RowD :=
        ⟨st.rn, some median, some mad, some (Dbl.div (Dbl.abs (Dbl.sub value median)) mad)⟩
      let iarray ← shiftLeftD iarray (setsize - 1)
      pure (⟨iarray, sarray, i, st.rn + 1⟩, row)

/-- The read loop in doubles. -/
def iterateD (setsize : ℕ) (cconst : Dbl) : LoopD → List (Option Dbl) → Option (List RowD)
  | _, [] => some []
  | st, value :: more => do
    let (st, row) ← bodyD setsize cconst st value
    let rows ← iterateD setsize cconst st more
    pure (row :: rows)

/-- The consistency constant in doubles (lines 64-70): the parameter when
it is supplied, the double of `1.4826` otherwise. -/
def cconstOfD (cconst : Option Dbl) : Dbl :=
  match cconst with
  | none => defaultCconstD
  | some c => c

/-- Lines 60-118 of `processPartition` in doubles; `cconst` is the
parameter of that name, `none` when it is not supplied. -/
def processPartitionD (self : InstD) (cconst : Option Dbl)
    (first : Option Dbl) (rest : List (Option Dbl)) : Option (List RowD) :=
  iterateD self.setsize (cconstOfD cconst) ⟨self.iarray, self.sarray, 0, 1⟩ (first :: rest)

/-- Absolute deviations, in doubles, of the values `w` from `m`. -/
def absDevsD (m : Dbl) (w : List Dbl) : List Dbl := w.map (fun x => Dbl.abs (Dbl.sub x m))

/-- Closed-form median in doubles of `K` ascending values `s`: `s[K/2]`
for odd `K`, `(s[K/2] + s[K/2-1]) / 2` for even `K`. -/
def closedMedianD (s : List Dbl) (K : ℕ) : Dbl :=
  if K % 2 = 1 then s.getD (K / 2) Dbl.nan
  else Dbl.div (Dbl.add (s.getD (K / 2) Dbl.nan) (s.getD (K / 2 - 1) Dbl.nan)) Dbl.two

/-! ### Reference notions of the double-precision reading -/

/-- Ascending sort of doubles, as `sortCellsD` performs it. -/
def sortD (l : List Dbl) : List Dbl := l.insertionSort Dbl.before

/-- Lines 105-108 on the sorted deviations `d`, in the order the code
computes: `C * d[K/2]` for odd `K`, `(C * (d[K/2] + d[K/2-1])) / 2` for
even `K`. -/
def madOfD (C : Dbl) (d : List Dbl) (K : ℕ) : Dbl :=
  if K % 2 = 1 then Dbl.mul C (d.getD (K / 2) Dbl.nan)
  else Dbl.div (Dbl.mul C (Dbl.add (d.getD (K / 2) Dbl.nan) (d.getD (K / 2 - 1) Dbl.nan))) Dbl.two

/-- Non-missing observations of an input of doubles, in arrival order. -/
def observedD (xs : List (Option Dbl)) : List Dbl := xs.reduceOption

/-- The `k` most recent values of a list of doubles. -/
def lastKD (k : ℕ) (l : List Dbl) : List Dbl := l.drop (l.length - k)

/-- Non-missing observations up to and including input position `j`. -/
def seenUpToD (xs : List (Option Dbl)) (j : ℕ) : List Dbl := observedD (xs.take (j + 1))

/-- The FIFO window at input position `j`, in doubles. -/
def windowAtD (K : ℕ) (xs : List (Option Dbl)) (j : ℕ) : List Dbl := lastKD K (seenUpToD xs j)

/-- Median of a window in doubles: the closed form on the sorted window. -/
def winMedianD (w : List Dbl) : Dbl := closedMedianD (sortD w) w.length

/-- The sorted absolute deviations of a window in doubles, formed as the
code forms them: from the cells of the sorted window. -/
def winDevsD (w : List Dbl) : List Dbl := sortD (absDevsD (winMedianD w) (sortD w))

/-- Scaled MAD of a window in doubles. -/
def winMadD (C : Dbl) (w : List Dbl) : Dbl := madOfD C (winDevsD w) w.length

/-- All three statistic columns hold a value. -/
def RowD.populated (r : RowD) : Prop := r.median.isSome ∧ r.mad.isSome ∧ r.cutoff.isSome

/-- All three statistic columns are NULL. -/
def RowD.allNull (r : RowD) : Prop := r.median = none ∧ r.mad = none ∧ r.cutoff = none

/-- Row written for a full window `w` whose newest value is `v`. -/
def statRowD (C : Dbl) (rn : ℕ) (w : List Dbl) (v : Dbl) : RowD :=
  ⟨rn, some (winMedianD w), some (winMadD C w),
    some (Dbl.div (Dbl.abs (Dbl.sub v (winMedianD w))) (winMadD C w))⟩

/-- Row of an observation `x`, given the non-missing values `s` seen up to
and including it. -/
def refRowD (K : ℕ) (C : Dbl) (rn : ℕ) (s : List Dbl) : Option Dbl → RowD
  | none => nullRowD rn
  | some v => if K ≤ s.length then statRowD C rn (lastKD K s) v else nullRowD rn

/-- Rows of a run in doubles described on the list of values seen so far. -/
def refRowsD (K : ℕ) (C : Dbl) : ℕ → List Dbl → List (Option Dbl) → List RowD
  | _, _, [] => []
  | rn, seen, x :: xs =>
    refRowD K C rn (seen ++ observedD [x]) x :: refRowsD K C (rn + 1) (seen ++ observedD [x]) xs

/-- The buffers of a loop state hold `K` cells each, and the index and the
input buffer agree with the values `seen` so far. -/
structure InvD (K : ℕ) (st : LoopD) (seen : List Dbl) : Prop where
  ilen : st.iarray.length = K
  slen : st.sarray.length = K
  warm : seen.length < K → st.i = seen.length ∧ st.iarray.take seen.length = seen
  full : K ≤ seen.length → st.i = K ∧ st.iarray.take (K - 1) = lastKD (K - 1) seen

/-- An instance on which `processPartitionD` may run: a window size of at
least one and two buffers of `setsize` cells each, of arbitrary contents. -/
structure InstD.Ready (m : InstD) : Prop where
  pos : 1 ≤ m.setsize
  ilen : m.iarray.length = m.setsize
  slen : m.sarray.length = m.setsize

/-! ### Finite doubles, and the notions of the lemmas on rounding -/

/-- The magnitude `m` (in units of `2^(-1074)`) is that of a finite double:
below `2^2098` and a multiple of the quantum of its binade. -/
def isDoubleMag (m : ℕ) : Prop := m < 2 ^ 2098 ∧ 2 ^ (binaryOrder m - 52) ∣ m

/-- A finite double. -/
def Dbl.isFinite : Dbl → Prop
  | Dbl.fin _ m => isDoubleMag m
  | _ => False

/-- The rounded magnitude before the overflow test of `roundMag`. -/
def roundRaw (n d : ℕ) : ℕ :=
  roundEven n (d * 2 ^ (binaryOrder (n / d) - 52)) * 2 ^ (binaryOrder (n / d) - 52)

/-- A magnitude on the grid of its binade. -/
def onGrid (m : ℕ) : Prop := 2 ^ (binaryOrder m - 52) ∣ m

/-- Magnitude of the position of `Dbl.round _ n d`: the rounded magnitude,
capped at the position of the infinities. -/
def capMag (n d : ℕ) : ℕ := min (roundRaw n d) (2 ^ 2098)

/-- Position of the double nearest to `z / d`. -/
def rnd (z : ℤ) (d : ℕ) : ℤ := z.sign * (capMag z.natAbs d : ℤ)

/-- Order of the positions of two doubles. -/
def Dbl.rankLe (x y : Dbl) : Prop := x.rank ≤ y.rank

instance Dbl.decidableRankLe : DecidableRel Dbl.rankLe :=
  fun x y => inferInstanceAs (Decidable (x.rank ≤ y.rank))

instance Dbl.rankLe_total : IsTotal Dbl Dbl.rankLe := ⟨fun x y => le_total x.rank y.rank⟩

instance Dbl.rankLe_trans : IsTrans Dbl Dbl.rankLe := ⟨fun _ _ _ h1 h2 => le_trans h1 h2⟩

instance isDoubleMag.decidable (m : ℕ) : Decidable (isDoubleMag m) :=
  inferInstanceAs (Decidable (m < 2 ^ 2098 ∧ 2 ^ (binaryOrder m - 52) ∣ m))

instance Dbl.decidableIsFinite : DecidablePred Dbl.isFinite := fun x =>
  match x with
  | Dbl.fin _ m => inferInstanceAs (Decidable (isDoubleMag m))
  | Dbl.inf _ => isFalse (fun h => h)
  | Dbl.nan => isFalse (fun h => h)

/-- A number in the range of the doubles: an infinity, or finite with a
magnitude below the overflow threshold. -/
def Dbl.inRange : Dbl → Prop
  | Dbl.fin _ m => m < 2 ^ 2098
  | Dbl.inf _ => True
  | Dbl.nan => False

theorem ascending_perm (l : List ℚ) : (ascending l).Perm l :=
  List.perm_insertionSort _ l

theorem ascending_sorted (l : List ℚ) : (ascending l).Sorted (· ≤ ·) :=
  List.sorted_insertionSort _ l

theorem ascending_length (l : List ℚ) : (ascending l).length = l.length :=
  List.length_insertionSort _ l

theorem ascending_unique {s l : List ℚ} (hs : s.Sorted (· ≤ ·)) (hp : s.Perm l) :
    s = ascending l :=
  List.eq_of_perm_of_sorted (hp.trans (ascending_perm l).symm) hs (ascending_sorted l)

theorem ascending_congr {l l' : List ℚ} (hp : l.Perm l') : ascending l = ascending l' :=
  ascending_unique (ascending_sorted l) ((ascending_perm l).trans hp)

/-! ## The buffer primitives on buffers of `K` cells -/

theorem load_of_lt {a : List ℚ} {k : ℕ} (h : k < a.length) : load a k = some (a.getD k 0) := by
  simp [load, List.getD_eq_getElem?_getD, List.getElem?_eq_getElem h]

theorem medianCells_eq {s : List ℚ} {K : ℕ} (hK : 1 ≤ K) (hs : s.length = K) :
    medianCells s K = some (closedMedian s K) := by
  have h1 : K / 2 < s.length := by omega
  have h2 : K / 2 - 1 < s.length := by omega
  unfold medianCells closedMedian
  rw [load_of_lt h1, load_of_lt h2]
  split <;> rfl

theorem madCells_eq {s : List ℚ} {K : ℕ} (C : ℚ) (hK : 1 ≤ K) (hs : s.length = K) :
    madCells C s K = some (C * closedMedian s K) := by
  have h1 : K / 2 < s.length := by omega
  have h2 : K / 2 - 1 < s.length := by omega
  unfold madCells closedMedian
  rw [load_of_lt h1, load_of_lt h2]
  split
  · rfl
  · simp [mul_div_assoc]

theorem store_last {a : List ℚ} {K : ℕ} (hK : 1 ≤ K) (ha : a.length = K) (v : ℚ) :
    store a (K - 1) v = some (a.take (K - 1) ++ [v]) := by
  have h : K - 1 < a.length := by omega
  simp only [store, h, if_true, Option.some.injEq]
  rw [List.set_eq_take_append_cons_drop]
  simp only [h, if_true]
  rw [List.drop_of_length_le (by omega)]

theorem memcpy_full {dst src : List ℚ} {K : ℕ} (hd : dst.length = K) (hs : src.length = K) :
    memcpy dst src K = some src := by
  simp [memcpy, hd, hs, List.take_of_length_le, List.drop_of_length_le]

theorem sortCells_full {a : List ℚ} {K : ℕ} (ha : a.length = K) :
    sortCells a K = some (ascending a) := by
  simp [sortCells, ha, List.take_of_length_le, List.drop_of_length_le, ascending]


theorem deviations_eq (m : ℚ) : ∀ (todo i : ℕ) (s : List ℚ), i + todo = s.length →
    deviations m todo i s = some (s.take i ++ absDevs m (s.drop i), i + todo)
  | 0, i, s, h => by
    have hi : s.length ≤ i := by omega
    simp [deviations, absDevs, List.drop_of_length_le hi, List.take_of_length_le hi]
  | todo + 1, i, s, h => by
    have hi : i < s.length := by omega
    have hlen : i + 1 + todo = (s.set i |s.getD i 0 - m|).length := by
      rw [List.length_set]; omega
    simp only [deviations, load_of_lt hi, store, hi, if_true, Option.bind_eq_bind,
      Option.some_bind]
    rw [deviations_eq m todo (i + 1) _ hlen]
    simp only [Option.some.injEq, Prod.mk.injEq]
    refine ⟨?_, by omega⟩
    have hset : s.set i |s.getD i 0 - m| = s.take i ++ |s.getD i 0 - m| :: s.drop (i + 1) := by
      rw [List.set_eq_take_append_cons_drop]; simp [hi]
    have htl : (s.take i).length = i := by simp; omega
    rw [hset]
    have e1 : List.take (i + 1) (s.take i ++ |s.getD i 0 - m| :: s.drop (i + 1))
        = s.take i ++ [|s.getD i 0 - m|] := by
      rw [List.take_append_eq_append_take, htl]
      simp [List.take_of_length_le (Nat.le_of_eq htl)]
    have e2 : List.drop (i + 1) (s.take i ++ |s.getD i 0 - m| :: s.drop (i + 1))
        = s.drop (i + 1) := by
      rw [List.drop_append_eq_append_drop, htl]
      simp [List.drop_of_length_le (Nat.le_of_eq htl)]
    rw [e1, e2]
    conv_rhs => rw [List.drop_eq_getElem_cons hi]
    simp only [absDevs, List.map_cons, List.append_assoc, List.singleton_append,
      List.getD_eq_getElem?_getD, List.getElem?_eq_getElem hi, Option.getD_some]

theorem deviations_full (m : ℚ) {s : List ℚ} {K : ℕ} (hs : s.length = K) :
    deviations m K 0 s = some (absDevs m s, K) := by
  rw [deviations_eq m K 0 s (by omega)]; simp

theorem shiftLeft_full {a : List ℚ} {K : ℕ} (hK : 1 ≤ K) (ha : a.length = K) :
    shiftLeft a (K - 1) = some (a.drop 1 ++ a.drop (K - 1)) := by
  have h : K - 1 + 1 ≤ a.length := by omega
  simp only [shiftLeft, h, true_or, if_true, Option.some.injEq]
  rw [List.take_of_length_le (by simp; omega)]


theorem ascending_absDevs (m : ℚ) (w : List ℚ) :
    ascending (absDevs m (ascending w)) = ascending (absDevs m w) :=
  ascending_congr ((ascending_perm w).map _)

theorem absDevs_length (m : ℚ) (w : List ℚ) : (absDevs m w).length = w.length := by
  simp [absDevs]

/-- The full-window branch on buffers of `K` cells. -/
theorem body_full {K : ℕ} (C : ℚ) {st : Loop} (v : ℚ) (hK : 1 ≤ K)
    (hil : st.iarray.length = K) (hsl : st.sarray.length = K) (hi : ¬ st.i + 1 < K) :
    body K C st (some v) =
      some (⟨(st.iarray.take (K - 1) ++ [v]).drop 1 ++ [v],
             ascending (absDevs (winMedian (st.iarray.take (K - 1) ++ [v]))
               (st.iarray.take (K - 1) ++ [v])),
             K, st.rn + 1⟩,
            statRow C st.rn (st.iarray.take (K - 1) ++ [v]) v) := by
  have hw : (st.iarray.take (K - 1) ++ [v]).length = K := by simp; omega
  have hsw : (ascending (st.iarray.take (K - 1) ++ [v])).length = K := by
    rw [ascending_length, hw]
  have hdw : (absDevs (closedMedian (ascending (st.iarray.take (K - 1) ++ [v])) K)
      (ascending (st.iarray.take (K - 1) ++ [v]))).length = K := by
    rw [absDevs_length, hsw]
  have hsd : (ascending (absDevs (closedMedian (ascending (st.iarray.take (K - 1) ++ [v])) K)
      (st.iarray.take (K - 1) ++ [v]))).length = K := by
    rw [ascending_length, absDevs_length, hw]
  have hdrop : (st.iarray.take (K - 1) ++ [v]).drop (K - 1) = [v] := by
    rw [List.drop_append_eq_append_drop]
    simp [List.drop_of_length_le, hil]
  simp only [body, hi, if_false, store_last hK hil, Option.bind_eq_bind, Option.some_bind,
    memcpy_full hsl hw, sortCells_full hw, medianCells_eq hK hsw, deviations_full _ hsw,
    sortCells_full hdw, madCells_eq C hK hsd, shiftLeft_full hK hw, hdrop, Option.pure_def,
    ascending_absDevs, statRow, winMedian, winMad, hw]

/-- The warm-up branch. -/
theorem body_warm {K : ℕ} (C : ℚ) {st : Loop} (v : ℚ)
    (hil : st.iarray.length = K) (hi : st.i + 1 < K) :
    body K C st (some v) =
      some (⟨st.iarray.set st.i v, st.sarray, st.i + 1, st.rn + 1⟩, nullRow st.rn) := by
  have h : st.i < st.iarray.length := by omega
  simp [body, hi, store, h]

/-- The NULL branch. -/
theorem body_null (K : ℕ) (C : ℚ) (st : Loop) :
    body K C st none = some (⟨st.iarray, st.sarray, st.i, st.rn + 1⟩, nullRow st.rn) := rfl


theorem observed_nil : observed [] = [] := rfl

theorem observed_cons (x : Option ℚ) (xs : List (Option ℚ)) :
    observed (x :: xs) = observed [x] ++ observed xs := by
  cases x <;> simp [observed, List.reduceOption_cons_of_some, List.reduceOption_cons_of_none]

theorem observed_append (xs ys : List (Option ℚ)) :
    observed (xs ++ ys) = observed xs ++ observed ys := by
  simp [observed, List.reduceOption_append]

theorem lastK_length (k : ℕ) (l : List ℚ) : (lastK k l).length = min k l.length := by
  simp [lastK]; omega

theorem lastK_snoc {K : ℕ} (hK : 1 ≤ K) (seen : List ℚ) (v : ℚ) (h : K ≤ seen.length + 1) :
    lastK K (seen ++ [v]) = lastK (K - 1) seen ++ [v] := by
  unfold lastK
  have e : (seen ++ [v]).length - K = seen.length - (K - 1) := by simp; omega
  rw [e, List.drop_append_of_le_length (by omega)]

theorem lastK_drop_one {K : ℕ} (hK : 1 ≤ K) (l : List ℚ) (h : K ≤ l.length) :
    (lastK K l).drop 1 = lastK (K - 1) l := by
  unfold lastK
  rw [List.drop_drop]
  congr 1; omega

theorem lastK_of_length_le {k : ℕ} {l : List ℚ} (h : l.length ≤ k) : lastK k l = l := by
  unfold lastK
  rw [Nat.sub_eq_zero_of_le h, List.drop_zero]

theorem take_succ_set {a : List ℚ} {i : ℕ} (h : i < a.length) (v : ℚ) :
    (a.set i v).take (i + 1) = a.take i ++ [v] := by
  have htl : (a.take i).length = i := by simp; omega
  rw [List.set_eq_take_append_cons_drop]
  simp only [h, if_true]
  rw [List.take_append_eq_append_take, htl]
  simp [List.take_of_length_le (Nat.le_of_eq htl)]

/-- The initial state of the loop. -/
theorem inv_init {K : ℕ} {ia sa : List ℚ} (hi : ia.length = K) (hs : sa.length = K)
    (hK : 1 ≤ K) (rn : ℕ) : Inv K ⟨ia, sa, 0, rn⟩ [] :=
  ⟨hi, hs, fun _ => ⟨rfl, by simp⟩, fun h => by simp at h; omega⟩

theorem inv_null {K : ℕ} {st : Loop} {seen : List ℚ} (h : Inv K st seen) :
    Inv K ⟨st.iarray, st.sarray, st.i, st.rn + 1⟩ seen :=
  ⟨h.ilen, h.slen, h.warm, h.full⟩

theorem inv_window {K : ℕ} {st : Loop} {seen : List ℚ} (hK : 1 ≤ K) (h : Inv K st seen) (v : ℚ)
    (hf : K ≤ seen.length + 1) :
    ¬ st.i + 1 < K ∧ st.iarray.take (K - 1) ++ [v] = lastK K (seen ++ [v]) := by
  rw [lastK_snoc hK seen v hf]
  rcases Nat.lt_or_ge seen.length K with hlt | hge
  · obtain ⟨hi, ht⟩ := h.warm hlt
    have e : seen.length = K - 1 := by omega
    refine ⟨by omega, ?_⟩
    rw [lastK_of_length_le (by omega), ← e, ht]
  · obtain ⟨hi, ht⟩ := h.full hge
    exact ⟨by omega, by rw [ht]⟩

theorem inv_warm {K : ℕ} {st : Loop} {seen : List ℚ} (h : Inv K st seen) (v : ℚ)
    (hw : seen.length + 1 < K) :
    st.i + 1 < K ∧ Inv K ⟨st.iarray.set st.i v, st.sarray, st.i + 1, st.rn + 1⟩ (seen ++ [v]) := by
  obtain ⟨hi, ht⟩ := h.warm (by omega)
  have hil := h.ilen
  refine ⟨by omega, ⟨by simp [hil], h.slen, fun _ => ⟨by simp [hi], ?_⟩, fun hc => ?_⟩⟩
  · have hlt : st.i < st.iarray.length := by omega
    show List.take (seen ++ [v]).length (st.iarray.set st.i v) = seen ++ [v]
    have e : (seen ++ [v]).length = st.i + 1 := by simp [hi]
    rw [e, take_succ_set hlt, hi, ht]
  · simp at hc; omega

theorem inv_full {K : ℕ} {seen : List ℚ} (hK : 1 ≤ K) (v : ℚ) (sa : List ℚ)
    (hsa : sa.length = K) (rn : ℕ) (hf : K ≤ seen.length + 1) :
    Inv K ⟨(lastK K (seen ++ [v])).drop 1 ++ [v], sa, K, rn⟩ (seen ++ [v]) := by
  have hl : (seen ++ [v]).length = seen.length + 1 := by simp
  have hd : ((lastK K (seen ++ [v])).drop 1).length = K - 1 := by
    rw [List.length_drop, lastK_length, hl]; omega
  refine ⟨by simp only [List.length_append, hd, List.length_singleton]; omega, hsa,
    fun hc => by omega, fun _ => ⟨rfl, ?_⟩⟩
  show List.take (K - 1) ((lastK K (seen ++ [v])).drop 1 ++ [v]) = _
  rw [List.take_append_of_le_length (by omega), List.take_of_length_le (by omega),
    lastK_drop_one hK _ (by omega)]

theorem iterate_eq_refRows {K : ℕ} (C : ℚ) (hK : 1 ≤ K) :
    ∀ (xs : List (Option ℚ)) (st : Loop) (seen : List ℚ), Inv K st seen →
      iterate K C st xs = some (refRows K C st.rn seen xs)
  | [], _, _, _ => rfl
  | none :: xs, st, seen, h => by
    have ih := iterate_eq_refRows C hK xs _ seen (inv_null h)
    simp only [iterate, body_null, Option.bind_eq_bind, Option.some_bind, ih, refRows, refRow,
      observed, List.reduceOption_cons_of_none, List.reduceOption_nil, List.append_nil,
      Option.pure_def]
  | some v :: xs, st, seen, h => by
    have hobs : observed [some v] = [v] := rfl
    rcases Nat.lt_or_ge (seen.length + 1) K with hw | hf
    · obtain ⟨hi, hinv⟩ := inv_warm h v hw
      have ih := iterate_eq_refRows C hK xs _ (seen ++ [v]) hinv
      have hn : ¬ K ≤ (seen ++ [v]).length := by simp; omega
      simp only [iterate, body_warm C v h.ilen hi, Option.bind_eq_bind, Option.some_bind, ih,
        refRows, refRow, hobs, hn, if_false, Option.pure_def]
    · obtain ⟨hi, hwin⟩ := inv_window hK h v hf
      have hy : K ≤ (seen ++ [v]).length := by simp; omega
      have ih := iterate_eq_refRows C hK xs _ (seen ++ [v])
        (inv_full hK v (ascending (absDevs (winMedian (lastK K (seen ++ [v])))
          (lastK K (seen ++ [v])))) (by
            rw [ascending_length, absDevs_length, lastK_length]; simp; omega)
          (st.rn + 1) hf)
      simp only [iterate, body_full C v hK h.ilen h.slen hi, hwin, Option.bind_eq_bind,
        Option.some_bind, ih, refRows, refRow, hobs, hy, if_true, Option.pure_def]


theorem refRows_length (K : ℕ) (C : ℚ) :
    ∀ (xs : List (Option ℚ)) (rn : ℕ) (seen : List ℚ), (refRows K C rn seen xs).length = xs.length
  | [], _, _ => rfl
  | x :: xs, rn, seen => by simp [refRows, refRows_length K C xs]

theorem refRows_append (K : ℕ) (C : ℚ) :
    ∀ (xs ys : List (Option ℚ)) (rn : ℕ) (seen : List ℚ),
      refRows K C rn seen (xs ++ ys) =
        refRows K C rn seen xs ++ refRows K C (rn + xs.length) (seen ++ observed xs) ys
  | [], ys, rn, seen => by simp [refRows, observed_nil]
  | x :: xs, ys, rn, seen => by
    have e : rn + 1 + xs.length = rn + (xs.length + 1) := by omega
    have ih := refRows_append K C xs ys (rn + 1) (seen ++ observed [x])
    rw [List.cons_append, refRows, ih, refRows, observed_cons x xs, List.length_cons, e,
      List.append_assoc, List.cons_append]

theorem refRows_getElem (K : ℕ) (C : ℚ) :
    ∀ (xs : List (Option ℚ)) (rn : ℕ) (seen : List ℚ) (j : ℕ),
      (refRows K C rn seen xs)[j]? =
        (xs[j]?).map (refRow K C (rn + j) (seen ++ seenUpTo xs j))
  | [], _, _, _ => by simp [refRows]
  | x :: xs, rn, seen, 0 => by simp [refRows, seenUpTo]
  | x :: xs, rn, seen, j + 1 => by
    have e : rn + 1 + j = rn + (j + 1) := by omega
    simp only [refRows, List.getElem?_cons_succ, refRows_getElem K C xs, seenUpTo,
      List.take_succ_cons, observed_cons x (List.take (j + 1) xs), List.append_assoc, e]

theorem processPartition_eq (self : Inst) (params : ParamReader) (first : Option ℚ)
    (rest : List (Option ℚ)) (h : self.Ready) :
    processPartition self params first rest =
      some (refRows self.setsize (cconstOf params) 1 [] (first :: rest)) :=
  iterate_eq_refRows (cconstOf params) h.pos (first :: rest) _ [] (inv_init h.ilen h.slen h.pos 1)

/-- Row `j` of a run on `xs`, from the observation at `j`. -/
theorem row_of_run {self : Inst} {params : ParamReader} {first : Option ℚ}
    {rest : List (Option ℚ)} {rows : List Row} (h : self.Ready)
    (hrun : processPartition self params first rest = some rows) {j : ℕ} {r : Row}
    (hr : rows[j]? = some r) :
    ∃ x, (first :: rest)[j]? = some x ∧
      r = refRow self.setsize (cconstOf params) (j + 1) (seenUpTo (first :: rest) j) x := by
  rw [processPartition_eq self params first rest h] at hrun
  cases hrun
  rw [refRows_getElem] at hr
  cases hx : (first :: rest)[j]? with
  | none => rw [hx] at hr; simp at hr
  | some x =>
    rw [hx] at hr
    refine ⟨x, rfl, ?_⟩
    simp only [Option.map_some', Option.some.injEq, List.nil_append] at hr
    rw [← hr, Nat.add_comm]

theorem seenUpTo_some {xs : List (Option ℚ)} {j : ℕ} {v : ℚ} (h : xs[j]? = some (some v)) :
    seenUpTo xs j = observed (xs.take j) ++ [v] := by
  simp only [seenUpTo, List.take_succ, h, observed_append]
  rfl

theorem seenUpTo_none {xs : List (Option ℚ)} {j : ℕ} (h : xs[j]? = some none) :
    seenUpTo xs j = observed (xs.take j) := by
  simp only [seenUpTo, List.take_succ, h, observed_append]
  simp [observed]

theorem refRow_populated_iff (K : ℕ) (C : ℚ) (rn : ℕ) (s : List ℚ) (x : Option ℚ) :
    (refRow K C rn s x).populated ↔ x.isSome ∧ K ≤ s.length := by
  cases x with
  | none => simp [refRow, nullRow, Row.populated]
  | some v =>
    by_cases hk : K ≤ s.length <;> simp [refRow, nullRow, Row.populated, statRow, hk]

theorem refRow_allNull (K : ℕ) (C : ℚ) (rn : ℕ) (s : List ℚ) (x : Option ℚ)
    (h : ¬ (refRow K C rn s x).populated) : (refRow K C rn s x).allNull := by
  cases x with
  | none => simp [refRow, nullRow, Row.allNull]
  | some v =>
    by_cases hk : K ≤ s.length
    · exact absurd ((refRow_populated_iff K C rn s (some v)).2 ⟨rfl, hk⟩) h
    · simp [refRow, nullRow, Row.allNull, hk]

/-- A populated row is the statistics row of its window. -/
theorem refRow_of_populated {K : ℕ} {C : ℚ} {rn : ℕ} {s : List ℚ} {x : Option ℚ}
    (h : (refRow K C rn s x).populated) :
    ∃ v, x = some v ∧ K ≤ s.length ∧ refRow K C rn s x = statRow C rn (lastK K s) v := by
  obtain ⟨hx, hk⟩ := (refRow_populated_iff K C rn s x).1 h
  cases x with
  | none => simp at hx
  | some v => exact ⟨v, rfl, hk, by simp [refRow, hk]⟩


theorem example_rows :
    refRows 5 (14826 / 10000) 1 [] [some 1, some 2, some 3, some 4, some 5, some 100] =
      [⟨1, none, none, none⟩, ⟨2, none, none, none⟩, ⟨3, none, none, none⟩,
       ⟨4, none, none, none⟩,
       ⟨5, some 3, some (14826 / 10000), some (FDiv.fin (2 / (14826 / 10000)))⟩,
       ⟨6, some 4, some (14826 / 10000), some (FDiv.fin (96 / (14826 / 10000)))⟩] := by
  have h1 : ascending [1, 2, 3, 4, 5] = [1, 2, 3, 4, 5] := by
    norm_num [ascending, List.insertionSort, List.orderedInsert]
  have h2 : ascending [2, 3, 4, 5, 100] = [2, 3, 4, 5, 100] := by
    norm_num [ascending, List.insertionSort, List.orderedInsert]
  have h3 : ascending [2, 1, 0, 1, 2] = [0, 1, 1, 2, 2] := by
    norm_num [ascending, List.insertionSort, List.orderedInsert]
  have h4 : ascending [2, 1, 0, 1, 96] = [0, 1, 1, 2, 96] := by
    norm_num [ascending, List.insertionSort, List.orderedInsert]
  have a1 : |(1 : ℚ) - 3| = 2 := by norm_num [abs_of_neg]
  have a2 : |(2 : ℚ) - 3| = 1 := by norm_num [abs_of_neg]
  have a3 : |(2 : ℚ) - 4| = 2 := by norm_num [abs_of_neg]
  have a4 : |(3 : ℚ) - 4| = 1 := by norm_num [abs_of_neg]
  norm_num [refRows, refRow, observed, lastK, statRow, winMedian, winMad, closedMedian, absDevs,
    fdiv, nullRow, h1, h2, h3, h4, a1, a2, a3, a4]

theorem seenUpTo_length_le (xs : List (Option ℚ)) (j : ℕ) :
    (seenUpTo xs j).length ≤ (observed xs).length := by
  have h : observed xs = seenUpTo xs j ++ observed (xs.drop (j + 1)) := by
    rw [seenUpTo, ← observed_append, List.take_append_drop]
  rw [h, List.length_append]; omega

theorem windowAt_length {K : ℕ} {xs : List (Option ℚ)} {j : ℕ}
    (h : K ≤ (seenUpTo xs j).length) : (windowAt K xs j).length = K := by
  rw [windowAt, lastK_length]; omega

theorem refRow_rownum (K : ℕ) (C : ℚ) (rn : ℕ) (s : List ℚ) (x : Option ℚ) :
    (refRow K C rn s x).rownum = rn := by
  cases x with
  | none => rfl
  | some v => by_cases hk : K ≤ s.length <;> simp [refRow, hk, statRow, nullRow]

theorem refRow_stats (K : ℕ) (C : ℚ) (rn rn' : ℕ) (s : List ℚ) (x : Option ℚ) :
    (refRow K C rn s x).stats = (refRow K C rn' s x).stats := by
  cases x with
  | none => rfl
  | some v => by_cases hk : K ≤ s.length <;> simp [refRow, hk, statRow, nullRow, Row.stats]

theorem refRows_filter (K : ℕ) (C : ℚ) :
    ∀ (xs : List (Option ℚ)) (rn rn' : ℕ) (seen : List ℚ),
      ((xs.zip (refRows K C rn seen xs)).filter (fun p => p.1.isSome)).map (fun p => p.2.stats) =
        (refRows K C rn' seen (xs.filter Option.isSome)).map Row.stats
  | [], _, _, _ => rfl
  | none :: xs, rn, rn', seen => by
    have ih := refRows_filter K C xs (rn + 1) rn' seen
    have e : observed [none] = [] := rfl
    simpa [refRows, e] using ih
  | some v :: xs, rn, rn', seen => by
    have ih := refRows_filter K C xs (rn + 1) (rn' + 1) (seen ++ [v])
    have e : observed [some v] = [v] := rfl
    have hs := refRow_stats K C rn rn' (seen ++ [v]) (some v)
    simp only [refRows, e, List.zip_cons_cons, List.filter_cons, Option.isSome_some, if_true,
      List.map_cons, ih, hs]


/-- A populated row of a run is the statistics row of the window at its
position, and the observation at that position is the newest window value. -/
theorem populated_row_of_run {self : Inst} {params : ParamReader} {first : Option ℚ}
    {rest : List (Option ℚ)} {rows : List Row} (h : self.Ready)
    (hrun : processPartition self params first rest = some rows) {j : ℕ} {r : Row}
    (hr : rows[j]? = some r) (hp : r.populated) :
    ∃ v, (first :: rest)[j]? = some (some v) ∧
      self.setsize ≤ (seenUpTo (first :: rest) j).length ∧
      r = statRow (cconstOf params) (j + 1) (windowAt self.setsize (first :: rest) j) v := by
  obtain ⟨x, hx, rfl⟩ := row_of_run h hrun hr
  obtain ⟨v, rfl, hk, he⟩ := refRow_of_populated hp
  exact ⟨v, hx, hk, he⟩

theorem windowAt_getLast {K : ℕ} (hK : 1 ≤ K) {xs : List (Option ℚ)} {j : ℕ} {v : ℚ}
    (hx : xs[j]? = some (some v)) : (windowAt K xs j).getLast? = some v := by
  rw [windowAt, seenUpTo_some hx, lastK]
  have hlt : (observed (xs.take j) ++ [v]).length - K < (observed (xs.take j) ++ [v]).length := by
    simp; omega
  rw [List.getLast?_drop, if_neg (by omega)]
  simp


theorem getD_mem {l : List ℚ} {i : ℕ} (h : i < l.length) : l.getD i 0 ∈ l := by
  rw [List.getD_eq_getElem _ _ h]
  exact List.getElem_mem h

theorem closedMedian_const {s : List ℚ} {K : ℕ} {c : ℚ} (hs : ∀ x ∈ s, x = c)
    (hlen : s.length = K) (hK : 1 ≤ K) : closedMedian s K = c := by
  have h1 : s.getD (K / 2) 0 = c := hs _ (getD_mem (by omega))
  have h2 : s.getD (K / 2 - 1) 0 = c := hs _ (getD_mem (by omega))
  unfold closedMedian
  rw [h1, h2]
  split
  · rfl
  · ring

theorem mem_ascending {l : List ℚ} {x : ℚ} : x ∈ ascending l ↔ x ∈ l :=
  (ascending_perm l).mem_iff

/-- Statistics row of a window of equal values. -/
theorem statRow_const {C : ℚ} {rn : ℕ} {w : List ℚ} {v c : ℚ} (hw : ∀ x ∈ w, x = c)
    (hlen : 1 ≤ w.length) (hv : v ∈ w) :
    statRow C rn w v = ⟨rn, some c, some 0, some FDiv.nan⟩ := by
  have hm : winMedian w = c :=
    closedMedian_const (fun x hx => hw x (mem_ascending.1 hx)) (ascending_length w) hlen
  have hd : winMad C w = 0 := by
    unfold winMad
    rw [closedMedian_const (c := 0) _ (by rw [ascending_length, absDevs_length]) hlen, mul_zero]
    intro x hx
    rw [mem_ascending, absDevs, List.mem_map] at hx
    obtain ⟨y, hy, rfl⟩ := hx
    rw [hm, hw y hy, sub_self, abs_zero]
  simp only [statRow, hm, hd, hw v hv, sub_self, abs_zero, fdiv, if_true]

theorem mem_of_getLast {l : List ℚ} {v : ℚ} (h : l.getLast? = some v) : v ∈ l :=
  List.mem_of_getLast?_eq_some h


theorem ascending_snoc {w : List ℚ} {v : ℚ} (h : ∀ x ∈ w, x ≤ v) :
    ascending (w ++ [v]) = ascending w ++ [v] := by
  symm
  apply ascending_unique
  · rw [List.Sorted, List.pairwise_append]
    refine ⟨ascending_sorted w, List.pairwise_singleton _ _, ?_⟩
    intro a ha b hb
    rw [List.mem_singleton] at hb
    rw [hb]
    exact h a (mem_ascending.1 ha)
  · exact (ascending_perm w).append_right [v]

theorem closedMedian_snoc {s : List ℚ} {K : ℕ} (a : ℚ) (hK : 3 ≤ K) (hs : s.length + 1 = K) :
    closedMedian (s ++ [a]) K = closedMedian s K := by
  unfold closedMedian
  rw [List.getD_append _ _ _ _ (by omega), List.getD_append _ _ _ _ (by omega)]

theorem getD_nonneg {l : List ℚ} (h : ∀ x ∈ l, 0 ≤ x) (i : ℕ) : 0 ≤ l.getD i 0 := by
  rcases Nat.lt_or_ge i l.length with hi | hi
  · exact h _ (getD_mem hi)
  · rw [List.getD_eq_default _ _ hi]

theorem closedMedian_nonneg {s : List ℚ} (h : ∀ x ∈ s, 0 ≤ x) (K : ℕ) :
    0 ≤ closedMedian s K := by
  have h1 := getD_nonneg h (K / 2)
  have h2 := getD_nonneg h (K / 2 - 1)
  unfold closedMedian
  split
  · exact h1
  · linarith

theorem winMad_nonneg {C : ℚ} (hC : 0 ≤ C) (w : List ℚ) : 0 ≤ winMad C w := by
  unfold winMad
  apply mul_nonneg hC
  apply closedMedian_nonneg
  intro x hx
  rw [mem_ascending, absDevs, List.mem_map] at hx
  obtain ⟨y, _, rfl⟩ := hx
  exact abs_nonneg _

/-- Median of a window whose newest value is its largest: the newest value
does not enter it. -/
theorem winMedian_snoc {w : List ℚ} {v : ℚ} (hK : 3 ≤ w.length + 1) (h : ∀ x ∈ w, x ≤ v) :
    winMedian (w ++ [v]) = closedMedian (ascending w) (w.length + 1) := by
  have hl : (w ++ [v]).length = w.length + 1 := by simp
  rw [winMedian, ascending_snoc h, hl, closedMedian_snoc v hK (by rw [ascending_length])]

/-- Scaled MAD of a window whose newest value has the largest deviation
from `m`. -/
theorem medianDev_snoc {w : List ℚ} {v m : ℚ} (hK : 3 ≤ w.length + 1)
    (h : ∀ x ∈ w, |x - m| ≤ |v - m|) :
    closedMedian (ascending (absDevs m (w ++ [v]))) (w ++ [v]).length =
      closedMedian (ascending (absDevs m w)) (w.length + 1) := by
  have hl : (w ++ [v]).length = w.length + 1 := by simp
  have hd : absDevs m (w ++ [v]) = absDevs m w ++ [|v - m|] := by simp [absDevs]
  have hle : ∀ y ∈ absDevs m w, y ≤ |v - m| := by
    intro y hy
    rw [absDevs, List.mem_map] at hy
    obtain ⟨x, hx, rfl⟩ := hy
    exact h x hx
  rw [hd, ascending_snoc hle, hl,
    closedMedian_snoc _ hK (by rw [ascending_length, absDevs_length])]

/-- Last row of a run whose last observation is `v`. -/
theorem last_row_of_run (self : Inst) (params : ParamReader) (first : Option ℚ)
    (rest : List (Option ℚ)) (v : ℚ) (h : self.Ready)
    (hfull : self.setsize ≤ (observed (first :: rest)).length + 1) :
    ∃ rows, processPartition self params first (rest ++ [some v]) = some rows ∧
      rows.getLast? = some (statRow (cconstOf params) (rest.length + 2)
        (lastK (self.setsize - 1) (observed (first :: rest)) ++ [v]) v) := by
  refine ⟨_, processPartition_eq self params first (rest ++ [some v]) h, ?_⟩
  have e : first :: (rest ++ [some v]) = (first :: rest) ++ [some v] := rfl
  have hobs : observed [some v] = [v] := rfl
  have hk : self.setsize ≤ (observed (first :: rest) ++ [v]).length := by simpa using hfull
  have hrn : 1 + (first :: rest).length = rest.length + 2 := by
    rw [List.length_cons]; omega
  rw [e, refRows_append, hrn]
  simp only [refRows, List.nil_append, hobs, refRow, hk, if_true,
    lastK_snoc h.pos _ v hfull]
  rw [List.getLast?_append]
  rfl


/-- Statistics of a full window `w ++ [v]` whose newest value `v` exceeds
the others and deviates most from the median: median and scaled MAD are
read off `w` alone. -/
theorem outlier_stats {C : ℚ} {w : List ℚ} {v : ℚ} (hK : 3 ≤ w.length + 1)
    (hmax : ∀ x ∈ w, x ≤ v)
    (hdev : ∀ x ∈ w, |x - closedMedian (ascending w) (w.length + 1)| ≤
      |v - closedMedian (ascending w) (w.length + 1)|) :
    winMedian (w ++ [v]) = closedMedian (ascending w) (w.length + 1) ∧
    winMad C (w ++ [v]) =
      C * closedMedian (ascending (absDevs (closedMedian (ascending w) (w.length + 1)) w))
        (w.length + 1) := by
  have hm := winMedian_snoc hK hmax
  refine ⟨hm, ?_⟩
  rw [winMad, hm, medianDev_snoc hK hdev]


/-- One step of the body on a state that agrees with the values seen: it
returns, writes the reference row, and the new state agrees with the values
seen including the new one. -/
theorem body_inv {K : ℕ} (C : ℚ) (hK : 1 ≤ K) {st : Loop} {seen : List ℚ} (h : Inv K st seen)
    (x : Option ℚ) :
    ∃ st', body K C st x = some (st', refRow K C st.rn (seen ++ observed [x]) x) ∧
      Inv K st' (seen ++ observed [x]) ∧ st'.rn = st.rn + 1 := by
  cases x with
  | none =>
    have e : observed [none] = [] := rfl
    rw [e, List.append_nil]
    exact ⟨_, body_null K C st, inv_null h, rfl⟩
  | some v =>
    have hobs : observed [some v] = [v] := rfl
    rw [hobs]
    rcases Nat.lt_or_ge (seen.length + 1) K with hw | hf
    · obtain ⟨hi, hinv⟩ := inv_warm h v hw
      have hn : ¬ K ≤ (seen ++ [v]).length := by simp; omega
      refine ⟨_, ?_, hinv, rfl⟩
      rw [body_warm C v h.ilen hi]
      simp only [refRow, hn, if_false]
    · obtain ⟨hi, hwin⟩ := inv_window hK h v hf
      have hy : K ≤ (seen ++ [v]).length := by simp; omega
      refine ⟨_, ?_, inv_full hK v (ascending (absDevs (winMedian (lastK K (seen ++ [v])))
          (lastK K (seen ++ [v])))) (by
            rw [ascending_length, absDevs_length, lastK_length]; simp; omega)
          (st.rn + 1) hf, rfl⟩
      rw [body_full C v hK h.ilen h.slen hi, hwin]
      simp only [refRow, hy, if_true]

theorem loopState_inv {K : ℕ} (C : ℚ) (hK : 1 ≤ K) :
    ∀ (xs : List (Option ℚ)) (st : Loop) (seen : List ℚ), Inv K st seen →
      ∃ st', loopState K C st xs = some st' ∧ Inv K st' (seen ++ observed xs) ∧
        st'.rn = st.rn + xs.length
  | [], st, seen, h => ⟨st, rfl, by rw [observed_nil, List.append_nil]; exact h, rfl⟩
  | x :: xs, st, seen, h => by
    obtain ⟨st1, hb, hinv, hrn⟩ := body_inv C hK h x
    obtain ⟨st2, hl, hinv2, hrn2⟩ := loopState_inv C hK xs st1 _ hinv
    refine ⟨st2, ?_, ?_, ?_⟩
    · simp only [loopState, hb, Option.bind_eq_bind, Option.some_bind, hl]
    · rw [observed_cons x xs, ← List.append_assoc]; exact hinv2
    · rw [hrn2, hrn, List.length_cons]; omega

theorem loopState_append (K : ℕ) (C : ℚ) :
    ∀ (xs ys : List (Option ℚ)) (st : Loop),
      loopState K C st (xs ++ ys) = (loopState K C st xs).bind (fun s => loopState K C s ys)
  | [], _, _ => rfl
  | x :: xs, ys, st => by
    cases hb : body K C st x with
    | none => simp [loopState, hb]
    | some p =>
      obtain ⟨s, r⟩ := p
      simp only [List.cons_append, loopState, hb, Option.bind_eq_bind, Option.some_bind]
      exact loopState_append K C xs ys s

theorem inv_entry {self : Inst} (h : self.Ready) : Inv self.setsize (entryState self) [] :=
  inv_init h.ilen h.slen h.pos 1

/-- The loop state after a prefix of the input of a run. -/
theorem state_of_run {self : Inst} (params : ParamReader) (h : self.Ready)
    (pre : List (Option ℚ)) :
    ∃ st, loopState self.setsize (cconstOf params) (entryState self) pre = some st ∧
      Inv self.setsize st (observed pre) ∧ st.rn = pre.length + 1 := by
  obtain ⟨st, hl, hinv, hrn⟩ := loopState_inv (cconstOf params) h.pos pre _ [] (inv_entry h)
  refine ⟨st, hl, by simpa using hinv, ?_⟩
  rw [hrn]; simp [entryState]; omega


/-- The buffers a run leaves behind make an instance on which the next run
may start. -/
theorem partitionEnd_ready {self : Inst} (params : ParamReader) (first : Option ℚ)
    (rest : List (Option ℚ)) (h : self.Ready) :
    ∃ left, partitionEnd self params first rest = some left ∧ left.Ready ∧
      left.setsize = self.setsize := by
  obtain ⟨st, hl, hinv, _⟩ := state_of_run params h (first :: rest)
  refine ⟨⟨st.iarray, st.sarray, self.setsize⟩, ?_, ⟨h.pos, hinv.ilen, hinv.slen⟩, rfl⟩
  simp only [partitionEnd, hl, Option.map_some']


/-- The step of a run on the observation `x` that follows the prefix
`pre`: the state before it, the state after it and the row it writes. -/
theorem step_of_run {self : Inst} (params : ParamReader) (h : self.Ready) {first : Option ℚ}
    {rest pre post : List (Option ℚ)} {x : Option ℚ}
    (hsplit : first :: rest = pre ++ x :: post) :
    ∃ st st' rows,
      loopState self.setsize (cconstOf params) (entryState self) pre = some st ∧
      Inv self.setsize st (observed pre) ∧
      body self.setsize (cconstOf params) st x =
        some (st', refRow self.setsize (cconstOf params) (pre.length + 1)
          (observed pre ++ observed [x]) x) ∧
      Inv self.setsize st' (observed pre ++ observed [x]) ∧
      loopState self.setsize (cconstOf params) (entryState self) (pre ++ [x]) = some st' ∧
      processPartition self params first rest = some rows ∧
      rows[pre.length]? =
        some (refRow self.setsize (cconstOf params) (pre.length + 1)
          (observed pre ++ observed [x]) x) := by
  obtain ⟨st, hl, hinv, hrn⟩ := state_of_run params h pre
  obtain ⟨st', hb, hinv', _⟩ := body_inv (cconstOf params) h.pos hinv x
  rw [hrn] at hb
  refine ⟨st, st', _, hl, hinv, hb, hinv', ?_, processPartition_eq self params first rest h, ?_⟩
  · rw [loopState_append, hl]
    simp only [Option.some_bind, loopState, hb, Option.bind_eq_bind]
  · have hx : (pre ++ x :: post)[pre.length]? = some x := by
      rw [List.getElem?_append_right (le_refl _), Nat.sub_self, List.getElem?_cons_zero]
    have ht : List.take (pre.length + 1) (pre ++ x :: post) = pre ++ [x] := by
      rw [List.take_append_eq_append_take]
      simp
    rw [hsplit, refRows_getElem, hx, Option.map_some', seenUpTo, ht, observed_append,
      List.nil_append, Nat.add_comm]


theorem setup_default (cc : Option ℚ) (ialloc salloc : ℕ → Option (List ℚ)) :
    setup ⟨none, cc⟩ ialloc salloc =
      match ialloc 80 with
      | none => Except.error (110, "Error allocating iarray memory")
      | some bi =>
        match salloc 80 with
        | none => Except.error (110, "Error allocating sarray memory")
        | some bs => Except.ok ⟨bi, bs, 10⟩ := by
  have e : 10 * sizeofVfloat % 2 ^ 64 = 80 := by decide
  simp only [setup, pure_bind, e]
  cases ialloc 80 with
  | none => rfl
  | some bi =>
    cases salloc 80 with
    | none => rfl
    | some bs => rfl

theorem setup_supplied (p : ℤ) (cc : Option ℚ) (ialloc salloc : ℕ → Option (List ℚ))
    (hp1 : 1 ≤ p) (hp2 : p < 2 ^ 63) :
    setup ⟨some p, cc⟩ ialloc salloc =
      match ialloc (p.toNat * sizeofVfloat % 2 ^ 64) with
      | none => Except.error (110, "Error allocating iarray memory")
      | some bi =>
        match salloc (p.toNat * sizeofVfloat % 2 ^ 64) with
        | none => Except.error (110, "Error allocating sarray memory")
        | some bs => Except.ok ⟨bi, bs, p.toNat⟩ := by
  have e : (p % 2 ^ 64).toNat = p.toNat := by
    rw [Int.emod_eq_of_lt (by omega) (by omega)]
  have hn : ¬ p.toNat < 1 := by omega
  simp only [setup, e, if_neg hn, pure_bind]
  cases ialloc (p.toNat * sizeofVfloat % 2 ^ 64) with
  | none => rfl
  | some bi =>
    cases salloc (p.toNat * sizeofVfloat % 2 ^ 64) with
    | none => rfl
    | some bs => rfl


theorem take_split (pre post : List (Option ℚ)) (x : Option ℚ) (j : ℕ) (hj : pre.length ≤ j) :
    List.take (j + 1) (pre ++ x :: post) = pre ++ x :: List.take (j - pre.length) post := by
  have e : j + 1 - pre.length = (j - pre.length) + 1 := by omega
  rw [List.take_append_eq_append_take, List.take_of_length_le (by omega), e, List.take_succ_cons]

theorem seenUpTo_length_ge (pre post : List (Option ℚ)) (v : ℚ) (j : ℕ) (hj : pre.length ≤ j) :
    (observed pre).length + 1 ≤ (seenUpTo (pre ++ some v :: post) j).length := by
  have hobs : observed [some v] = [v] := rfl
  rw [seenUpTo, take_split pre post (some v) j hj, observed_append, observed_cons, hobs]
  simp only [List.length_append, List.length_singleton]
  omega

/-- A state that agrees with the values seen takes the full-window branch
exactly from the `K`-th value on. -/
theorem inv_branch {K : ℕ} {st : Loop} {seen : List ℚ} (h : Inv K st seen) :
    ¬ st.i + 1 < K ↔ K ≤ seen.length + 1 := by
  rcases Nat.lt_or_ge seen.length K with hlt | hge
  · rw [(h.warm hlt).1]; omega
  · rw [(h.full hge).1]; omega


/-- With a window size whose byte count does not wrap and allocators that
hand out blocks of the requested size, `setup` leaves an instance on which
`processPartition` may run. -/
theorem setup_ready (params : ParamReader) (ialloc salloc : ℕ → Option (List ℚ)) (inst : Inst)
    (hsz : ∀ p, params.setsize = some p → 1 ≤ p ∧ p < 2 ^ 61)
    (hia : ∀ n b, ialloc n = some b → b.length = n / sizeofVfloat)
    (hsa : ∀ n b, salloc n = some b → b.length = n / sizeofVfloat)
    (hs : setup params ialloc salloc = Except.ok inst) : inst.Ready := by
  obtain ⟨sz, cc⟩ := params
  cases sz with
  | none =>
    rw [setup_default] at hs
    cases hi : ialloc 80 with
    | none => rw [hi] at hs; cases hs
    | some bi =>
      rw [hi] at hs
      cases hb : salloc 80 with
      | none => rw [hb] at hs; cases hs
      | some bs =>
        rw [hb] at hs; cases hs
        exact ⟨(by decide : 1 ≤ 10), by rw [hia 80 bi hi]; rfl, by rw [hsa 80 bs hb]; rfl⟩
  | some p =>
    obtain ⟨hp1, hp2⟩ := hsz p rfl
    rw [setup_supplied p cc ialloc salloc hp1 (by omega)] at hs
    have e : p.toNat * sizeofVfloat % 2 ^ 64 / sizeofVfloat = p.toNat := by
      simp only [sizeofVfloat]
      omega
    cases hi : ialloc (p.toNat * sizeofVfloat % 2 ^ 64) with
    | none => rw [hi] at hs; cases hs
    | some bi =>
      rw [hi] at hs
      cases hb : salloc (p.toNat * sizeofVfloat % 2 ^ 64) with
      | none => rw [hb] at hs; cases hs
      | some bs =>
        rw [hb] at hs; cases hs
        exact ⟨by show 1 ≤ p.toNat; omega, by rw [hia _ bi hi]; exact e,
          by rw [hsa _ bs hb]; exact e⟩

theorem winMedian_perm {w w' : List ℚ} (hp : w.Perm w') : winMedian w = winMedian w' := by
  rw [winMedian, winMedian, ascending_congr hp, hp.length_eq]

theorem winMad_perm (C : ℚ) {w w' : List ℚ} (hp : w.Perm w') : winMad C w = winMad C w' := by
  rw [winMad, winMad, winMedian_perm hp, hp.length_eq]
  have : (absDevs (winMedian w') w).Perm (absDevs (winMedian w') w') := hp.map _
  rw [ascending_congr this]

/-- Two runs whose windows are permutations of one another and whose
cutoffs differ. -/
theorem cutoff_order_example :
    refRows 3 1 1 [] [some 1, some 2, some 10] =
      [⟨1, none, none, none⟩, ⟨2, none, none, none⟩, ⟨3, some 2, some 1, some (FDiv.fin 8)⟩] ∧
    refRows 3 1 1 [] [some 1, some 10, some 2] =
      [⟨1, none, none, none⟩, ⟨2, none, none, none⟩, ⟨3, some 2, some 1, some (FDiv.fin 0)⟩] := by
  have h1 : ascending [1, 2, 10] = [1, 2, 10] := by
    norm_num [ascending, List.insertionSort, List.orderedInsert]
  have h2 : ascending [1, 10, 2] = [1, 2, 10] := by
    norm_num [ascending, List.insertionSort, List.orderedInsert]
  have h3 : ascending [1, 0, 8] = [0, 1, 8] := by
    norm_num [ascending, List.insertionSort, List.orderedInsert]
  have h4 : ascending [1, 8, 0] = [0, 1, 8] := by
    norm_num [ascending, List.insertionSort, List.orderedInsert]
  have a1 : |(1 : ℚ) - 2| = 1 := by norm_num [abs_of_neg]
  constructor <;>
    norm_num [refRows, refRow, observed, lastK, statRow, winMedian, winMad, closedMedian,
      absDevs, fdiv, nullRow, h1, h2, h3, h4, a1]


theorem ascending_map_affine {a : ℚ} (c : ℚ) (ha : 0 < a) (w : List ℚ) :
    ascending (w.map (fun x => a * x + c)) = (ascending w).map (fun x => a * x + c) := by
  symm
  apply ascending_unique
  · rw [List.Sorted, List.pairwise_map]
    exact (ascending_sorted w).imp (fun hxy => by nlinarith)
  · exact (ascending_perm w).map _

theorem getD_map_affine (a c : ℚ) {s : List ℚ} {i : ℕ} (h : i < s.length) :
    (s.map (fun x => a * x + c)).getD i 0 = a * s.getD i 0 + c := by
  rw [List.getD_eq_getElem _ _ (by rw [List.length_map]; exact h), List.getD_eq_getElem _ _ h,
    List.getElem_map]

theorem closedMedian_map_affine (a c : ℚ) {s : List ℚ} {K : ℕ} (hK : 1 ≤ K)
    (hs : s.length = K) :
    closedMedian (s.map (fun x => a * x + c)) K = a * closedMedian s K + c := by
  unfold closedMedian
  rw [getD_map_affine a c (by omega : K / 2 < s.length),
    getD_map_affine a c (by omega : K / 2 - 1 < s.length)]
  split
  · rfl
  · ring

theorem winMedian_affine {a : ℚ} (c : ℚ) (ha : 0 < a) {w : List ℚ} (hw : 1 ≤ w.length) :
    winMedian (w.map (fun x => a * x + c)) = a * winMedian w + c := by
  rw [winMedian, winMedian, ascending_map_affine c ha, List.length_map,
    closedMedian_map_affine a c hw (ascending_length w)]

theorem absDevs_affine {a : ℚ} (c : ℚ) (ha : 0 < a) (m : ℚ) (w : List ℚ) :
    absDevs (a * m + c) (w.map (fun x => a * x + c)) =
      (absDevs m w).map (fun x => a * x + 0) := by
  simp only [absDevs, List.map_map]
  apply List.map_congr_left
  intro x _
  have e : a * x + c - (a * m + c) = a * (x - m) := by ring
  simp only [Function.comp, e, abs_mul, abs_of_pos ha, add_zero]

theorem winMad_affine {a : ℚ} (c : ℚ) (ha : 0 < a) (C : ℚ) {w : List ℚ} (hw : 1 ≤ w.length) :
    winMad C (w.map (fun x => a * x + c)) = a * winMad C w := by
  rw [winMad, winMad, winMedian_affine c ha hw, absDevs_affine c ha, ascending_map_affine 0 ha,
    List.length_map,
    closedMedian_map_affine a 0 hw (by rw [ascending_length, absDevs_length])]
  ring

theorem fdiv_scale {a : ℚ} (ha : 0 < a) (n d : ℚ) : fdiv (a * n) (a * d) = fdiv n d := by
  have ha' : a ≠ 0 := ne_of_gt ha
  unfold fdiv
  by_cases hd : d = 0
  · by_cases hn : n = 0
    · simp [hd, hn]
    · simp [hd, hn, ha']
  · simp only [hd, ha', mul_eq_zero, or_self, if_false]
    rw [mul_div_mul_left _ _ ha']

theorem lastK_map (K : ℕ) (f : ℚ → ℚ) (l : List ℚ) : lastK K (l.map f) = (lastK K l).map f := by
  simp only [lastK, List.length_map, List.map_drop]

theorem statRow_affine {a : ℚ} (c : ℚ) (ha : 0 < a) (C : ℚ) (rn : ℕ) {w : List ℚ}
    (hw : 1 ≤ w.length) (v : ℚ) :
    statRow C rn (w.map (fun x => a * x + c)) (a * v + c) = Row.affine a c (statRow C rn w v) := by
  have e : a * v + c - (a * winMedian w + c) = a * (v - winMedian w) := by ring
  simp only [statRow, Row.affine, winMedian_affine c ha hw, winMad_affine c ha C hw,
    Option.map_some', e, abs_mul, abs_of_pos ha, fdiv_scale ha]

theorem refRow_affine {a : ℚ} (c : ℚ) (ha : 0 < a) {K : ℕ} (hK : 1 ≤ K) (C : ℚ) (rn : ℕ)
    (s : List ℚ) (x : Option ℚ) :
    refRow K C rn (s.map (fun x => a * x + c)) (x.map (fun x => a * x + c)) =
      Row.affine a c (refRow K C rn s x) := by
  cases x with
  | none => rfl
  | some v =>
    by_cases hk : K ≤ s.length
    · have hw : 1 ≤ (lastK K s).length := by rw [lastK_length]; omega
      simp only [Option.map_some', refRow, List.length_map, hk, if_true, lastK_map,
        statRow_affine c ha C rn hw v]
    · simp only [Option.map_some', refRow, List.length_map, hk, if_false]
      rfl

theorem observed_map (f : ℚ → ℚ) (xs : List (Option ℚ)) :
    observed (xs.map (Option.map f)) = (observed xs).map f := by
  induction xs with
  | nil => rfl
  | cons x xs ih =>
    rw [List.map_cons, observed_cons, observed_cons x xs, List.map_append, ih]
    cases x <;> rfl

theorem refRows_affine {a : ℚ} (c : ℚ) (ha : 0 < a) {K : ℕ} (hK : 1 ≤ K) (C : ℚ) :
    ∀ (xs : List (Option ℚ)) (rn : ℕ) (seen : List ℚ),
      refRows K C rn (seen.map (fun x => a * x + c))
          (xs.map (Option.map (fun x => a * x + c))) =
        (refRows K C rn seen xs).map (Row.affine a c)
  | [], _, _ => rfl
  | x :: xs, rn, seen => by
    have e : observed [x.map (fun x => a * x + c)] = (observed [x]).map (fun x => a * x + c) :=
      observed_map _ [x]
    have ih := refRows_affine c ha hK C xs (rn + 1) (seen ++ observed [x])
    rw [List.map_append] at ih
    simp only [List.map_cons, refRows, e, ← List.map_append, refRow_affine c ha hK, ih]
    rw [List.map_append, ih]


theorem sorted_getD_le {s : List ℚ} (hs : s.Sorted (· ≤ ·)) {i j : ℕ} (hij : i ≤ j)
    (hj : j < s.length) : s.getD i 0 ≤ s.getD j 0 := by
  have hi : i < s.length := by omega
  rw [List.getD_eq_getElem _ _ hi, List.getD_eq_getElem _ _ hj]
  exact hs.rel_get_of_le (a := ⟨i, hi⟩) (b := ⟨j, hj⟩) hij

theorem mem_getD {s : List ℚ} {x : ℚ} (hx : x ∈ s) : ∃ i, i < s.length ∧ x = s.getD i 0 := by
  obtain ⟨i, hi, rfl⟩ := List.getElem_of_mem hx
  exact ⟨i, hi, (List.getD_eq_getElem _ _ hi).symm⟩

/-- In an ascending list at least `k + 1` values are below any bound of
the value at index `k`. -/
theorem count_le_of_sorted {s : List ℚ} (hs : s.Sorted (· ≤ ·)) {k : ℕ} (hk : k < s.length)
    {m : ℚ} (hm : s.getD k 0 ≤ m) : k + 1 ≤ s.countP (fun x => decide (x ≤ m)) := by
  have hall : ∀ x ∈ s.take (k + 1), (fun x => decide (x ≤ m)) x = true := by
    intro x hx
    obtain ⟨i, hi, rfl⟩ := mem_getD (List.mem_of_mem_take hx)
    obtain ⟨i', hi', he⟩ := List.getElem_of_mem hx
    rw [List.length_take] at hi'
    have hle : s.getD i' 0 ≤ s.getD k 0 := sorted_getD_le hs (by omega) hk
    rw [List.getElem_take, ← List.getD_eq_getElem _ 0 (by omega)] at he
    rw [← he]
    exact decide_eq_true (hle.trans hm)
  have h1 : (s.take (k + 1)).countP (fun x => decide (x ≤ m)) = k + 1 := by
    rw [List.countP_eq_length.2 hall, List.length_take]
    omega
  rw [← h1]
  exact List.Sublist.countP_le _ (List.take_sublist _ _)

/-- In an ascending list at least `length - k` values are above any lower
bound of the value at index `k`. -/
theorem count_ge_of_sorted {s : List ℚ} (hs : s.Sorted (· ≤ ·)) {k : ℕ} (hk : k < s.length)
    {m : ℚ} (hm : m ≤ s.getD k 0) : s.length - k ≤ s.countP (fun x => decide (m ≤ x)) := by
  have hall : ∀ x ∈ s.drop k, (fun x => decide (m ≤ x)) x = true := by
    intro x hx
    obtain ⟨i', hi', he⟩ := List.getElem_of_mem hx
    rw [List.length_drop] at hi'
    have hle : s.getD k 0 ≤ s.getD (k + i') 0 := sorted_getD_le hs (by omega) (by omega)
    rw [List.getElem_drop, ← List.getD_eq_getElem _ 0 (by omega)] at he
    rw [← he]
    exact decide_eq_true (hm.trans hle)
  have h1 : (s.drop k).countP (fun x => decide (m ≤ x)) = s.length - k := by
    rw [List.countP_eq_length.2 hall, List.length_drop]
  rw [← h1]
  exact List.Sublist.countP_le _ (List.drop_sublist _ _)

/-- The closed-form median of an ascending list lies between the two
central values. -/
theorem closedMedian_between {s : List ℚ} (hs : s.Sorted (· ≤ ·)) {K : ℕ} (hK : 1 ≤ K)
    (hl : s.length = K) :
    s.getD ((K - 1) / 2) 0 ≤ closedMedian s K ∧ closedMedian s K ≤ s.getD (K / 2) 0 := by
  unfold closedMedian
  split
  · next ho =>
    have e : (K - 1) / 2 = K / 2 := by omega
    rw [e]
    exact ⟨le_refl _, le_refl _⟩
  · next he =>
    have e : (K - 1) / 2 = K / 2 - 1 := by omega
    rw [e]
    have := sorted_getD_le hs (by omega : K / 2 - 1 ≤ K / 2) (by omega)
    constructor <;> linarith


/-- Order statistics of the median of a non-empty window. -/
theorem winMedian_order {w : List ℚ} (hw : 1 ≤ w.length) :
    ∃ lo hi, lo ∈ w ∧ hi ∈ w ∧ (∀ x ∈ w, lo ≤ x) ∧ (∀ x ∈ w, x ≤ hi) ∧
      lo ≤ winMedian w ∧ winMedian w ≤ hi ∧
      (w.length + 1) / 2 ≤ w.countP (fun x => decide (x ≤ winMedian w)) ∧
      (w.length + 1) / 2 ≤ w.countP (fun x => decide (winMedian w ≤ x)) ∧
      (w.length % 2 = 1 → winMedian w ∈ w) := by
  have hs := ascending_sorted w
  have hl := ascending_length w
  have hp := ascending_perm w
  obtain ⟨hb1, hb2⟩ := closedMedian_between hs hw hl
  have hlast : w.length - 1 < (ascending w).length := by omega
  refine ⟨(ascending w).getD 0 0, (ascending w).getD (w.length - 1) 0,
    mem_ascending.1 (getD_mem (by omega)), mem_ascending.1 (getD_mem hlast), ?_, ?_, ?_, ?_,
    ?_, ?_, ?_⟩
  · intro x hx
    obtain ⟨i, hi, rfl⟩ := mem_getD (mem_ascending.2 hx)
    exact sorted_getD_le hs (Nat.zero_le i) hi
  · intro x hx
    obtain ⟨i, hi, rfl⟩ := mem_getD (mem_ascending.2 hx)
    exact sorted_getD_le hs (by omega) hlast
  · exact (sorted_getD_le hs (Nat.zero_le _) (by omega)).trans hb1
  · exact hb2.trans (sorted_getD_le hs (by omega) hlast)
  · have hc := count_le_of_sorted hs (by omega : (w.length - 1) / 2 < (ascending w).length) hb1
    rw [hp.countP_eq] at hc
    have e : (w.length + 1) / 2 = (w.length - 1) / 2 + 1 := by omega
    rw [e]
    exact hc
  · have hc := count_ge_of_sorted hs (by omega : w.length / 2 < (ascending w).length) hb2
    rw [hp.countP_eq, hl] at hc
    have e : (w.length + 1) / 2 = w.length - w.length / 2 := by omega
    rw [e]
    exact hc
  · intro ho
    have hm : winMedian w = (ascending w).getD (w.length / 2) 0 := by
      simp only [winMedian, closedMedian, ho, if_true]
    rw [hm]
    exact mem_ascending.1 (getD_mem (by omega))


theorem closedMedian_le {s : List ℚ} {K : ℕ} {B : ℚ} (hs : ∀ x ∈ s, x ≤ B) (hK : 1 ≤ K)
    (hl : s.length = K) : closedMedian s K ≤ B := by
  have h1 : s.getD (K / 2) 0 ≤ B := hs _ (getD_mem (by omega))
  have h2 : s.getD (K / 2 - 1) 0 ≤ B := hs _ (getD_mem (by omega))
  unfold closedMedian
  split
  · exact h1
  · linarith

/-- Range of the scaled MAD of a non-empty window with a non-negative
consistency constant. -/
theorem winMad_range {C : ℚ} (hC : 0 ≤ C) {w : List ℚ} (hw : 1 ≤ w.length) :
    ∃ lo hi, lo ∈ w ∧ hi ∈ w ∧ (∀ x ∈ w, lo ≤ x) ∧ (∀ x ∈ w, x ≤ hi) ∧
      0 ≤ winMad C w ∧ winMad C w ≤ C * (hi - lo) := by
  obtain ⟨lo, hi, h1, h2, h3, h4, h5, h6, _⟩ := winMedian_order hw
  refine ⟨lo, hi, h1, h2, h3, h4, winMad_nonneg hC w, ?_⟩
  unfold winMad
  apply mul_le_mul_of_nonneg_left _ hC
  apply closedMedian_le _ hw (by rw [ascending_length, absDevs_length])
  intro y hy
  rw [mem_ascending, absDevs, List.mem_map] at hy
  obtain ⟨x, hx, rfl⟩ := hy
  have hx1 := h3 x hx
  have hx2 := h4 x hx
  rw [abs_le]
  constructor <;> linarith

/-! ## The double-precision run -/

theorem sortD_length (l : List Dbl) : (sortD l).length = l.length :=
  List.length_insertionSort _ l

theorem sortD_perm (l : List Dbl) : (sortD l).Perm l :=
  List.perm_insertionSort _ l

theorem absDevsD_length (m : Dbl) (w : List Dbl) : (absDevsD m w).length = w.length := by
  simp [absDevsD]

theorem load_of_ltD {a : List Dbl} {k : ℕ} (h : k < a.length) : loadD a k = some (a.getD k Dbl.nan) := by
  simp [loadD, List.getD_eq_getElem?_getD, List.getElem?_eq_getElem h]

theorem store_lastD {a : List Dbl} {K : ℕ} (hK : 1 ≤ K) (ha : a.length = K) (v : Dbl) :
    storeD a (K - 1) v = some (a.take (K - 1) ++ [v]) := by
  have h : K - 1 < a.length := by omega
  simp only [storeD, h, if_true, Option.some.injEq]
  rw [List.set_eq_take_append_cons_drop]
  simp only [h, if_true]
  rw [List.drop_of_length_le (by omega)]

theorem memcpy_fullD {dst src : List Dbl} {K : ℕ} (hd : dst.length = K) (hs : src.length = K) :
    memcpyD dst src K = some src := by
  simp [memcpyD, hd, hs, List.take_of_length_le, List.drop_of_length_le]

theorem sortCells_fullD {a : List Dbl} {K : ℕ} (ha : a.length = K) :
    sortCellsD a K = some (sortD a) := by
  simp [sortCellsD, ha, List.take_of_length_le, List.drop_of_length_le, sortD]

theorem shiftLeft_fullD {a : List Dbl} {K : ℕ} (hK : 1 ≤ K) (ha : a.length = K) :
    shiftLeftD a (K - 1) = some (a.drop 1 ++ a.drop (K - 1)) := by
  have h : K - 1 + 1 ≤ a.length := by omega
  simp only [shiftLeftD, h, true_or, if_true, Option.some.injEq]
  rw [List.take_of_length_le (by simp; omega)]

/-- The warm-up branch. -/
theorem body_warmD {K : ℕ} (C : Dbl) {st : LoopD} (v : Dbl)
    (hil : st.iarray.length = K) (hi : st.i + 1 < K) :
    bodyD K C st (some v) =
      some (⟨st.iarray.set st.i v, st.sarray, st.i + 1, st.rn + 1⟩, nullRowD st.rn) := by
  have h : st.i < st.iarray.length := by omega
  simp [bodyD, hi, storeD, h]

/-- The NULL branch. -/
theorem body_nullD (K : ℕ) (C : Dbl) (st : LoopD) :
    bodyD K C st none = some (⟨st.iarray, st.sarray, st.i, st.rn + 1⟩, nullRowD st.rn) := rfl

theorem observed_consD (x : Option Dbl) (xs : List (Option Dbl)) :
    observedD (x :: xs) = observedD [x] ++ observedD xs := by
  cases x <;> simp [observedD, List.reduceOption_cons_of_some, List.reduceOption_cons_of_none]

theorem observed_appendD (xs ys : List (Option Dbl)) :
    observedD (xs ++ ys) = observedD xs ++ observedD ys := by
  simp [observedD, List.reduceOption_append]

theorem lastK_lengthD (k : ℕ) (l : List Dbl) : (lastKD k l).length = min k l.length := by
  simp [lastKD]; omega

theorem lastK_snocD {K : ℕ} (hK : 1 ≤ K) (seen : List Dbl) (v : Dbl) (h : K ≤ seen.length + 1) :
    lastKD K (seen ++ [v]) = lastKD (K - 1) seen ++ [v] := by
  unfold lastKD
  have e : (seen ++ [v]).length - K = seen.length - (K - 1) := by simp; omega
  rw [e, List.drop_append_of_le_length (by omega)]

theorem lastK_drop_oneD {K : ℕ} (hK : 1 ≤ K) (l : List Dbl) (h : K ≤ l.length) :
    (lastKD K l).drop 1 = lastKD (K - 1) l := by
  unfold lastKD
  rw [List.drop_drop]
  congr 1; omega

theorem lastK_of_length_leD {k : ℕ} {l : List Dbl} (h : l.length ≤ k) : lastKD k l = l := by
  unfold lastKD
  rw [Nat.sub_eq_zero_of_le h, List.drop_zero]

theorem take_succ_setD {a : List Dbl} {i : ℕ} (h : i < a.length) (v : Dbl) :
    (a.set i v).take (i + 1) = a.take i ++ [v] := by
  have htl : (a.take i).length = i := by simp; omega
  rw [List.set_eq_take_append_cons_drop]
  simp only [h, if_true]
  rw [List.take_append_eq_append_take, htl]
  simp [List.take_of_length_le (Nat.le_of_eq htl)]

/-- The initial state of the loop. -/
theorem inv_initD {K : ℕ} {ia sa : List Dbl} (hi : ia.length = K) (hs : sa.length = K)
    (hK : 1 ≤ K) (rn : ℕ) : InvD K ⟨ia, sa, 0, rn⟩ [] :=
  ⟨hi, hs, fun _ => ⟨rfl, by simp⟩, fun h => by simp at h; omega⟩

theorem inv_nullD {K : ℕ} {st : LoopD} {seen : List Dbl} (h : InvD K st seen) :
    InvD K ⟨st.iarray, st.sarray, st.i, st.rn + 1⟩ seen :=
  ⟨h.ilen, h.slen, h.warm, h.full⟩

theorem inv_windowD {K : ℕ} {st : LoopD} {seen : List Dbl} (hK : 1 ≤ K) (h : InvD K st seen) (v : Dbl)
    (hf : K ≤ seen.length + 1) :
    ¬ st.i + 1 < K ∧ st.iarray.take (K - 1) ++ [v] = lastKD K (seen ++ [v]) := by
  rw [lastK_snocD hK seen v hf]
  rcases Nat.lt_or_ge seen.length K with hlt | hge
  · obtain ⟨hi, ht⟩ := h.warm hlt
    have e : seen.length = K - 1 := by omega
    refine ⟨by omega, ?_⟩
    rw [lastK_of_length_leD (by omega), ← e, ht]
  · obtain ⟨hi, ht⟩ := h.full hge
    exact ⟨by omega, by rw [ht]⟩

theorem inv_warmD {K : ℕ} {st : LoopD} {seen : List Dbl} (h : InvD K st seen) (v : Dbl)
    (hw : seen.length + 1 < K) :
    st.i + 1 < K ∧ InvD K ⟨st.iarray.set st.i v, st.sarray, st.i + 1, st.rn + 1⟩ (seen ++ [v]) := by
  obtain ⟨hi, ht⟩ := h.warm (by omega)
  have hil := h.ilen
  refine ⟨by omega, ⟨by simp [hil], h.slen, fun _ => ⟨by simp [hi], ?_⟩, fun hc => ?_⟩⟩
  · have hlt : st.i < st.iarray.length := by omega
    show List.take (seen ++ [v]).length (st.iarray.set st.i v) = seen ++ [v]
    have e : (seen ++ [v]).length = st.i + 1 := by simp [hi]
    rw [e, take_succ_setD hlt, hi, ht]
  · simp at hc; omega

theorem inv_fullD {K : ℕ} {seen : List Dbl} (hK : 1 ≤ K) (v : Dbl) (sa : List Dbl)
    (hsa : sa.length = K) (rn : ℕ) (hf : K ≤ seen.length + 1) :
    InvD K ⟨(lastKD K (seen ++ [v])).drop 1 ++ [v], sa, K, rn⟩ (seen ++ [v]) := by
  have hl : (seen ++ [v]).length = seen.length + 1 := by simp
  have hd : ((lastKD K (seen ++ [v])).drop 1).length = K - 1 := by
    rw [List.length_drop, lastK_lengthD, hl]; omega
  refine ⟨by simp only [List.length_append, hd, List.length_singleton]; omega, hsa,
    fun hc => by omega, fun _ => ⟨rfl, ?_⟩⟩
  show List.take (K - 1) ((lastKD K (seen ++ [v])).drop 1 ++ [v]) = _
  rw [List.take_append_of_le_length (by omega), List.take_of_length_le (by omega),
    lastK_drop_oneD hK _ (by omega)]

theorem refRows_lengthD (K : ℕ) (C : Dbl) :
    ∀ (xs : List (Option Dbl)) (rn : ℕ) (seen : List Dbl), (refRowsD K C rn seen xs).length = xs.length
  | [], _, _ => rfl
  | x :: xs, rn, seen => by simp [refRowsD, refRows_lengthD K C xs]

theorem refRows_getElemD (K : ℕ) (C : Dbl) :
    ∀ (xs : List (Option Dbl)) (rn : ℕ) (seen : List Dbl) (j : ℕ),
      (refRowsD K C rn seen xs)[j]? =
        (xs[j]?).map (refRowD K C (rn + j) (seen ++ seenUpToD xs j))
  | [], _, _, _ => by simp [refRowsD]
  | x :: xs, rn, seen, 0 => by simp [refRowsD, seenUpToD]
  | x :: xs, rn, seen, j + 1 => by
    have e : rn + 1 + j = rn + (j + 1) := by omega
    simp only [refRowsD, List.getElem?_cons_succ, refRows_getElemD K C xs, seenUpToD,
      List.take_succ_cons, observed_consD x (List.take (j + 1) xs), List.append_assoc, e]

theorem seenUpTo_someD {xs : List (Option Dbl)} {j : ℕ} {v : Dbl} (h : xs[j]? = some (some v)) :
    seenUpToD xs j = observedD (xs.take j) ++ [v] := by
  simp only [seenUpToD, List.take_succ, h, observed_appendD]
  rfl

theorem refRow_populated_iffD (K : ℕ) (C : Dbl) (rn : ℕ) (s : List Dbl) (x : Option Dbl) :
    (refRowD K C rn s x).populated ↔ x.isSome ∧ K ≤ s.length := by
  cases x with
  | none => simp [refRowD, nullRowD, RowD.populated]
  | some v =>
    by_cases hk : K ≤ s.length <;> simp [refRowD, nullRowD, RowD.populated, statRowD, hk]

theorem refRow_allNullD (K : ℕ) (C : Dbl) (rn : ℕ) (s : List Dbl) (x : Option Dbl)
    (h : ¬ (refRowD K C rn s x).populated) : (refRowD K C rn s x).allNull := by
  cases x with
  | none => simp [refRowD, nullRowD, RowD.allNull]
  | some v =>
    by_cases hk : K ≤ s.length
    · exact absurd ((refRow_populated_iffD K C rn s (some v)).2 ⟨rfl, hk⟩) h
    · simp [refRowD, nullRowD, RowD.allNull, hk]

/-- A populated row is the statistics row of its window. -/
theorem refRow_of_populatedD {K : ℕ} {C : Dbl} {rn : ℕ} {s : List Dbl} {x : Option Dbl}
    (h : (refRowD K C rn s x).populated) :
    ∃ v, x = some v ∧ K ≤ s.length ∧ refRowD K C rn s x = statRowD C rn (lastKD K s) v := by
  obtain ⟨hx, hk⟩ := (refRow_populated_iffD K C rn s x).1 h
  cases x with
  | none => simp at hx
  | some v => exact ⟨v, rfl, hk, by simp [refRowD, hk]⟩

theorem seenUpTo_length_leD (xs : List (Option Dbl)) (j : ℕ) :
    (seenUpToD xs j).length ≤ (observedD xs).length := by
  have h : observedD xs = seenUpToD xs j ++ observedD (xs.drop (j + 1)) := by
    rw [seenUpToD, ← observed_appendD, List.take_append_drop]
  rw [h, List.length_append]; omega

theorem windowAt_lengthD {K : ℕ} {xs : List (Option Dbl)} {j : ℕ}
    (h : K ≤ (seenUpToD xs j).length) : (windowAtD K xs j).length = K := by
  rw [windowAtD, lastK_lengthD]; omega

theorem windowAt_getLastD {K : ℕ} (hK : 1 ≤ K) {xs : List (Option Dbl)} {j : ℕ} {v : Dbl}
    (hx : xs[j]? = some (some v)) : (windowAtD K xs j).getLast? = some v := by
  rw [windowAtD, seenUpTo_someD hx, lastKD]
  have hlt : (observedD (xs.take j) ++ [v]).length - K < (observedD (xs.take j) ++ [v]).length := by
    simp; omega
  rw [List.getLast?_drop, if_neg (by omega)]
  simp

theorem medianCells_eqD {s : List Dbl} {K : ℕ} (hK : 1 ≤ K) (hs : s.length = K) :
    medianCellsD s K = some (closedMedianD s K) := by
  have h1 : K / 2 < s.length := by omega
  have h2 : K / 2 - 1 < s.length := by omega
  unfold medianCellsD closedMedianD
  rw [load_of_ltD h1, load_of_ltD h2]
  split <;> rfl

theorem madCells_eqD {s : List Dbl} {K : ℕ} (C : Dbl) (hK : 1 ≤ K) (hs : s.length = K) :
    madCellsD C s K = some (madOfD C s K) := by
  have h1 : K / 2 < s.length := by omega
  have h2 : K / 2 - 1 < s.length := by omega
  unfold madCellsD madOfD
  rw [load_of_ltD h1, load_of_ltD h2]
  split <;> rfl

theorem deviations_eqD (m : Dbl) : ∀ (todo i : ℕ) (s : List Dbl), i + todo = s.length →
    deviationsD m todo i s = some (s.take i ++ absDevsD m (s.drop i), i + todo)
  | 0, i, s, h => by
    have hi : s.length ≤ i := by omega
    simp [deviationsD, absDevsD, List.drop_of_length_le hi, List.take_of_length_le hi]
  | todo + 1, i, s, h => by
    have hi : i < s.length := by omega
    have hlen : i + 1 + todo = (s.set i (Dbl.abs (Dbl.sub (s.getD i Dbl.nan) m))).length := by
      rw [List.length_set]; omega
    simp only [deviationsD, load_of_ltD hi, storeD, hi, if_true, Option.bind_eq_bind,
      Option.some_bind]
    rw [deviations_eqD m todo (i + 1) _ hlen]
    simp only [Option.some.injEq, Prod.mk.injEq]
    refine ⟨?_, by omega⟩
    rw [take_succ_setD hi]
    have e2 : List.drop (i + 1) (s.set i (Dbl.abs (Dbl.sub (s.getD i Dbl.nan) m))) =
        s.drop (i + 1) := by
      rw [List.drop_set_of_lt _ _ (by omega)]
    rw [e2]
    conv_rhs => rw [List.drop_eq_getElem_cons hi]
    simp only [absDevsD, List.map_cons, List.append_assoc, List.singleton_append,
      List.getD_eq_getElem?_getD, List.getElem?_eq_getElem hi, Option.getD_some]

theorem deviations_fullD (m : Dbl) {s : List Dbl} {K : ℕ} (hs : s.length = K) :
    deviationsD m K 0 s = some (absDevsD m s, K) := by
  rw [deviations_eqD m K 0 s (by omega)]; simp

/-- The full-window branch in doubles on buffers of `K` cells. -/
theorem body_fullD {K : ℕ} (C : Dbl) {st : LoopD} (v : Dbl) (hK : 1 ≤ K)
    (hil : st.iarray.length = K) (hsl : st.sarray.length = K) (hi : ¬ st.i + 1 < K) :
    bodyD K C st (some v) =
      some (⟨(st.iarray.take (K - 1) ++ [v]).drop 1 ++ [v],
             winDevsD (st.iarray.take (K - 1) ++ [v]), K, st.rn + 1⟩,
            statRowD C st.rn (st.iarray.take (K - 1) ++ [v]) v) := by
  have hw : (st.iarray.take (K - 1) ++ [v]).length = K := by simp; omega
  have hsw : (sortD (st.iarray.take (K - 1) ++ [v])).length = K := by
    rw [sortD_length, hw]
  have hdw : (absDevsD (closedMedianD (sortD (st.iarray.take (K - 1) ++ [v])) K)
      (sortD (st.iarray.take (K - 1) ++ [v]))).length = K := by
    rw [absDevsD_length, hsw]
  have hsd : (sortD (absDevsD (closedMedianD (sortD (st.iarray.take (K - 1) ++ [v])) K)
      (sortD (st.iarray.take (K - 1) ++ [v])))).length = K := by
    rw [sortD_length, hdw]
  have hdrop : (st.iarray.take (K - 1) ++ [v]).drop (K - 1) = [v] := by
    rw [List.drop_append_eq_append_drop]
    simp [List.drop_of_length_le, hil]
  simp only [bodyD, hi, if_false, store_lastD hK hil, Option.bind_eq_bind, Option.some_bind,
    memcpy_fullD hsl hw, sortCells_fullD hw, medianCells_eqD hK hsw, deviations_fullD _ hsw,
    sortCells_fullD hdw, madCells_eqD C hK hsd, shiftLeft_fullD hK hw, hdrop, Option.pure_def,
    statRowD, winMedianD, winMadD, winDevsD, hw]

theorem iterate_eq_refRowsD {K : ℕ} (C : Dbl) (hK : 1 ≤ K) :
    ∀ (xs : List (Option Dbl)) (st : LoopD) (seen : List Dbl), InvD K st seen →
      iterateD K C st xs = some (refRowsD K C st.rn seen xs)
  | [], _, _, _ => rfl
  | none :: xs, st, seen, h => by
    have ih := iterate_eq_refRowsD C hK xs _ seen (inv_nullD h)
    simp only [iterateD, body_nullD, Option.bind_eq_bind, Option.some_bind, ih, refRowsD,
      refRowD, observedD, List.reduceOption_cons_of_none, List.reduceOption_nil,
      List.append_nil, Option.pure_def]
  | some v :: xs, st, seen, h => by
    have hobs : observedD [some v] = [v] := rfl
    rcases Nat.lt_or_ge (seen.length + 1) K with hw | hf
    · obtain ⟨hi, hinv⟩ := inv_warmD h v hw
      have ih := iterate_eq_refRowsD C hK xs _ (seen ++ [v]) hinv
      have hn : ¬ K ≤ (seen ++ [v]).length := by simp; omega
      simp only [iterateD, body_warmD C v h.ilen hi, Option.bind_eq_bind, Option.some_bind, ih,
        refRowsD, refRowD, hobs, hn, if_false, Option.pure_def]
    · obtain ⟨hi, hwin⟩ := inv_windowD hK h v hf
      have hy : K ≤ (seen ++ [v]).length := by simp; omega
      have ih := iterate_eq_refRowsD C hK xs _ (seen ++ [v])
        (inv_fullD hK v (winDevsD (lastKD K (seen ++ [v]))) (by
            rw [winDevsD, sortD_length, absDevsD_length, sortD_length, lastK_lengthD]
            simp; omega)
          (st.rn + 1) hf)
      simp only [iterateD, body_fullD C v hK h.ilen h.slen hi, hwin, Option.bind_eq_bind,
        Option.some_bind, ih, refRowsD, refRowD, hobs, hy, if_true, Option.pure_def]

theorem processPartition_eqD (self : InstD) (cconst : Option Dbl) (first : Option Dbl)
    (rest : List (Option Dbl)) (h : self.Ready) :
    processPartitionD self cconst first rest =
      some (refRowsD self.setsize (cconstOfD cconst) 1 [] (first :: rest)) :=
  iterate_eq_refRowsD (cconstOfD cconst) h.pos (first :: rest) _ []
    (inv_initD h.ilen h.slen h.pos 1)

/-- A populated row of a run in doubles is the statistics row of the window
at its position, and the observation at that position is the newest window
value. -/
theorem populated_row_of_runD {self : InstD} {cconst : Option Dbl} {first : Option Dbl}
    {rest : List (Option Dbl)} {rows : List RowD} (h : self.Ready)
    (hrun : processPartitionD self cconst first rest = some rows) {j : ℕ} {r : RowD}
    (hr : rows[j]? = some r) (hp : r.populated) :
    ∃ v, (first :: rest)[j]? = some (some v) ∧
      self.setsize ≤ (seenUpToD (first :: rest) j).length ∧
      r = statRowD (cconstOfD cconst) (j + 1) (windowAtD self.setsize (first :: rest) j) v := by
  rw [processPartition_eqD self cconst first rest h] at hrun
  cases hrun
  rw [refRows_getElemD] at hr
  cases hx : (first :: rest)[j]? with
  | none => rw [hx] at hr; simp at hr
  | some x =>
    rw [hx] at hr
    simp only [Option.map_some', Option.some.injEq, List.nil_append] at hr
    subst hr
    obtain ⟨v, rfl, hk, he⟩ := refRow_of_populatedD hp
    exact ⟨v, rfl, hk, by rw [he, Nat.add_comm, windowAtD]⟩

set_option exponentiation.threshold 10000

/-! ## Rounding of doubles -/

theorem binaryOrderFrom_spec : ∀ (k e x : ℕ), 2 ^ e ≤ x → x < 2 ^ (e + 2 ^ (k + 1)) →
    2 ^ binaryOrderFrom k e x ≤ x ∧ x < 2 ^ (binaryOrderFrom k e x + 1)
  | 0, e, x, h1, h2 => by
    unfold binaryOrderFrom
    split
    · next h => exact ⟨h, by simpa [Nat.add_assoc] using h2⟩
    · next h => exact ⟨h1, by omega⟩
  | k + 1, e, x, h1, h2 => by
    unfold binaryOrderFrom
    split
    · next h =>
      apply binaryOrderFrom_spec k _ x h
      have e2 : e + 2 ^ (k + 1) + 2 ^ (k + 1) = e + 2 ^ (k + 1 + 1) := by
        rw [Nat.pow_succ 2 (k + 1)]; omega
      rw [e2]; exact h2
    · next h => exact binaryOrderFrom_spec k e x h1 (by omega)

/-- The binary order brackets its argument. -/
theorem binaryOrder_spec {x : ℕ} (h1 : 1 ≤ x) (h2 : x < 2 ^ 8192) :
    2 ^ binaryOrder x ≤ x ∧ x < 2 ^ (binaryOrder x + 1) :=
  binaryOrderFrom_spec 12 0 x (by simpa using h1) (by simpa using h2)

theorem binaryOrder_unique {x e : ℕ} (h1 : 2 ^ e ≤ x) (h2 : x < 2 ^ (e + 1))
    (hx : x < 2 ^ 8192) : binaryOrder x = e := by
  have hpos : 1 ≤ x := le_trans (Nat.one_le_two_pow) h1
  obtain ⟨s1, s2⟩ := binaryOrder_spec hpos hx
  have a1 : binaryOrder x < e + 1 := (Nat.pow_lt_pow_iff_right (by norm_num)).1 (lt_of_le_of_lt s1 h2)
  have a2 : e < binaryOrder x + 1 := (Nat.pow_lt_pow_iff_right (by norm_num)).1 (lt_of_le_of_lt h1 s2)
  omega

theorem binaryOrder_zero : binaryOrder 0 = 0 := by decide

theorem pow2098_lt : (2 : ℕ) ^ 2098 < 2 ^ 8192 := Nat.pow_lt_pow_right (by norm_num) (by norm_num)

theorem binaryOrder_double {m : ℕ} (h1 : 1 ≤ m) (h2 : 2 * m < 2 ^ 2098) :
    binaryOrder (2 * m) = binaryOrder m + 1 := by
  have hm : m < 2 ^ 8192 := by have := pow2098_lt; omega
  obtain ⟨s1, s2⟩ := binaryOrder_spec h1 hm
  apply binaryOrder_unique
  · rw [Nat.pow_succ]; omega
  · rw [Nat.pow_succ 2 (binaryOrder m + 1)]; omega
  · have := pow2098_lt; omega

/-- Zero is the magnitude of a double. -/
theorem isDoubleMag_zero : isDoubleMag 0 :=
  ⟨Nat.pos_pow_of_pos _ (by norm_num), Nat.dvd_zero _⟩

/-- Twice the magnitude of a double is one, short of overflow. -/
theorem isDoubleMag_double {m : ℕ} (h : isDoubleMag m) (h2 : 2 * m < 2 ^ 2098) :
    isDoubleMag (2 * m) := by
  refine ⟨h2, ?_⟩
  rcases Nat.eq_zero_or_pos m with rfl | hpos
  · simp
  · rw [binaryOrder_double hpos h2]
    rcases Nat.lt_or_ge (binaryOrder m) 52 with hlt | hge
    · have e : binaryOrder m + 1 - 52 = 0 := by omega
      rw [e]; simp
    · have e : binaryOrder m + 1 - 52 = (binaryOrder m - 52) + 1 := by omega
      rw [e, Nat.pow_succ, Nat.mul_comm]
      exact Nat.mul_dvd_mul_left 2 h.2

theorem roundEven_exact (q D : ℕ) (hD : 0 < D) : roundEven (q * D) D = q := by
  unfold roundEven
  rw [Nat.mul_mod_left, Nat.mul_div_cancel _ hD]
  simp [hD]

/-- Rounding leaves the magnitude of a double as it is. -/
theorem roundMag_exact {m d : ℕ} (h : isDoubleMag m) (hd : 0 < d) :
    roundMag (m * d) d = some m := by
  obtain ⟨q, hq⟩ := h.2
  have hdiv : m * d / d = m := Nat.mul_div_cancel _ hd
  have hpos : 0 < d * 2 ^ (binaryOrder m - 52) := Nat.mul_pos hd (Nat.pos_pow_of_pos _ (by norm_num))
  have hre : roundEven (m * d) (d * 2 ^ (binaryOrder m - 52)) = q := by
    have e : m * d = q * (d * 2 ^ (binaryOrder m - 52)) := by
      conv_lhs => rw [hq]
      ring
    rw [e, roundEven_exact q _ hpos]
  simp only [roundMag, hdiv, hre]
  have e : q * 2 ^ (binaryOrder m - 52) = m := by
    conv_rhs => rw [hq]
    ring
  rw [e, if_pos h.1]

theorem round_exact (a : Bool) {m d : ℕ} (h : isDoubleMag m) (hd : 0 < d) :
    Dbl.round a (m * d) d = Dbl.fin a m := by
  unfold Dbl.round
  rw [roundMag_exact h hd]

/-- A finite value minus itself is `+0`. -/
theorem sub_self_fin (a : Bool) (m : ℕ) : Dbl.sub (Dbl.fin a m) (Dbl.fin a m) = Dbl.fin false 0 := by
  cases a <;> simp [Dbl.sub, Dbl.neg, Dbl.add]

/-- The sum of a double with itself, halved, is the double, short of
overflow. -/
theorem half_add_self (a : Bool) {m : ℕ} (h : isDoubleMag m) (h2 : 2 * m < 2 ^ 2098) :
    Dbl.div (Dbl.add (Dbl.fin a m) (Dbl.fin a m)) Dbl.two = Dbl.fin a m := by
  have hs : Dbl.add (Dbl.fin a m) (Dbl.fin a m) = Dbl.fin a (2 * m) := by
    have := round_exact a (isDoubleMag_double h h2) (Nat.one_pos)
    simp only [Dbl.add, if_true]
    rw [← this]
    congr 1; omega
  have h2ne : ¬ (2 * 2 ^ 1074 = 0) := by positivity
  rw [hs]
  simp only [Dbl.div, Dbl.two, if_neg h2ne, Bool.xor_false]
  have e : 2 * m * 2 ^ 1074 = m * (2 * 2 ^ 1074) := by ring
  rw [e, round_exact a h (by positivity)]

/-- `+0 + +0` is `+0`. -/
theorem add_zero_zero : Dbl.add (Dbl.fin false 0) (Dbl.fin false 0) = Dbl.fin false 0 := by
  have := round_exact false isDoubleMag_zero Nat.one_pos
  simpa [Dbl.add] using this

/-- A finite constant times `+0` is a zero with the sign of the constant. -/
theorem mul_fin_zero (b : Bool) (n : ℕ) :
    Dbl.mul (Dbl.fin b n) (Dbl.fin false 0) = Dbl.fin b 0 := by
  have := round_exact b isDoubleMag_zero (Nat.pos_pow_of_pos 1074 (by norm_num : 0 < 2))
  simpa [Dbl.mul] using this

/-- A zero divided by two is that zero. -/
theorem zero_div_two (b : Bool) : Dbl.div (Dbl.fin b 0) Dbl.two = Dbl.fin b 0 := by
  have h2ne : ¬ (2 * 2 ^ 1074 = 0) := by positivity
  have := round_exact b isDoubleMag_zero (by positivity : 0 < 2 * 2 ^ 1074)
  simp only [Dbl.div, Dbl.two, if_neg h2ne, Bool.xor_false]
  simpa using this

/-! ## The degenerate window in doubles -/

/-- Every row of a run in doubles is the reference row of its position. -/
theorem row_of_runD {self : InstD} {cconst : Option Dbl} {first : Option Dbl}
    {rest : List (Option Dbl)} {rows : List RowD} (h : self.Ready)
    (hrun : processPartitionD self cconst first rest = some rows) {j : ℕ} {r : RowD}
    (hr : rows[j]? = some r) :
    ∃ x, (first :: rest)[j]? = some x ∧
      r = refRowD self.setsize (cconstOfD cconst) (j + 1) (seenUpToD (first :: rest) j) x := by
  rw [processPartition_eqD self cconst first rest h] at hrun
  cases hrun
  rw [refRows_getElemD] at hr
  cases hx : (first :: rest)[j]? with
  | none => rw [hx] at hr; simp at hr
  | some x =>
    rw [hx] at hr
    simp only [Option.map_some', Option.some.injEq, List.nil_append] at hr
    subst hr
    exact ⟨x, rfl, by rw [Nat.add_comm, seenUpToD]⟩

theorem before_self_fin (a : Bool) (m : ℕ) : Dbl.before (Dbl.fin a m) (Dbl.fin a m) := by
  intro h
  exact lt_irrefl _ h.2.2

/-- Sorting equal finite cells moves nothing. -/
theorem sortD_replicate (a : Bool) (m : ℕ) (n : ℕ) :
    sortD (List.replicate n (Dbl.fin a m)) = List.replicate n (Dbl.fin a m) := by
  induction n with
  | zero => rfl
  | succ n ih =>
    rw [List.replicate_succ, sortD, List.insertionSort, ← sortD, ih]
    cases n with
    | zero => rfl
    | succ n =>
      rw [List.replicate_succ, List.orderedInsert, if_pos (before_self_fin a m)]

theorem getD_replicate {c : Dbl} {n k : ℕ} (h : k < n) : (List.replicate n c).getD k Dbl.nan = c := by
  simp [List.getD, List.getElem?_replicate, h]

/-- The statistics row of a window of equal finite doubles. -/
theorem statRow_constD {rn : ℕ} {w : List Dbl} {v : Dbl} {a b : Bool} {m n : ℕ}
    (hw : ∀ x ∈ w, x = Dbl.fin a m) (hlen : 1 ≤ w.length) (hv : v ∈ w)
    (hm : isDoubleMag m) (hK : w.length % 2 = 1 ∨ 2 * m < 2 ^ 2098) :
    statRowD (Dbl.fin b n) rn w v = ⟨rn, some (Dbl.fin a m), some (Dbl.fin b 0), some Dbl.nan⟩ := by
  have hrep : w = List.replicate w.length (Dbl.fin a m) := List.eq_replicate_iff.2 ⟨rfl, hw⟩
  have hk2 : w.length / 2 < w.length := Nat.div_lt_self hlen (by norm_num)
  have hk3 : w.length / 2 - 1 < w.length := by omega
  have hmed : winMedianD w = Dbl.fin a m := by
    unfold winMedianD closedMedianD
    rw [hrep, sortD_replicate, List.length_replicate]
    rw [getD_replicate hk2, getD_replicate hk3]
    split
    · rfl
    · next hodd =>
      rcases hK with hK | hK
      · exact absurd hK hodd
      · exact half_add_self a hm hK
  have hdev : winDevsD w = List.replicate w.length (Dbl.fin false 0) := by
    unfold winDevsD
    rw [hmed]
    conv_lhs => rw [hrep]
    rw [sortD_replicate, absDevsD, List.map_replicate, sub_self_fin]
    exact sortD_replicate false 0 _
  have hmad : winMadD (Dbl.fin b n) w = Dbl.fin b 0 := by
    unfold winMadD madOfD
    rw [hdev, getD_replicate hk2, getD_replicate hk3]
    split
    · exact mul_fin_zero b n
    · rw [add_zero_zero, mul_fin_zero, zero_div_two]
  have hv2 : v = Dbl.fin a m := hw v hv
  simp only [statRowD, hmed, hmad, hv2, sub_self_fin]
  simp [Dbl.abs, Dbl.div]

/-! ## Rounding to the nearest double: bounds and monotonicity -/

theorem roundMag_eq (n d : ℕ) :
    roundMag n d = if roundRaw n d < 2 ^ 2098 then some (roundRaw n d) else none := rfl

/-- The nearest integer lies within half a unit, and a tie goes to an even
one. -/
theorem roundEven_spec (n : ℕ) {D : ℕ} (hD : 0 < D) :
    2 * (roundEven n D * D) ≤ 2 * n + D ∧ 2 * n ≤ 2 * (roundEven n D * D) + D ∧
    (2 * (roundEven n D * D) = 2 * n + D → roundEven n D % 2 = 0) ∧
    (2 * n = 2 * (roundEven n D * D) + D → roundEven n D % 2 = 0) := by
  have hn : n = n / D * D + n % D := by
    have := Nat.div_add_mod n D
    rw [Nat.mul_comm] at this
    exact this.symm
  have hr : n % D < D := Nat.mod_lt _ hD
  generalize hq : n / D = q at hn
  generalize hrr : n % D = r at hn hr
  unfold roundEven
  rw [hq, hrr]
  have e1 : (q + 1) * D = q * D + D := by ring
  split
  · refine ⟨by omega, by omega, ?_, ?_⟩ <;> intro h <;> omega
  · split
    · rw [e1]
      refine ⟨by omega, by omega, ?_, ?_⟩ <;> intro h <;> omega
    · split
      · next h3 => exact ⟨by omega, by omega, fun _ => h3, fun _ => h3⟩
      · next h3 =>
        rw [e1]
        refine ⟨by omega, by omega, ?_, ?_⟩ <;> intro _ <;> omega

theorem roundEven_le_of_le {n D j : ℕ} (hD : 0 < D) (h : n ≤ j * D) : roundEven n D ≤ j := by
  obtain ⟨h1, _, _, _⟩ := roundEven_spec n hD
  by_contra hc
  have h2 : j + 1 ≤ roundEven n D := by omega
  have h3 : (j + 1) * D ≤ roundEven n D * D := Nat.mul_le_mul_right D h2
  have e1 : (j + 1) * D = j * D + D := by ring
  omega

theorem le_roundEven {n D j : ℕ} (hD : 0 < D) (h : j * D ≤ n) : j ≤ roundEven n D := by
  obtain ⟨_, h1, _, _⟩ := roundEven_spec n hD
  by_contra hc
  have h2 : roundEven n D + 1 ≤ j := by omega
  have h3 : (roundEven n D + 1) * D ≤ j * D := Nat.mul_le_mul_right D h2
  have e1 : (roundEven n D + 1) * D = roundEven n D * D + D := by ring
  omega

/-- Rounding to the nearest integer is monotone in the quotient. -/
theorem roundEven_mono {n1 n2 D1 D2 : ℕ} (h1 : 0 < D1) (h2 : 0 < D2)
    (h : n1 * D2 ≤ n2 * D1) : roundEven n1 D1 ≤ roundEven n2 D2 := by
  obtain ⟨a1, _, a3, _⟩ := roundEven_spec n1 h1
  obtain ⟨_, b2, _, b4⟩ := roundEven_spec n2 h2
  generalize roundEven n1 D1 = k1 at *
  generalize roundEven n2 D2 = k2 at *
  by_contra hc
  have hk : k2 + 1 ≤ k1 := by omega
  -- 2 n1 ≥ (2 k2 + 1) D1
  have c1 : (k2 + 1) * D1 ≤ k1 * D1 := Nat.mul_le_mul_right D1 hk
  have e1 : (k2 + 1) * D1 = k2 * D1 + D1 := by ring
  have c2 : 2 * (k2 * D1) + D1 ≤ 2 * n1 := by omega
  -- multiply
  have c3 : (2 * (k2 * D1) + D1) * D2 ≤ 2 * n1 * D2 := Nat.mul_le_mul_right D2 c2
  have c4 : 2 * n2 * D1 ≤ (2 * (k2 * D2) + D2) * D1 := Nat.mul_le_mul_right D1 b2
  have e2 : (2 * (k2 * D1) + D1) * D2 = (2 * (k2 * D2) + D2) * D1 := by ring
  have c5 : 2 * n1 * D2 ≤ 2 * n2 * D1 := by
    have := Nat.mul_le_mul_left 2 h
    simpa [Nat.mul_assoc] using this
  have c6 : 2 * n2 * D1 = (2 * (k2 * D2) + D2) * D1 := by omega
  have c7 : 2 * n1 * D2 = (2 * (k2 * D1) + D1) * D2 := by omega
  have c8 : 2 * n2 = 2 * (k2 * D2) + D2 := Nat.eq_of_mul_eq_mul_right h1 c6
  have c9 : 2 * n1 = 2 * (k2 * D1) + D1 := Nat.eq_of_mul_eq_mul_right h2 c7
  have p2 := b4 c8
  have c10 : k1 * D1 ≤ (k2 + 1) * D1 := by omega
  have c11 : k1 ≤ k2 + 1 := Nat.le_of_mul_le_mul_right c10 h1
  have c12 : k1 = k2 + 1 := by omega
  subst c12
  have p1 := a3 (by omega)
  omega

theorem binaryOrder_lt {x : ℕ} (h : x < 2 ^ 8192) : x < 2 ^ (binaryOrder x + 1) := by
  rcases Nat.eq_zero_or_pos x with rfl | hpos
  · exact Nat.pos_pow_of_pos _ (by norm_num)
  · exact (binaryOrder_spec hpos h).2

theorem binaryOrder_mono {x y : ℕ} (h : x ≤ y) (hy : y < 2 ^ 8192) :
    binaryOrder x ≤ binaryOrder y := by
  rcases Nat.eq_zero_or_pos x with rfl | hpos
  · rw [binaryOrder_zero]; exact Nat.zero_le _
  · have h1 := (binaryOrder_spec hpos (lt_of_le_of_lt h hy)).1
    have h2 := binaryOrder_lt hy
    have h3 : 2 ^ binaryOrder x < 2 ^ (binaryOrder y + 1) := by omega
    have := (Nat.pow_lt_pow_iff_right (by norm_num : 1 < 2)).1 h3
    omega

theorem binaryOrder_pow {e : ℕ} (h : e < 8192) : binaryOrder (2 ^ e) = e :=
  binaryOrder_unique (le_refl _) (Nat.pow_lt_pow_right (by norm_num) (by omega))
    (Nat.pow_lt_pow_right (by norm_num) h)

theorem onGrid_pow {e : ℕ} (h : e < 8192) : onGrid (2 ^ e) := by
  unfold onGrid
  rw [binaryOrder_pow h]
  exact Nat.pow_dvd_pow 2 (Nat.sub_le _ _)

theorem onGrid_of_isDoubleMag {m : ℕ} (h : isDoubleMag m) : onGrid m := h.2

/-- A grid magnitude at or above the quotient bounds its rounding. -/
theorem roundRaw_le {n d b : ℕ} (hb : onGrid b) (hb2 : b < 2 ^ 8192) (hd : 0 < d)
    (h : n ≤ b * d) : roundRaw n d ≤ b := by
  have hq : n / d ≤ b := Nat.div_le_of_le_mul (by rw [Nat.mul_comm]; exact h)
  have he := binaryOrder_mono hq hb2
  have hdiv : 2 ^ (binaryOrder (n / d) - 52) ∣ b :=
    dvd_trans (Nat.pow_dvd_pow 2 (by omega)) hb
  obtain ⟨j, hj⟩ := hdiv
  unfold roundRaw
  generalize 2 ^ (binaryOrder (n / d) - 52) = Q at *
  have hQ : 0 < Q ∨ Q = 0 := by omega
  rcases hQ with hQ | hQ
  · have : roundEven n (d * Q) ≤ j := by
      apply roundEven_le_of_le (Nat.mul_pos hd hQ)
      rw [hj] at h
      calc n ≤ Q * j * d := h
        _ = j * (d * Q) := by ring
    calc roundEven n (d * Q) * Q ≤ j * Q := Nat.mul_le_mul_right Q this
      _ = b := by rw [hj]; ring
  · subst hQ; simp

/-- A grid magnitude at or below the quotient bounds its rounding. -/
theorem le_roundRaw {n d a : ℕ} (ha : onGrid a) (hd : 0 < d) (h : a * d ≤ n)
    (hn : n < 2 ^ 8192 * d) : a ≤ roundRaw n d := by
  have hq : a ≤ n / d := (Nat.le_div_iff_mul_le hd).2 h
  have hq2 : n / d < 2 ^ 8192 := (Nat.div_lt_iff_lt_mul hd).2 hn
  have hQpos : 0 < 2 ^ (binaryOrder (n / d) - 52) := Nat.pos_pow_of_pos _ (by norm_num)
  rcases Nat.lt_or_ge a (2 ^ binaryOrder (n / d)) with hlt | hge
  · rcases Nat.eq_zero_or_pos (n / d) with h0 | hpos
    · rw [h0] at hq; omega
    · have hs := (binaryOrder_spec hpos hq2).1
      have hle : 2 ^ binaryOrder (n / d) * d ≤ n := (Nat.le_div_iff_mul_le hd).1 hs
      have hsplit : 2 ^ binaryOrder (n / d) =
          2 ^ (binaryOrder (n / d) - (binaryOrder (n / d) - 52)) *
            2 ^ (binaryOrder (n / d) - 52) := by
        rw [← Nat.pow_add]; congr 1; omega
      have : 2 ^ (binaryOrder (n / d) - (binaryOrder (n / d) - 52)) ≤
          roundEven n (d * 2 ^ (binaryOrder (n / d) - 52)) := by
        apply le_roundEven (Nat.mul_pos hd hQpos)
        calc 2 ^ (binaryOrder (n / d) - (binaryOrder (n / d) - 52)) *
              (d * 2 ^ (binaryOrder (n / d) - 52))
            = (2 ^ (binaryOrder (n / d) - (binaryOrder (n / d) - 52)) *
              2 ^ (binaryOrder (n / d) - 52)) * d := by ring
          _ = 2 ^ binaryOrder (n / d) * d := by rw [← hsplit]
          _ ≤ n := hle
      unfold roundRaw
      have := Nat.mul_le_mul_right (2 ^ (binaryOrder (n / d) - 52)) this
      rw [← hsplit] at this
      omega
  · have hea : binaryOrder a = binaryOrder (n / d) :=
      binaryOrder_unique hge (lt_of_le_of_lt hq (binaryOrder_lt hq2)) (lt_of_le_of_lt hq hq2)
    unfold onGrid at ha
    rw [hea] at ha
    obtain ⟨j, hj⟩ := ha
    unfold roundRaw
    generalize 2 ^ (binaryOrder (n / d) - 52) = Q at *
    have : j ≤ roundEven n (d * Q) := by
      apply le_roundEven (Nat.mul_pos hd hQpos)
      rw [hj] at h
      calc j * (d * Q) = Q * j * d := by ring
        _ ≤ n := h
    calc a = j * Q := by rw [hj]; ring
      _ ≤ roundEven n (d * Q) * Q := Nat.mul_le_mul_right Q this

/-- Rounding to a double magnitude is monotone in the quotient. -/
theorem roundRaw_mono {n1 n2 d1 d2 : ℕ} (h1 : 0 < d1) (h2 : 0 < d2)
    (h : n1 * d2 ≤ n2 * d1) (hn : n2 < 2 ^ 8192 * d2) : roundRaw n1 d1 ≤ roundRaw n2 d2 := by
  have hq2 : n2 / d2 < 2 ^ 8192 := (Nat.div_lt_iff_lt_mul h2).2 hn
  have hq : n1 / d1 ≤ n2 / d2 := by
    rw [Nat.le_div_iff_mul_le h2]
    have a1 : n1 / d1 * d1 ≤ n1 := Nat.div_mul_le_self n1 d1
    have a2 : n1 / d1 * d1 * d2 ≤ n2 * d1 := le_trans (Nat.mul_le_mul_right d2 a1) h
    have a3 : n1 / d1 * d2 * d1 ≤ n2 * d1 := by
      calc n1 / d1 * d2 * d1 = n1 / d1 * d1 * d2 := by ring
        _ ≤ n2 * d1 := a2
    exact Nat.le_of_mul_le_mul_right a3 h1
  have he := binaryOrder_mono hq hq2
  rcases Nat.eq_or_lt_of_le he with heq | hlt
  · unfold roundRaw
    rw [heq]
    have hQ : 0 < 2 ^ (binaryOrder (n2 / d2) - 52) := Nat.pos_pow_of_pos _ (by norm_num)
    generalize 2 ^ (binaryOrder (n2 / d2) - 52) = Q at *
    apply Nat.mul_le_mul_right
    apply roundEven_mono (Nat.mul_pos h1 hQ) (Nat.mul_pos h2 hQ)
    calc n1 * (d2 * Q) = n1 * d2 * Q := by ring
      _ ≤ n2 * d1 * Q := Nat.mul_le_mul_right Q h
      _ = n2 * (d1 * Q) := by ring
  · have hpos2 : 0 < n2 / d2 := by
      rcases Nat.eq_zero_or_pos (n2 / d2) with h0 | hp
      · rw [h0, binaryOrder_zero] at hlt; omega
      · exact hp
    have hs2 := (binaryOrder_spec hpos2 hq2).1
    have hb8 : binaryOrder (n2 / d2) < 8192 := by
      have : 2 ^ binaryOrder (n2 / d2) < 2 ^ 8192 := lt_of_le_of_lt hs2 hq2
      exact (Nat.pow_lt_pow_iff_right (by norm_num : 1 < 2)).1 this
    have hs1 := binaryOrder_lt (lt_of_le_of_lt hq hq2)
    have u1 : roundRaw n1 d1 ≤ 2 ^ (binaryOrder (n1 / d1) + 1) := by
      apply roundRaw_le (onGrid_pow (by omega)) (Nat.pow_lt_pow_right (by norm_num) (by omega)) h1
      exact le_of_lt ((Nat.div_lt_iff_lt_mul h1).1 hs1)
    have u2 : 2 ^ binaryOrder (n2 / d2) ≤ roundRaw n2 d2 :=
      le_roundRaw (onGrid_pow hb8) h2 ((Nat.le_div_iff_mul_le h2).1 hs2) hn
    have u3 : 2 ^ (binaryOrder (n1 / d1) + 1) ≤ 2 ^ binaryOrder (n2 / d2) :=
      Nat.pow_le_pow_right (by norm_num) hlt
    omega

/-- Rounding leaves a grid magnitude as it is. -/
theorem roundRaw_exact {a d : ℕ} (ha : onGrid a) (ha2 : a < 2 ^ 8192) (hd : 0 < d) :
    roundRaw (a * d) d = a :=
  le_antisymm (roundRaw_le ha ha2 hd (le_refl _))
    (le_roundRaw ha hd (le_refl _) (Nat.mul_lt_mul_of_pos_right ha2 hd))

/-! ## Positions of rounded values -/

theorem onGrid_zero : onGrid 0 := Nat.dvd_zero _

theorem capMag_zero {d : ℕ} (hd : 0 < d) : capMag 0 d = 0 := by
  have := roundRaw_exact onGrid_zero (Nat.pos_pow_of_pos 8192 (by norm_num : 0 < 2)) hd
  rw [Nat.zero_mul] at this
  rw [capMag, this]
  exact Nat.zero_min _

theorem capMag_le (n d : ℕ) : capMag n d ≤ 2 ^ 2098 := Nat.min_le_right _ _

theorem capMag_mono {n1 n2 d1 d2 : ℕ} (h1 : 0 < d1) (h2 : 0 < d2)
    (h : n1 * d2 ≤ n2 * d1) (hn : n2 < 2 ^ 8192 * d2) : capMag n1 d1 ≤ capMag n2 d2 := by
  unfold capMag
  exact min_le_min (roundRaw_mono h1 h2 h hn) (le_refl _)

theorem capMag_exact {a d : ℕ} (ha : onGrid a) (ha2 : a ≤ 2 ^ 2098) (hd : 0 < d) :
    capMag (a * d) d = a := by
  have h8 : a < 2 ^ 8192 := lt_of_le_of_lt ha2 pow2098_lt
  rw [capMag, roundRaw_exact ha h8 hd]
  exact Nat.min_eq_left ha2

theorem rank_round (a : Bool) (n d : ℕ) :
    (Dbl.round a n d).rank = (if a then -1 else 1) * (capMag n d : ℤ) := by
  unfold Dbl.round
  rw [roundMag_eq]
  unfold capMag
  by_cases h : roundRaw n d < 2 ^ 2098
  · rw [if_pos h, Nat.min_eq_left (le_of_lt h)]
    cases a <;> simp [Dbl.rank]
  · rw [if_neg h, Nat.min_eq_right (not_lt.1 h)]
    cases a <;> simp [Dbl.rank]

theorem round_isNumber (a : Bool) (n d : ℕ) : (Dbl.round a n d).isNumber = true := by
  unfold Dbl.round
  split <;> rfl

/-- A rounded value is finite or an infinity of its sign. -/
theorem round_cases (a : Bool) (n d : ℕ) :
    (∃ m, Dbl.round a n d = Dbl.fin a m ∧ m < 2 ^ 2098) ∨ Dbl.round a n d = Dbl.inf a := by
  unfold Dbl.round
  rw [roundMag_eq]
  by_cases h : roundRaw n d < 2 ^ 2098
  · rw [if_pos h]; exact Or.inl ⟨_, rfl, h⟩
  · rw [if_neg h]; exact Or.inr rfl

theorem rnd_neg (z : ℤ) (d : ℕ) : rnd (-z) d = -rnd z d := by
  simp [rnd, Int.sign_neg]

theorem rnd_of_nonneg {z : ℤ} (hz : 0 ≤ z) {d : ℕ} (hd : 0 < d) :
    rnd z d = (capMag z.natAbs d : ℤ) := by
  rcases eq_or_lt_of_le hz with h0 | hpos
  · rw [← h0]; simp [rnd, capMag_zero hd]
  · rw [rnd, Int.sign_eq_one_of_pos hpos, one_mul]

theorem rnd_nonneg {z : ℤ} (hz : 0 ≤ z) {d : ℕ} (hd : 0 < d) : 0 ≤ rnd z d := by
  rw [rnd_of_nonneg hz hd]
  exact Int.natCast_nonneg _

theorem rnd_nonpos {z : ℤ} (hz : z ≤ 0) {d : ℕ} (hd : 0 < d) : rnd z d ≤ 0 := by
  have := rnd_nonneg (neg_nonneg.2 hz) hd
  rw [rnd_neg] at this
  linarith

/-- Rounding is monotone. -/
theorem rnd_mono {z1 z2 : ℤ} {d1 d2 : ℕ} (h1 : 0 < d1) (h2 : 0 < d2)
    (h : z1 * d2 ≤ z2 * d1) (hb1 : z1.natAbs < 2 ^ 8192 * d1) (hb2 : z2.natAbs < 2 ^ 8192 * d2) :
    rnd z1 d1 ≤ rnd z2 d2 := by
  have hd1 : (0 : ℤ) < d1 := by exact_mod_cast h1
  have hd2 : (0 : ℤ) < d2 := by exact_mod_cast h2
  rcases le_or_lt 0 z1 with p1 | n1
  · have p2 : 0 ≤ z2 := by
      by_contra hc
      rw [not_le] at hc
      have a1 : z2 * d1 < 0 := mul_neg_of_neg_of_pos hc hd1
      have a2 : 0 ≤ z1 * d2 := mul_nonneg p1 hd2.le
      linarith
    rw [rnd_of_nonneg p1 h1, rnd_of_nonneg p2 h2]
    have : z1.natAbs * d2 ≤ z2.natAbs * d1 := by
      have e1 : (z1.natAbs : ℤ) = z1 := Int.natAbs_of_nonneg p1
      have e2 : (z2.natAbs : ℤ) = z2 := Int.natAbs_of_nonneg p2
      have : (z1.natAbs : ℤ) * d2 ≤ (z2.natAbs : ℤ) * d1 := by rw [e1, e2]; exact h
      exact_mod_cast this
    exact_mod_cast capMag_mono h1 h2 this hb2
  · rcases le_or_lt 0 z2 with p2 | n2
    · exact le_trans (rnd_nonpos n1.le h1) (rnd_nonneg p2 h2)
    · have q1 : 0 ≤ -z1 := by linarith
      have q2 : 0 ≤ -z2 := by linarith
      have e1 : rnd z1 d1 = -rnd (-z1) d1 := by rw [rnd_neg, neg_neg]
      have e2 : rnd z2 d2 = -rnd (-z2) d2 := by rw [rnd_neg, neg_neg]
      rw [e1, e2, rnd_of_nonneg q1 h1, rnd_of_nonneg q2 h2, neg_le_neg_iff]
      have : (-z2).natAbs * d1 ≤ (-z1).natAbs * d2 := by
        have f1 : ((-z1).natAbs : ℤ) = -z1 := Int.natAbs_of_nonneg q1
        have f2 : ((-z2).natAbs : ℤ) = -z2 := Int.natAbs_of_nonneg q2
        have : ((-z2).natAbs : ℤ) * d1 ≤ ((-z1).natAbs : ℤ) * d2 := by
          rw [f1, f2]; linarith
        exact_mod_cast this
      have hb : (-z1).natAbs < 2 ^ 8192 * d1 := by rw [Int.natAbs_neg]; exact hb1
      exact_mod_cast capMag_mono h2 h1 this hb

/-- Rounding leaves a position on the grid as it is. -/
theorem rnd_exact {z : ℤ} {d : ℕ} (hz : onGrid z.natAbs) (hz2 : z.natAbs ≤ 2 ^ 2098)
    (hd : 0 < d) : rnd (z * d) d = z := by
  have e : (z * (d : ℤ)).natAbs = z.natAbs * d := by
    rw [Int.natAbs_mul, Int.natAbs_ofNat]
  have hdz : (0 : ℤ) < d := by exact_mod_cast hd
  rw [rnd, e, capMag_exact hz hz2 hd, Int.sign_mul, Int.sign_eq_one_of_pos hdz, mul_one]
  exact Int.sign_mul_natAbs z

theorem rnd_abs_le (z : ℤ) (d : ℕ) : |rnd z d| ≤ ((2 ^ 2098 : ℕ) : ℤ) := by
  rw [rnd, abs_mul]
  have h1 : |z.sign| ≤ 1 := by
    rcases lt_trichotomy z 0 with h | h | h
    · rw [Int.sign_eq_neg_one_of_neg h]; simp
    · rw [h]; simp
    · rw [Int.sign_eq_one_of_pos h]; simp
  have h2 : |(capMag z.natAbs d : ℤ)| = capMag z.natAbs d := abs_of_nonneg (Int.natCast_nonneg _)
  rw [h2]
  have h3 : (capMag z.natAbs d : ℤ) ≤ ((2 ^ 2098 : ℕ) : ℤ) := by exact_mod_cast capMag_le _ _
  have h4 : (0 : ℤ) ≤ capMag z.natAbs d := Int.natCast_nonneg _
  calc |z.sign| * (capMag z.natAbs d : ℤ) ≤ 1 * (capMag z.natAbs d : ℤ) :=
        mul_le_mul_of_nonneg_right h1 h4
    _ = capMag z.natAbs d := one_mul _
    _ ≤ _ := h3

/-- Position of a rounded value whose sign bit agrees with the sign of the
exact value. -/
theorem rank_round_of {a : Bool} {n d : ℕ} {z : ℤ} (hd : 0 < d) (hn : z.natAbs = n)
    (hneg : z < 0 → a = true) (hpos : 0 < z → a = false) :
    (Dbl.round a n d).rank = rnd z d := by
  rw [rank_round, rnd, hn]
  rcases lt_trichotomy z 0 with h | h | h
  · rw [hneg h, Int.sign_eq_neg_one_of_neg h]; rfl
  · subst h
    have : n = 0 := by rw [← hn]; rfl
    subst this
    simp [capMag_zero hd]
  · rw [hpos h, Int.sign_eq_one_of_pos h]; simp

theorem rank_fin (a : Bool) (m : ℕ) : (Dbl.fin a m).rank = (if a then -1 else 1) * (m : ℤ) := by
  cases a <;> simp [Dbl.rank]

theorem rank_neg (x : Dbl) : (Dbl.neg x).rank = -x.rank := by
  cases x with
  | fin a m => cases a <;> simp [Dbl.neg, Dbl.rank]
  | inf a => cases a <;> simp [Dbl.neg, Dbl.rank]
  | nan => simp [Dbl.neg, Dbl.rank]

/-- Position of the sum of two finite doubles. -/
theorem rank_add_fin (a b : Bool) (m n : ℕ) :
    (Dbl.add (Dbl.fin a m) (Dbl.fin b n)).rank =
      rnd ((Dbl.fin a m).rank + (Dbl.fin b n).rank) 1 := by
  simp only [Dbl.add]
  split
  · next hab =>
    subst hab
    apply rank_round_of Nat.one_pos
    · cases a <;> simp [Dbl.rank] <;> omega
    · intro h; cases a <;> simp [Dbl.rank] at h ⊢; omega
    · intro h; cases a <;> simp [Dbl.rank] at h ⊢; omega
  · next hab =>
    split
    · next hlt =>
      apply rank_round_of Nat.one_pos
      · cases a <;> cases b <;> simp [Dbl.rank] at hab ⊢ <;> omega
      · intro h; cases a <;> cases b <;> simp [Dbl.rank] at hab h ⊢; omega
      · intro h; cases a <;> cases b <;> simp [Dbl.rank] at hab h ⊢; omega
    · split
      · next hlt =>
        apply rank_round_of Nat.one_pos
        · cases a <;> cases b <;> simp [Dbl.rank] at hab ⊢ <;> omega
        · intro h; cases a <;> cases b <;> simp [Dbl.rank] at hab h ⊢; omega
        · intro h; cases a <;> cases b <;> simp [Dbl.rank] at hab h ⊢; omega
      · next h1 h2 =>
        have e : m = n := by omega
        subst e
        cases a <;> cases b <;> simp [Dbl.rank, rnd] at hab ⊢

theorem add_fin_isNumber (a b : Bool) (m n : ℕ) :
    (Dbl.add (Dbl.fin a m) (Dbl.fin b n)).isNumber = true := by
  simp only [Dbl.add]
  split
  · exact round_isNumber _ _ _
  · split
    · exact round_isNumber _ _ _
    · split
      · exact round_isNumber _ _ _
      · rfl

/-! ## Sorting doubles -/

theorem before_iff_rankLe {x y : Dbl} (hx : x.isNumber = true) (hy : y.isNumber = true) :
    Dbl.before x y ↔ Dbl.rankLe x y := by
  unfold Dbl.before Dbl.lt Dbl.rankLe
  constructor
  · intro h
    by_contra hc
    exact h ⟨hy, hx, not_le.1 hc⟩
  · intro h hc
    exact absurd h (not_le.2 hc.2.2)

theorem orderedInsert_congr {r q : Dbl → Dbl → Prop} [DecidableRel r] [DecidableRel q]
    (a : Dbl) : ∀ l : List Dbl, (∀ b ∈ l, r a b ↔ q a b) →
      l.orderedInsert r a = l.orderedInsert q a
  | [], _ => rfl
  | b :: l, h => by
    have hb := h b (List.mem_cons_self _ _)
    have ih := orderedInsert_congr (r := r) (q := q) a l
      (fun c hc => h c (List.mem_cons_of_mem _ hc))
    by_cases hr : r a b
    · rw [List.orderedInsert, List.orderedInsert, if_pos hr, if_pos (hb.1 hr)]
    · rw [List.orderedInsert, List.orderedInsert, if_neg hr, if_neg (fun h' => hr (hb.2 h')), ih]

theorem insertionSort_congr {r q : Dbl → Dbl → Prop} [DecidableRel r] [DecidableRel q] :
    ∀ l : List Dbl, (∀ a ∈ l, ∀ b ∈ l, r a b ↔ q a b) →
      l.insertionSort r = l.insertionSort q
  | [], _ => rfl
  | a :: l, h => by
    have ih := insertionSort_congr (r := r) (q := q) l
      (fun x hx y hy => h x (List.mem_cons_of_mem _ hx) y (List.mem_cons_of_mem _ hy))
    rw [List.insertionSort, List.insertionSort, ih]
    apply orderedInsert_congr
    intro b hb
    have hb' : b ∈ l := (List.perm_insertionSort q l).subset hb
    exact h a (List.mem_cons_self _ _) b (List.mem_cons_of_mem _ hb')

/-- Sorting cells that are all numbers arranges them by position. -/
theorem sortD_sorted {l : List Dbl} (h : ∀ x ∈ l, x.isNumber = true) :
    (sortD l).Sorted Dbl.rankLe := by
  have e : sortD l = l.insertionSort Dbl.rankLe := by
    unfold sortD
    apply insertionSort_congr
    intro a ha b hb
    exact before_iff_rankLe (h a ha) (h b hb)
  rw [e]
  exact List.sorted_insertionSort Dbl.rankLe l

theorem mem_sortD {l : List Dbl} {x : Dbl} : x ∈ sortD l ↔ x ∈ l :=
  (sortD_perm l).mem_iff

theorem getD_memD {l : List Dbl} {i : ℕ} (h : i < l.length) : l.getD i Dbl.nan ∈ l := by
  rw [List.getD_eq_getElem _ _ h]
  exact List.getElem_mem _

theorem sorted_getD_leD {s : List Dbl} (hs : s.Sorted Dbl.rankLe) {i j : ℕ} (hij : i ≤ j)
    (hj : j < s.length) : (s.getD i Dbl.nan).rank ≤ (s.getD j Dbl.nan).rank := by
  have hi : i < s.length := by omega
  rw [List.getD_eq_getElem _ _ hi, List.getD_eq_getElem _ _ hj]
  exact hs.rel_get_of_le (a := ⟨i, hi⟩) (b := ⟨j, hj⟩) hij

theorem mem_getD_D {s : List Dbl} {x : Dbl} (hx : x ∈ s) :
    ∃ i, i < s.length ∧ x = s.getD i Dbl.nan := by
  obtain ⟨i, hi, rfl⟩ := List.getElem_of_mem hx
  exact ⟨i, hi, (List.getD_eq_getElem _ _ hi).symm⟩

/-- In a list arranged by position at least `k + 1` values are at or below
any bound of the value at index `k`. -/
theorem count_le_of_sortedD {s : List Dbl} (hs : s.Sorted Dbl.rankLe) {k : ℕ}
    (hk : k < s.length) {m : Dbl} (hm : (s.getD k Dbl.nan).rank ≤ m.rank) :
    k + 1 ≤ s.countP (fun x => decide (x.rank ≤ m.rank)) := by
  have hall : ∀ x ∈ s.take (k + 1), (fun x : Dbl => decide (x.rank ≤ m.rank)) x = true := by
    intro x hx
    obtain ⟨i', hi', he⟩ := List.getElem_of_mem hx
    rw [List.length_take] at hi'
    have hle : (s.getD i' Dbl.nan).rank ≤ (s.getD k Dbl.nan).rank :=
      sorted_getD_leD hs (by omega) hk
    rw [List.getElem_take, ← List.getD_eq_getElem _ Dbl.nan (by omega)] at he
    rw [← he]
    exact decide_eq_true (hle.trans hm)
  have h1 : (s.take (k + 1)).countP (fun x => decide (x.rank ≤ m.rank)) = k + 1 := by
    rw [List.countP_eq_length.2 hall, List.length_take]
    omega
  rw [← h1]
  exact List.Sublist.countP_le _ (List.take_sublist _ _)

/-- In a list arranged by position at least `length - k` values are at or
above any lower bound of the value at index `k`. -/
theorem count_ge_of_sortedD {s : List Dbl} (hs : s.Sorted Dbl.rankLe) {k : ℕ}
    (hk : k < s.length) {m : Dbl} (hm : m.rank ≤ (s.getD k Dbl.nan).rank) :
    s.length - k ≤ s.countP (fun x => decide (m.rank ≤ x.rank)) := by
  have hall : ∀ x ∈ s.drop k, (fun x : Dbl => decide (m.rank ≤ x.rank)) x = true := by
    intro x hx
    obtain ⟨i', hi', he⟩ := List.getElem_of_mem hx
    rw [List.length_drop] at hi'
    have hle : (s.getD k Dbl.nan).rank ≤ (s.getD (k + i') Dbl.nan).rank :=
      sorted_getD_leD hs (by omega) (by omega)
    rw [List.getElem_drop, ← List.getD_eq_getElem _ Dbl.nan (by omega)] at he
    rw [← he]
    exact decide_eq_true (hm.trans hle)
  have h1 : (s.drop k).countP (fun x => decide (m.rank ≤ x.rank)) = s.length - k := by
    rw [List.countP_eq_length.2 hall, List.length_drop]
  rw [← h1]
  exact List.Sublist.countP_le _ (List.drop_sublist _ _)

/-! ## The half of a sum of two doubles -/

theorem natAbs_lt_of_abs_lt {z : ℤ} {N : ℕ} (h : |z| < (N : ℤ)) : z.natAbs < N := by
  have : (z.natAbs : ℤ) < N := by rw [Int.natCast_natAbs]; exact h
  exact_mod_cast this

/-- The rounded half of the rounded sum of two positions is not below the
lower one, unless the sum overflows. -/
theorem le_half_sum {A B : ℤ} (hA : onGrid A.natAbs) (hA2 : A.natAbs < 2 ^ 2098)
    (hB2 : B.natAbs < 2 ^ 2098) (hAB : A ≤ B)
    (hs : rnd (B + A) 1 < ((2 ^ 2098 : ℕ) : ℤ)) :
    A ≤ rnd (rnd (B + A) 1 * ((2 ^ 1074 : ℕ) : ℤ)) (2 * 2 ^ 1074) := by
  have hd : 0 < 2 * 2 ^ 1074 := by positivity
  have hc : (0 : ℤ) < ((2 ^ 1074 : ℕ) : ℤ) := by positivity
  have hsabs := rnd_abs_le (B + A) 1
  have hsb : (rnd (B + A) 1 * ((2 ^ 1074 : ℕ) : ℤ)).natAbs < 2 ^ 8192 * (2 * 2 ^ 1074) := by
    rw [Int.natAbs_mul, Int.natAbs_ofNat]
    have h1 : (rnd (B + A) 1).natAbs ≤ 2 ^ 2098 := by
      have : ((rnd (B + A) 1).natAbs : ℤ) ≤ ((2 ^ 2098 : ℕ) : ℤ) := by
        rw [Int.natCast_natAbs]; exact hsabs
      exact_mod_cast this
    calc (rnd (B + A) 1).natAbs * 2 ^ 1074 ≤ 2 ^ 2098 * 2 ^ 1074 := Nat.mul_le_mul_right _ h1
      _ < 2 ^ 8192 * (2 * 2 ^ 1074) := by norm_num
  have hsum : (B + A).natAbs < 2 ^ 8192 * 1 := by
    have : (B + A).natAbs ≤ B.natAbs + A.natAbs := Int.natAbs_add_le B A
    have h8 : (2 : ℕ) ^ 2098 + 2 ^ 2098 < 2 ^ 8192 * 1 := by norm_num
    omega
  rcases Nat.lt_or_ge (2 * A.natAbs) (2 ^ 2098) with hsmall | hbig
  · -- doubling `A` is exact
    have hg2 : onGrid (2 * A).natAbs := by
      rw [Int.natAbs_mul]
      exact (isDoubleMag_double ⟨hA2, hA⟩ hsmall).2
    have h2A : rnd (2 * A) 1 = 2 * A := by
      have := rnd_exact (z := 2 * A) (d := 1) hg2
        (by rw [Int.natAbs_mul]; exact le_of_lt hsmall) Nat.one_pos
      simpa using this
    have h1 : 2 * A ≤ rnd (B + A) 1 := by
      rw [← h2A]
      apply rnd_mono Nat.one_pos Nat.one_pos _ _ hsum
      · push_cast; linarith
      · rw [Int.natAbs_mul]
        have h8 : (2 : ℕ) ^ 2098 < 2 ^ 8192 * 1 := by norm_num
        exact lt_trans hsmall h8
    have hAx : rnd (A * ((2 * 2 ^ 1074 : ℕ) : ℤ)) (2 * 2 ^ 1074) = A :=
      rnd_exact hA (le_of_lt hA2) hd
    rw [← hAx]
    have hAb : (A * ((2 * 2 ^ 1074 : ℕ) : ℤ)).natAbs < 2 ^ 8192 * (2 * 2 ^ 1074) := by
      rw [Int.natAbs_mul, Int.natAbs_ofNat]
      have h8 : (2 : ℕ) ^ 2098 ≤ 2 ^ 8192 := by norm_num
      calc A.natAbs * (2 * 2 ^ 1074) < 2 ^ 2098 * (2 * 2 ^ 1074) :=
            Nat.mul_lt_mul_of_pos_right hA2 hd
        _ ≤ 2 ^ 8192 * (2 * 2 ^ 1074) := Nat.mul_le_mul_right _ h8
    have hAxx : rnd (A * ((2 * 2 ^ 1074 : ℕ) : ℤ)) (2 * 2 ^ 1074) ≤
        rnd (rnd (B + A) 1 * ((2 ^ 1074 : ℕ) : ℤ)) (2 * 2 ^ 1074) := by
      apply rnd_mono hd hd _ hAb hsb
      have e1 : ((2 * 2 ^ 1074 : ℕ) : ℤ) = 2 * ((2 ^ 1074 : ℕ) : ℤ) := by push_cast
      rw [e1]
      have : A * (2 * ((2 ^ 1074 : ℕ) : ℤ)) ≤ rnd (B + A) 1 * ((2 ^ 1074 : ℕ) : ℤ) := by
        have := mul_le_mul_of_nonneg_right h1 hc.le
        linarith
      exact mul_le_mul_of_nonneg_right this (by positivity)
    rw [hAx] at hAxx ⊢
    exact hAxx
  · rcases le_or_lt 0 A with hpos | hneg
    · -- the sum reaches the overflow threshold
      exfalso
      have hAge : ((2 ^ 2097 : ℕ) : ℤ) ≤ A := by
        have e : (A.natAbs : ℤ) = A := Int.natAbs_of_nonneg hpos
        have : 2 ^ 2097 ≤ A.natAbs := by
          have e2 : (2 : ℕ) ^ 2098 = 2 * 2 ^ 2097 := by norm_num
          omega
        rw [← e]
        exact_mod_cast this
      have hx : rnd (((2 ^ 2098 : ℕ) : ℤ) * ((1 : ℕ) : ℤ)) 1 = ((2 ^ 2098 : ℕ) : ℤ) :=
        rnd_exact (by rw [Int.natAbs_ofNat]; exact onGrid_pow (by norm_num))
          (by rw [Int.natAbs_ofNat]) Nat.one_pos
      have hm : rnd (((2 ^ 2098 : ℕ) : ℤ) * ((1 : ℕ) : ℤ)) 1 ≤ rnd (B + A) 1 := by
        apply rnd_mono Nat.one_pos Nat.one_pos _ _ hsum
        · have e2 : ((2 ^ 2098 : ℕ) : ℤ) = 2 * ((2 ^ 2097 : ℕ) : ℤ) := by norm_num
          push_cast at e2 hAge ⊢
          linarith
        · rw [Int.natAbs_mul, Int.natAbs_ofNat, Int.natAbs_ofNat]; norm_num
      rw [hx] at hm
      linarith
    · -- `A ≤ -2^2097`, and the half of anything is at least `-2^2097`
      have hAle : A ≤ -((2 ^ 2097 : ℕ) : ℤ) := by
        have e : (A.natAbs : ℤ) = -A := by
          rw [Int.natCast_natAbs]; exact abs_of_neg hneg
        have : 2 ^ 2097 ≤ A.natAbs := by
          have e2 : (2 : ℕ) ^ 2098 = 2 * 2 ^ 2097 := by norm_num
          omega
        have : ((2 ^ 2097 : ℕ) : ℤ) ≤ (A.natAbs : ℤ) := by exact_mod_cast this
        linarith
      have hx : rnd (-((2 ^ 2097 : ℕ) : ℤ) * ((2 * 2 ^ 1074 : ℕ) : ℤ)) (2 * 2 ^ 1074) =
          -((2 ^ 2097 : ℕ) : ℤ) :=
        rnd_exact (by rw [Int.natAbs_neg, Int.natAbs_ofNat]; exact onGrid_pow (by norm_num))
          (by rw [Int.natAbs_neg, Int.natAbs_ofNat]; norm_num) hd
      have hm : rnd (-((2 ^ 2097 : ℕ) : ℤ) * ((2 * 2 ^ 1074 : ℕ) : ℤ)) (2 * 2 ^ 1074) ≤
          rnd (rnd (B + A) 1 * ((2 ^ 1074 : ℕ) : ℤ)) (2 * 2 ^ 1074) := by
        apply rnd_mono hd hd _ _ hsb
        · have hlow : -((2 ^ 2098 : ℕ) : ℤ) ≤ rnd (B + A) 1 := (abs_le.1 hsabs).1
          have e2 : ((2 ^ 2098 : ℕ) : ℤ) = 2 * ((2 ^ 2097 : ℕ) : ℤ) := by norm_num
          have e1 : ((2 * 2 ^ 1074 : ℕ) : ℤ) = 2 * ((2 ^ 1074 : ℕ) : ℤ) := by push_cast
          rw [e1]
          have : -((2 ^ 2097 : ℕ) : ℤ) * (2 * ((2 ^ 1074 : ℕ) : ℤ)) ≤
              rnd (B + A) 1 * ((2 ^ 1074 : ℕ) : ℤ) := by
            have := mul_le_mul_of_nonneg_right hlow hc.le
            rw [e2] at this
            linarith
          exact mul_le_mul_of_nonneg_right this (by positivity)
        · rw [Int.natAbs_mul, Int.natAbs_neg, Int.natAbs_ofNat, Int.natAbs_ofNat]
          norm_num
      rw [hx] at hm
      linarith

theorem isNumber_of_isFinite {x : Dbl} (h : x.isFinite) : x.isNumber = true := by
  cases x with
  | fin a m => rfl
  | inf a => exact h.elim
  | nan => exact h.elim

theorem le_iff_rank {x y : Dbl} (hx : x.isNumber = true) (hy : y.isNumber = true) :
    Dbl.le x y ↔ x.rank ≤ y.rank :=
  ⟨fun h => h.2.2, fun h => ⟨hx, hy, h⟩⟩

theorem lt_iff_rank {x y : Dbl} (hx : x.isNumber = true) (hy : y.isNumber = true) :
    Dbl.lt x y ↔ x.rank < y.rank :=
  ⟨fun h => h.2.2, fun h => ⟨hx, hy, h⟩⟩

theorem natAbs_rank_fin (a : Bool) (m : ℕ) : (Dbl.fin a m).rank.natAbs = m := by
  cases a <;> simp [Dbl.rank]

/-- The sum of two finite doubles is finite or an infinity. -/
theorem add_fin_cases (a b : Bool) (m n : ℕ) :
    (∃ c p, Dbl.add (Dbl.fin a m) (Dbl.fin b n) = Dbl.fin c p ∧ p < 2 ^ 2098) ∨
    (∃ c, Dbl.add (Dbl.fin a m) (Dbl.fin b n) = Dbl.inf c) := by
  have key : ∀ (c : Bool) (k : ℕ),
      (∃ c' p, Dbl.round c k 1 = Dbl.fin c' p ∧ p < 2 ^ 2098) ∨
      (∃ c', Dbl.round c k 1 = Dbl.inf c') := by
    intro c k
    rcases round_cases c k 1 with ⟨p, hp, hlt⟩ | hinf
    · exact Or.inl ⟨c, p, hp, hlt⟩
    · exact Or.inr ⟨c, hinf⟩
  simp only [Dbl.add]
  split
  · exact key _ _
  · split
    · exact key _ _
    · split
      · exact key _ _
      · exact Or.inl ⟨false, 0, rfl, Nat.pos_pow_of_pos _ (by norm_num)⟩

/-- Position of the half of a finite double. -/
theorem rank_half_fin (c : Bool) (p : ℕ) :
    (Dbl.div (Dbl.fin c p) Dbl.two).rank =
      rnd ((Dbl.fin c p).rank * ((2 ^ 1074 : ℕ) : ℤ)) (2 * 2 ^ 1074) := by
  have h2ne : ¬ (2 * 2 ^ 1074 = 0) := by positivity
  have hc : (0 : ℤ) < ((2 ^ 1074 : ℕ) : ℤ) := by positivity
  simp only [Dbl.div, Dbl.two, if_neg h2ne, Bool.xor_false]
  apply rank_round_of (by positivity)
  · rw [Int.natAbs_mul, natAbs_rank_fin, Int.natAbs_ofNat]
  · intro h
    have : (Dbl.fin c p).rank < 0 := by
      by_contra hn
      rw [not_lt] at hn
      have := mul_nonneg hn hc.le
      linarith
    cases c
    · simp [Dbl.rank] at this; omega
    · rfl
  · intro h
    have : 0 < (Dbl.fin c p).rank := by
      by_contra hn
      rw [not_lt] at hn
      have := mul_nonpos_of_nonpos_of_nonneg hn hc.le
      linarith
    cases c
    · rfl
    · simp [Dbl.rank] at this; omega

theorem half_fin_isNumber (c : Bool) (p : ℕ) : (Dbl.div (Dbl.fin c p) Dbl.two).isNumber = true := by
  have h2ne : ¬ (2 * 2 ^ 1074 = 0) := by positivity
  simp only [Dbl.div, Dbl.two, if_neg h2ne]
  exact round_isNumber _ _ _

theorem half_inf (c : Bool) : Dbl.div (Dbl.inf c) Dbl.two = Dbl.inf c := by
  simp [Dbl.div, Dbl.two]

theorem rank_lt_of_isDoubleMag (a : Bool) {m : ℕ} (h : isDoubleMag m) :
    |(Dbl.fin a m).rank| < ((2 ^ 2098 : ℕ) : ℤ) := by
  have : |(Dbl.fin a m).rank| = (m : ℤ) := by
    rw [← Int.natCast_natAbs, natAbs_rank_fin]
  rw [this]
  exact_mod_cast h.1

/-- The half, in doubles, of the sum of two finite doubles `lo ≤ hi` is a
number that lies between them, unless the sum overflows to an infinity. -/
theorem half_sum_between {a b : Bool} {m n : ℕ} (hm : isDoubleMag m) (hn : isDoubleMag n)
    (hle : (Dbl.fin a m).rank ≤ (Dbl.fin b n).rank) :
    (Dbl.div (Dbl.add (Dbl.fin b n) (Dbl.fin a m)) Dbl.two).isNumber = true ∧
    (Dbl.div (Dbl.add (Dbl.fin b n) (Dbl.fin a m)) Dbl.two ≠ Dbl.inf true →
      (Dbl.fin a m).rank ≤ (Dbl.div (Dbl.add (Dbl.fin b n) (Dbl.fin a m)) Dbl.two).rank) ∧
    (Dbl.div (Dbl.add (Dbl.fin b n) (Dbl.fin a m)) Dbl.two ≠ Dbl.inf false →
      (Dbl.div (Dbl.add (Dbl.fin b n) (Dbl.fin a m)) Dbl.two).rank ≤ (Dbl.fin b n).rank) := by
  have hrS := rank_add_fin b a n m
  have hA := abs_lt.1 (rank_lt_of_isDoubleMag a hm)
  have hB := abs_lt.1 (rank_lt_of_isDoubleMag b hn)
  rcases add_fin_cases b a n m with ⟨c, p, hS, hp⟩ | ⟨c, hS⟩
  · rw [hS] at hrS ⊢
    refine ⟨half_fin_isNumber c p, fun _ => ?_, fun _ => ?_⟩
    · rw [rank_half_fin, hrS]
      apply le_half_sum
      · rw [natAbs_rank_fin]; exact hm.2
      · rw [natAbs_rank_fin]; exact hm.1
      · rw [natAbs_rank_fin]; exact hn.1
      · exact hle
      · rw [← hrS]
        have : |(Dbl.fin c p).rank| = (p : ℤ) := by
          rw [← Int.natCast_natAbs, natAbs_rank_fin]
        have h2 : (p : ℤ) < ((2 ^ 2098 : ℕ) : ℤ) := by exact_mod_cast hp
        have := le_abs_self (Dbl.fin c p).rank
        linarith
    · rw [rank_half_fin, hrS]
      have hneg : rnd (-(Dbl.fin a m).rank + -(Dbl.fin b n).rank) 1 =
          -rnd ((Dbl.fin b n).rank + (Dbl.fin a m).rank) 1 := by
        rw [← rnd_neg]; congr 1; ring
      have key := le_half_sum (A := -(Dbl.fin b n).rank) (B := -(Dbl.fin a m).rank)
        (by rw [Int.natAbs_neg, natAbs_rank_fin]; exact hn.2)
        (by rw [Int.natAbs_neg, natAbs_rank_fin]; exact hn.1)
        (by rw [Int.natAbs_neg, natAbs_rank_fin]; exact hm.1)
        (by linarith)
        (by
          rw [hneg, ← hrS]
          have : |(Dbl.fin c p).rank| = (p : ℤ) := by
            rw [← Int.natCast_natAbs, natAbs_rank_fin]
          have h2 : (p : ℤ) < ((2 ^ 2098 : ℕ) : ℤ) := by exact_mod_cast hp
          have := neg_abs_le (Dbl.fin c p).rank
          linarith)
      rw [hneg, neg_mul, rnd_neg] at key
      linarith
  · rw [hS, half_inf]
    refine ⟨rfl, fun hne => ?_, fun hne => ?_⟩
    · cases c
      · have e : (Dbl.inf false).rank = ((2 ^ 2098 : ℕ) : ℤ) := rfl
        rw [e]; exact le_of_lt hA.2
      · exact absurd rfl hne
    · cases c
      · exact absurd rfl hne
      · have e : (Dbl.inf true).rank = -((2 ^ 2098 : ℕ) : ℤ) := rfl
        rw [e]; exact le_of_lt hB.1

/-! ## Order statistics of the median in doubles -/

theorem isFinite_cases {x : Dbl} (h : x.isFinite) : ∃ a m, x = Dbl.fin a m ∧ isDoubleMag m := by
  cases x with
  | fin a m => exact ⟨a, m, rfl, h⟩
  | inf a => exact h.elim
  | nan => exact h.elim

/-- The closed-form median in doubles of finite values arranged by position
is a number between the two central values, unless the sum of line 98
overflows. -/
theorem closedMedian_betweenD {s : List Dbl} (hs : s.Sorted Dbl.rankLe)
    (hfin : ∀ x ∈ s, x.isFinite) {K : ℕ} (hK : 1 ≤ K) (hl : s.length = K) :
    (closedMedianD s K).isNumber = true ∧
    (closedMedianD s K ≠ Dbl.inf true →
      (s.getD ((K - 1) / 2) Dbl.nan).rank ≤ (closedMedianD s K).rank) ∧
    (closedMedianD s K ≠ Dbl.inf false →
      (closedMedianD s K).rank ≤ (s.getD (K / 2) Dbl.nan).rank) := by
  unfold closedMedianD
  split
  · next ho =>
    have e : (K - 1) / 2 = K / 2 := by omega
    rw [e]
    exact ⟨isNumber_of_isFinite (hfin _ (getD_memD (by omega))), fun _ => le_refl _,
      fun _ => le_refl _⟩
  · next he =>
    have e : (K - 1) / 2 = K / 2 - 1 := by omega
    rw [e]
    have hle := sorted_getD_leD hs (by omega : K / 2 - 1 ≤ K / 2) (by omega)
    obtain ⟨a, m, e1, hm⟩ := isFinite_cases (hfin _ (getD_memD (by omega : K / 2 - 1 < s.length)))
    obtain ⟨b, n, e2, hn⟩ := isFinite_cases (hfin _ (getD_memD (by omega : K / 2 < s.length)))
    rw [e1, e2] at hle ⊢
    exact half_sum_between hm hn hle

/-- Order statistics of the median in doubles of a non-empty window of
finite values. -/
theorem winMedian_orderD {w : List Dbl} (hw : 1 ≤ w.length) (hfin : ∀ x ∈ w, x.isFinite) :
    ∃ lo hi, lo ∈ w ∧ hi ∈ w ∧ (∀ x ∈ w, Dbl.le lo x) ∧ (∀ x ∈ w, Dbl.le x hi) ∧
      (winMedianD w).isNumber = true ∧
      (winMedianD w ≠ Dbl.inf true → Dbl.le lo (winMedianD w) ∧
        (w.length + 1) / 2 ≤ w.countP (fun x => decide (Dbl.le x (winMedianD w)))) ∧
      (winMedianD w ≠ Dbl.inf false → Dbl.le (winMedianD w) hi ∧
        (w.length + 1) / 2 ≤ w.countP (fun x => decide (Dbl.le (winMedianD w) x))) ∧
      (w.length % 2 = 1 → winMedianD w ∈ w) := by
  have hnum : ∀ x ∈ w, x.isNumber = true := fun x hx => isNumber_of_isFinite (hfin x hx)
  have hs := sortD_sorted hnum
  have hl := sortD_length w
  have hp := sortD_perm w
  have hfs : ∀ x ∈ sortD w, x.isFinite := fun x hx => hfin x (mem_sortD.1 hx)
  obtain ⟨hb0, hb1, hb2⟩ := closedMedian_betweenD hs hfs hw hl
  rw [← winMedianD] at hb0 hb1 hb2
  have hlast : w.length - 1 < (sortD w).length := by omega
  have hlo : (sortD w).getD 0 Dbl.nan ∈ w := mem_sortD.1 (getD_memD (by omega))
  have hhi : (sortD w).getD (w.length - 1) Dbl.nan ∈ w := mem_sortD.1 (getD_memD hlast)
  refine ⟨(sortD w).getD 0 Dbl.nan, (sortD w).getD (w.length - 1) Dbl.nan, hlo, hhi,
    ?_, ?_, hb0, ?_, ?_, ?_⟩
  · intro x hx
    obtain ⟨i, hi, rfl⟩ := mem_getD_D (mem_sortD.2 hx)
    exact ⟨hnum _ hlo, hnum _ hx, sorted_getD_leD hs (Nat.zero_le i) hi⟩
  · intro x hx
    obtain ⟨i, hi, rfl⟩ := mem_getD_D (mem_sortD.2 hx)
    exact ⟨hnum _ hx, hnum _ hhi, sorted_getD_leD hs (by omega) hlast⟩
  · intro hne
    have h1 := hb1 hne
    refine ⟨⟨hnum _ hlo, hb0, (sorted_getD_leD hs (Nat.zero_le _) (by omega)).trans h1⟩, ?_⟩
    have hc := count_le_of_sortedD hs (by omega : (w.length - 1) / 2 < (sortD w).length) h1
    rw [hp.countP_eq] at hc
    have e : (w.length + 1) / 2 = (w.length - 1) / 2 + 1 := by omega
    rw [e]
    refine le_trans hc (le_of_eq ?_)
    apply List.countP_congr
    intro x hx
    simp only [decide_eq_true_eq]
    exact (le_iff_rank (hnum x hx) hb0).symm
  · intro hne
    have h2 := hb2 hne
    refine ⟨⟨hb0, hnum _ hhi, h2.trans (sorted_getD_leD hs (by omega) hlast)⟩, ?_⟩
    have hc := count_ge_of_sortedD hs (by omega : w.length / 2 < (sortD w).length) h2
    rw [hp.countP_eq, hl] at hc
    have e : (w.length + 1) / 2 = w.length - w.length / 2 := by omega
    rw [e]
    refine le_trans hc (le_of_eq ?_)
    apply List.countP_congr
    intro x hx
    simp only [decide_eq_true_eq]
    exact (le_iff_rank hb0 (hnum x hx)).symm
  · intro ho
    have hm : winMedianD w = (sortD w).getD (w.length / 2) Dbl.nan := by
      simp only [winMedianD, closedMedianD, ho, if_true]
    rw [hm]
    exact mem_sortD.1 (getD_memD (by omega))

theorem observedD_sublist {xs ys : List (Option Dbl)} (h : xs.Sublist ys) :
    (observedD xs).Sublist (observedD ys) := by
  unfold observedD List.reduceOption
  exact h.filterMap id

/-- Every window value is a non-missing observation of the input. -/
theorem mem_observed_of_mem_windowD {K : ℕ} {xs : List (Option Dbl)} {j : ℕ} {x : Dbl}
    (h : x ∈ windowAtD K xs j) : x ∈ observedD xs := by
  unfold windowAtD lastKD seenUpToD at h
  exact (observedD_sublist (List.take_sublist _ _)).subset (List.mem_of_mem_drop h)

/-! ## Numbers in range and differences -/

theorem abs_inRange {x : Dbl} (h : x.inRange) : (Dbl.abs x).inRange := by
  cases x with
  | fin a m => exact h
  | inf a => trivial
  | nan => exact h.elim

theorem rank_abs_lt_of_fin {a : Bool} {m : ℕ} (h : (Dbl.fin a m).inRange) :
    |(Dbl.fin a m).rank| < ((2 ^ 2098 : ℕ) : ℤ) := by
  have e : |(Dbl.fin a m).rank| = (m : ℤ) := by
    rw [← Int.natCast_natAbs, natAbs_rank_fin]
  rw [e]
  have : m < 2 ^ 2098 := h
  exact_mod_cast this

/-- Position of the difference of two finite doubles. -/
theorem rank_sub_fin (a b : Bool) (m n : ℕ) :
    (Dbl.sub (Dbl.fin a m) (Dbl.fin b n)).rank =
      rnd ((Dbl.fin a m).rank - (Dbl.fin b n).rank) 1 := by
  have e : Dbl.sub (Dbl.fin a m) (Dbl.fin b n) = Dbl.add (Dbl.fin a m) (Dbl.fin (!b) n) := rfl
  rw [e, rank_add_fin]
  have e2 : (Dbl.fin (!b) n).rank = -(Dbl.fin b n).rank := rank_neg (Dbl.fin b n)
  rw [e2, sub_eq_add_neg]

theorem natAbs_sub_lt {x y : ℤ} (hx : |x| < ((2 ^ 2098 : ℕ) : ℤ)) (hy : |y| < ((2 ^ 2098 : ℕ) : ℤ)) :
    (x - y).natAbs < 2 ^ 8192 * 1 := by
  have h1 := abs_sub x y
  have h2 : ((x - y).natAbs : ℤ) < ((2 ^ 2098 : ℕ) : ℤ) + ((2 ^ 2098 : ℕ) : ℤ) := by
    rw [Int.natCast_natAbs]; linarith
  have h3 : (x - y).natAbs < 2 ^ 2098 + 2 ^ 2098 := by exact_mod_cast h2
  have h8 : (2 : ℕ) ^ 2098 + 2 ^ 2098 < 2 ^ 8192 * 1 := by norm_num
  omega

/-- The rounded difference is monotone in the exact difference. -/
theorem rank_sub_mono {a b a' b' : Bool} {m n m' n' : ℕ}
    (h1 : (Dbl.fin a m).inRange) (h2 : (Dbl.fin b n).inRange)
    (h1' : (Dbl.fin a' m').inRange) (h2' : (Dbl.fin b' n').inRange)
    (h : (Dbl.fin a m).rank - (Dbl.fin b n).rank ≤ (Dbl.fin a' m').rank - (Dbl.fin b' n').rank) :
    (Dbl.sub (Dbl.fin a m) (Dbl.fin b n)).rank ≤ (Dbl.sub (Dbl.fin a' m') (Dbl.fin b' n')).rank := by
  rw [rank_sub_fin, rank_sub_fin]
  apply rnd_mono Nat.one_pos Nat.one_pos
  · simpa using h
  · exact natAbs_sub_lt (rank_abs_lt_of_fin h1) (rank_abs_lt_of_fin h2)
  · exact natAbs_sub_lt (rank_abs_lt_of_fin h1') (rank_abs_lt_of_fin h2')

/-! ## A window whose newest value is the outlier -/

set_option exponentiation.threshold 10000


/-- C1: with `setsize` 5 and `cconst` 1.4826 the input `[1,2,3,4,5,100]`
gives six rows numbered 1..6; rows 1-4 carry three NULLs, row 5 has median
3, mad 1.4826 and cutoff 2/1.4826, row 6 has median 4, mad 1.4826 and
cutoff 96/1.4826, whatever the two buffers of five cells held before. -/
theorem processPartition_example (ia sa : List ℚ) (hi : ia.length = 5) (hs : sa.length = 5) :
    processPartition ⟨ia, sa, 5⟩ ⟨some 5, some (14826 / 10000)⟩ (some 1)
        [some 2, some 3, some 4, some 5, some 100] =
      some [⟨1, none, none, none⟩, ⟨2, none, none, none⟩, ⟨3, none, none, none⟩,
        ⟨4, none, none, none⟩,
        ⟨5, some 3, some (14826 / 10000), some (FDiv.fin (2 / (14826 / 10000)))⟩,
        ⟨6, some 4, some (14826 / 10000), some (FDiv.fin (96 / (14826 / 10000)))⟩] := by
  rw [processPartition_eq _ _ _ _ ⟨(by decide : 1 ≤ 5), hi, hs⟩]
  exact congrArg some example_rows

theorem processPartition_example_witness :
    ([0, 0, 0, 0, 0] : List ℚ).length = 5 ∧ ([7, 7, 7, 7, 7] : List ℚ).length = 5 ∧
    processPartition ⟨[0, 0, 0, 0, 0], [7, 7, 7, 7, 7], 5⟩ ⟨some 5, some (14826 / 10000)⟩ (some 1)
        [some 2, some 3, some 4, some 5, some 100] =
      some [⟨1, none, none, none⟩, ⟨2, none, none, none⟩, ⟨3, none, none, none⟩,
        ⟨4, none, none, none⟩,
        ⟨5, some 3, some (14826 / 10000), some (FDiv.fin (2 / (14826 / 10000)))⟩,
        ⟨6, some 4, some (14826 / 10000), some (FDiv.fin (96 / (14826 / 10000)))⟩] :=
  ⟨rfl, rfl, processPartition_example _ _ rfl rfl⟩

/-- C2: on an instance with `setsize ≥ 1` every run returns one row per
observation, and the row of observation `j` has its three statistic columns
populated exactly when the observation is non-missing and at least
`setsize` non-missing observations have arrived up to and including it;
otherwise the three columns are NULL.  With fewer than `setsize`
non-missing observations in the whole input every row is NULL, and a row
whose scaled MAD is zero is a populated row. -/
theorem populated_iff_window_full (self : Inst) (params : ParamReader) (first : Option ℚ)
    (rest : List (Option ℚ)) (h : self.Ready) :
    ∃ rows, processPartition self params first rest = some rows ∧
      rows.length = (first :: rest).length ∧
      (∀ j x r, (first :: rest)[j]? = some x → rows[j]? = some r →
        (r.populated ↔
          x.isSome ∧ self.setsize ≤ (seenUpTo (first :: rest) j).length) ∧
        (¬ r.populated → r.allNull)) ∧
      ((observed (first :: rest)).length < self.setsize → ∀ r ∈ rows, r.allNull) ∧
      (∀ r ∈ rows, r.mad = some 0 → r.populated) := by
  have hrun := processPartition_eq self params first rest h
  refine ⟨_, hrun, refRows_length _ _ _ _ _, ?_, ?_, ?_⟩
  · intro j x r hx hr
    obtain ⟨x', hx', rfl⟩ := row_of_run h hrun hr
    rw [hx] at hx'
    cases hx'
    exact ⟨refRow_populated_iff _ _ _ _ _, refRow_allNull _ _ _ _ _⟩
  · intro hlt r hr
    obtain ⟨j, hj⟩ := List.mem_iff_getElem?.1 hr
    obtain ⟨x, _, rfl⟩ := row_of_run h hrun hj
    apply refRow_allNull
    rw [refRow_populated_iff]
    have := seenUpTo_length_le (first :: rest) j
    omega
  · intro r hr hz
    obtain ⟨j, hj⟩ := List.mem_iff_getElem?.1 hr
    obtain ⟨x, _, rfl⟩ := row_of_run h hrun hj
    by_contra hn
    have := (refRow_allNull _ _ _ _ _ hn).2.1
    rw [this] at hz
    cases hz

theorem populated_iff_window_full_witness :
    Inst.Ready ⟨[0, 0], [0, 0], 2⟩ ∧
    ∃ rows, processPartition ⟨[0, 0], [0, 0], 2⟩ ⟨none, none⟩ (some 1) [none, some 1] = some rows ∧
      rows.length = [some (1 : ℚ), none, some 1].length ∧
      (∀ j x r, [some (1 : ℚ), none, some 1][j]? = some x → rows[j]? = some r →
        (r.populated ↔
          x.isSome ∧ 2 ≤ (seenUpTo [some (1 : ℚ), none, some 1] j).length) ∧
        (¬ r.populated → r.allNull)) ∧
      ((observed [some (1 : ℚ), none, some 1]).length < 2 → ∀ r ∈ rows, r.allNull) ∧
      (∀ r ∈ rows, r.mad = some 0 → r.populated) :=
  ⟨⟨by decide, rfl, rfl⟩,
    populated_iff_window_full ⟨[0, 0], [0, 0], 2⟩ ⟨none, none⟩ (some 1) [none, some 1]
      ⟨by decide, rfl, rfl⟩⟩

/-- C3: whenever a row has populated statistics, the window at its position
holds exactly `setsize` values and the median column is the closed-form
median of any ascending arrangement `s` of them: `s[K/2]` for odd `K`,
`(s[K/2] + s[K/2-1]) / 2` for even `K`. -/
theorem median_closed_form (self : Inst) (params : ParamReader) (first : Option ℚ)
    (rest : List (Option ℚ)) (h : self.Ready) :
    ∃ rows, processPartition self params first rest = some rows ∧
      ∀ j r, rows[j]? = some r → r.populated →
        (windowAt self.setsize (first :: rest) j).length = self.setsize ∧
        ∀ s : List ℚ, s.Sorted (· ≤ ·) → s.Perm (windowAt self.setsize (first :: rest) j) →
          r.median = some (closedMedian s self.setsize) := by
  have hrun := processPartition_eq self params first rest h
  refine ⟨_, hrun, ?_⟩
  intro j r hr hp
  obtain ⟨v, _, hk, rfl⟩ := populated_row_of_run h hrun hr hp
  have hlen := windowAt_length hk
  refine ⟨hlen, ?_⟩
  intro s hs hperm
  rw [ascending_unique hs hperm]
  simp only [statRow, winMedian, hlen]

theorem median_closed_form_witness :
    Inst.Ready ⟨[0, 0], [0, 0], 2⟩ ∧
    ∃ rows, processPartition ⟨[0, 0], [0, 0], 2⟩ ⟨none, none⟩ (some 1) [none, some 4] = some rows ∧
      ∀ j r, rows[j]? = some r → r.populated →
        (windowAt 2 [some 1, none, some 4] j).length = 2 ∧
        ∀ s : List ℚ, s.Sorted (· ≤ ·) → s.Perm (windowAt 2 [some 1, none, some 4] j) →
          r.median = some (closedMedian s 2) :=
  ⟨⟨by decide, rfl, rfl⟩,
    median_closed_form ⟨[0, 0], [0, 0], 2⟩ ⟨none, none⟩ (some 1) [none, some 4]
      ⟨by decide, rfl, rfl⟩⟩

/-- C4 as stated fails in doubles: with `setsize = 2`, the default
consistency constant and the input `[0, 1.5 * 2^1023]` the second row has
median `0.75 * 2^1023` and both absolute deviations equal to it; the
code's product `cconst * (hi + lo)` overflows, so the mad column is `+inf`,
whereas the constant times the median of the deviations is the finite
double `5007777605654623 * 2^971`. -/
theorem mad_closed_form_counterexample :
    processPartitionD ⟨[Dbl.nan, Dbl.nan], [Dbl.nan, Dbl.nan], 2⟩ none
        (some (Dbl.ofInt 0 0)) [some (Dbl.ofInt 3 1022)] =
      some [⟨1, none, none, none⟩,
        ⟨2, some (Dbl.ofInt 3 1021), some (Dbl.inf false), some (Dbl.ofInt 0 0)⟩] ∧
    (absDevsD (Dbl.ofInt 3 1021) [Dbl.ofInt 0 0, Dbl.ofInt 3 1022]).insertionSort Dbl.before =
      [Dbl.ofInt 3 1021, Dbl.ofInt 3 1021] ∧
    Dbl.mul defaultCconstD (closedMedianD [Dbl.ofInt 3 1021, Dbl.ofInt 3 1021] 2) =
      Dbl.ofInt 5007777605654623 971 ∧
    Dbl.ofInt 5007777605654623 971 ≠ Dbl.inf false := by
  decide

/-- In exact rational arithmetic C4 holds as it is stated: whenever a row
has populated statistics with median `m`, and `d` is any ascending
arrangement of the absolute deviations `|x - m|` of all the window values,
the mad column is what the code computes from `d` in the order of lines
105-108:
`C * d[K/2]` for odd `K` and `C * (d[K/2] + d[K/2-1]) / 2`, the product
first and the halving after it, for even `K`; with exact arithmetic this is
`C` times the closed-form median of `d`. -/
theorem mad_closed_form_exact (self : Inst) (params : ParamReader) (first : Option ℚ)
    (rest : List (Option ℚ)) (h : self.Ready) :
    ∃ rows, processPartition self params first rest = some rows ∧
      ∀ j r, rows[j]? = some r → r.populated →
        ∃ m, r.median = some m ∧
          ∀ d : List ℚ, d.Sorted (· ≤ ·) →
            d.Perm (absDevs m (windowAt self.setsize (first :: rest) j)) →
            r.mad = some (if self.setsize % 2 = 1 then
                cconstOf params * d.getD (self.setsize / 2) 0
              else cconstOf params *
                (d.getD (self.setsize / 2) 0 + d.getD (self.setsize / 2 - 1) 0) / 2) ∧
            r.mad = some (cconstOf params * closedMedian d self.setsize) := by
  have hrun := processPartition_eq self params first rest h
  refine ⟨_, hrun, ?_⟩
  intro j r hr hp
  obtain ⟨v, _, hk, rfl⟩ := populated_row_of_run h hrun hr hp
  have hlen := windowAt_length hk
  refine ⟨_, rfl, ?_⟩
  intro d hd hperm
  rw [ascending_unique hd hperm]
  have hmad : (statRow (cconstOf params) (j + 1) (windowAt self.setsize (first :: rest) j) v).mad =
      some (cconstOf params * closedMedian (ascending (absDevs
        (winMedian (windowAt self.setsize (first :: rest) j))
        (windowAt self.setsize (first :: rest) j))) self.setsize) := by
    simp only [statRow, winMad, hlen]
  refine ⟨?_, hmad⟩
  rw [hmad, closedMedian]
  split
  · rfl
  · rw [mul_div_assoc]

/-- C4, amended: on the double-precision embedding, whenever a row has
populated statistics with median `m`, and `d` is the ascending arrangement
of the absolute deviations `|x - m|` of the `K = setsize` window values,
the mad column is `C * d[K/2]` for odd `K` and `(C * (d[K/2] + d[K/2-1])) / 2`
for even `K`, every operation rounded to a double and the product taken
before the halving; for odd `K` this is `C` times the median of `d`. -/
theorem mad_closed_form (self : InstD) (cconst : Option Dbl) (first : Option Dbl)
    (rest : List (Option Dbl)) (h : self.Ready) :
    ∃ rows, processPartitionD self cconst first rest = some rows ∧
      ∀ j r, rows[j]? = some r → r.populated →
        ∃ m, r.median = some m ∧
          r.mad = some (if self.setsize % 2 = 1 then
              Dbl.mul (cconstOfD cconst)
                ((sortD (absDevsD m (sortD (windowAtD self.setsize (first :: rest) j)))).getD
                  (self.setsize / 2) Dbl.nan)
            else Dbl.div (Dbl.mul (cconstOfD cconst) (Dbl.add
                ((sortD (absDevsD m (sortD (windowAtD self.setsize (first :: rest) j)))).getD
                  (self.setsize / 2) Dbl.nan)
                ((sortD (absDevsD m (sortD (windowAtD self.setsize (first :: rest) j)))).getD
                  (self.setsize / 2 - 1) Dbl.nan))) Dbl.two) ∧
          (self.setsize % 2 = 1 → r.mad = some (Dbl.mul (cconstOfD cconst) (closedMedianD
            (sortD (absDevsD m (sortD (windowAtD self.setsize (first :: rest) j))))
            self.setsize))) := by
  have hrun := processPartition_eqD self cconst first rest h
  refine ⟨_, hrun, ?_⟩
  intro j r hr hp
  obtain ⟨v, _, hk, rfl⟩ := populated_row_of_runD h hrun hr hp
  have hlen := windowAt_lengthD hk
  refine ⟨_, rfl, ?_, ?_⟩
  · simp only [statRowD, winMadD, madOfD, winDevsD, hlen]
  · intro hodd
    simp only [statRowD, winMadD, madOfD, winDevsD, closedMedianD, hlen, if_pos hodd]

theorem mad_closed_form_witness :
    InstD.Ready ⟨[Dbl.nan, Dbl.nan], [Dbl.nan, Dbl.nan], 2⟩ ∧
    ∃ rows, processPartitionD ⟨[Dbl.nan, Dbl.nan], [Dbl.nan, Dbl.nan], 2⟩ none
        (some (Dbl.ofInt 0 0)) [none, some (Dbl.ofInt 3 1022)] = some rows ∧
      ∀ j r, rows[j]? = some r → r.populated →
        ∃ m, r.median = some m ∧
          r.mad = some (if 2 % 2 = 1 then
              Dbl.mul (cconstOfD none)
                ((sortD (absDevsD m (sortD (windowAtD 2
                  [some (Dbl.ofInt 0 0), none, some (Dbl.ofInt 3 1022)] j)))).getD
                  (2 / 2) Dbl.nan)
            else Dbl.div (Dbl.mul (cconstOfD none) (Dbl.add
                ((sortD (absDevsD m (sortD (windowAtD 2
                  [some (Dbl.ofInt 0 0), none, some (Dbl.ofInt 3 1022)] j)))).getD
                  (2 / 2) Dbl.nan)
                ((sortD (absDevsD m (sortD (windowAtD 2
                  [some (Dbl.ofInt 0 0), none, some (Dbl.ofInt 3 1022)] j)))).getD
                  (2 / 2 - 1) Dbl.nan))) Dbl.two) ∧
          (2 % 2 = 1 → r.mad = some (Dbl.mul (cconstOfD none) (closedMedianD
            (sortD (absDevsD m (sortD (windowAtD 2
              [some (Dbl.ofInt 0 0), none, some (Dbl.ofInt 3 1022)] j))))
            2))) :=
  ⟨⟨by decide, rfl, rfl⟩,
    mad_closed_form ⟨[Dbl.nan, Dbl.nan], [Dbl.nan, Dbl.nan], 2⟩ none
      (some (Dbl.ofInt 0 0)) [none, some (Dbl.ofInt 3 1022)] ⟨by decide, rfl, rfl⟩⟩

/-- C5: a row with populated statistics belongs to a non-missing
observation `v`, the newest value of the window, and its cutoff column is
the floating-point quotient of `|v - median|` by `mad` for the median and
mad of the same row: the finite quotient when `mad` is not zero, and with
no guard an infinity or NaN when it is. -/
theorem cutoff_is_quotient (self : Inst) (params : ParamReader) (first : Option ℚ)
    (rest : List (Option ℚ)) (h : self.Ready) :
    ∃ rows, processPartition self params first rest = some rows ∧
      ∀ j r, rows[j]? = some r → r.populated →
        ∃ v m d, (first :: rest)[j]? = some (some v) ∧
          (windowAt self.setsize (first :: rest) j).getLast? = some v ∧
          r.median = some m ∧ r.mad = some d ∧
          r.cutoff = some (fdiv |v - m| d) ∧
          (d ≠ 0 → r.cutoff = some (FDiv.fin (|v - m| / d))) ∧
          (d = 0 → r.cutoff = some (if |v - m| = 0 then FDiv.nan else FDiv.inf)) := by
  have hrun := processPartition_eq self params first rest h
  refine ⟨_, hrun, ?_⟩
  intro j r hr hp
  obtain ⟨v, hx, hk, rfl⟩ := populated_row_of_run h hrun hr hp
  refine ⟨v, _, _, hx, windowAt_getLast h.pos hx, rfl, rfl, rfl, ?_, ?_⟩
  · intro hd; simp only [statRow, fdiv, if_neg hd]
  · intro hd; simp only [statRow, fdiv, if_pos hd]

theorem cutoff_is_quotient_witness :
    Inst.Ready ⟨[0, 0], [0, 0], 2⟩ ∧
    ∃ rows, processPartition ⟨[0, 0], [0, 0], 2⟩ ⟨none, none⟩ (some 1) [none, some 4] = some rows ∧
      ∀ j r, rows[j]? = some r → r.populated →
        ∃ v m d, [some (1 : ℚ), none, some 4][j]? = some (some v) ∧
          (windowAt 2 [some 1, none, some 4] j).getLast? = some v ∧
          r.median = some m ∧ r.mad = some d ∧
          r.cutoff = some (fdiv |v - m| d) ∧
          (d ≠ 0 → r.cutoff = some (FDiv.fin (|v - m| / d))) ∧
          (d = 0 → r.cutoff = some (if |v - m| = 0 then FDiv.nan else FDiv.inf)) :=
  ⟨⟨by decide, rfl, rfl⟩,
    cutoff_is_quotient ⟨[0, 0], [0, 0], 2⟩ ⟨none, none⟩ (some 1) [none, some 4]
      ⟨by decide, rfl, rfl⟩⟩


/-- C6: the body on a missing observation writes a row with three NULLs
under the current row number and leaves both buffers and the index `i` as
they were; in a run, the statistic triples of the rows of the non-missing
observations are those of the run on the input with the missing
observations removed (when every observation is missing there is no such
row and nothing to run). -/
theorem null_skipping (self : Inst) (params : ParamReader) (first : Option ℚ)
    (rest : List (Option ℚ)) (h : self.Ready) :
    (∀ st : Loop, ∃ st' r, body self.setsize (cconstOf params) st none = some (st', r) ∧
      r.allNull ∧ r.rownum = st.rn ∧
      st'.iarray = st.iarray ∧ st'.sarray = st.sarray ∧ st'.i = st.i ∧ st'.rn = st.rn + 1) ∧
    ∃ rows, processPartition self params first rest = some rows ∧
      (∀ (j : ℕ) (r : Row), (first :: rest)[j]? = some none → rows[j]? = some r → r.allNull) ∧
      (∀ y ys, (first :: rest).filter Option.isSome = y :: ys →
        ∃ rows', processPartition self params y ys = some rows' ∧
          (((first :: rest).zip rows).filter (fun p => p.1.isSome)).map (fun p => p.2.stats) =
            rows'.map Row.stats) ∧
      ((first :: rest).filter Option.isSome = [] →
        (((first :: rest).zip rows).filter (fun p => p.1.isSome)).map (fun p => p.2.stats) =
          []) := by
  have hrun := processPartition_eq self params first rest h
  refine ⟨fun st => ⟨_, _, body_null _ _ st, ⟨rfl, rfl, rfl⟩, rfl, rfl, rfl, rfl, rfl⟩,
    _, hrun, ?_, ?_, ?_⟩
  · intro j r hx hr
    obtain ⟨x, hx', rfl⟩ := row_of_run h hrun hr
    rw [hx] at hx'
    cases hx'
    exact ⟨rfl, rfl, rfl⟩
  · intro y ys hy
    refine ⟨_, processPartition_eq self params y ys h, ?_⟩
    rw [← hy]
    exact refRows_filter _ _ _ _ _ _
  · intro hy
    rw [refRows_filter _ _ _ 1 1 [], hy]
    rfl

theorem null_skipping_witness :
    Inst.Ready ⟨[0, 0], [0, 0], 2⟩ ∧
    (∀ st : Loop, ∃ st' r, body 2 (cconstOf ⟨none, none⟩) st none = some (st', r) ∧
      r.allNull ∧ r.rownum = st.rn ∧
      st'.iarray = st.iarray ∧ st'.sarray = st.sarray ∧ st'.i = st.i ∧ st'.rn = st.rn + 1) ∧
    ∃ rows,
      processPartition ⟨[0, 0], [0, 0], 2⟩ ⟨none, none⟩ (some 1) [none, some 4] = some rows ∧
      (∀ (j : ℕ) (r : Row), [some (1 : ℚ), none, some 4][j]? = some none → rows[j]? = some r →
        r.allNull) ∧
      (∀ y ys, [some (1 : ℚ), none, some 4].filter Option.isSome = y :: ys →
        ∃ rows', processPartition ⟨[0, 0], [0, 0], 2⟩ ⟨none, none⟩ y ys = some rows' ∧
          (([some (1 : ℚ), none, some 4].zip rows).filter (fun p => p.1.isSome)).map
            (fun p => p.2.stats) = rows'.map Row.stats) ∧
      ([some (1 : ℚ), none, some 4].filter Option.isSome = [] →
        (([some (1 : ℚ), none, some 4].zip rows).filter (fun p => p.1.isSome)).map
          (fun p => p.2.stats) = []) :=
  ⟨⟨by decide, rfl, rfl⟩,
    null_skipping ⟨[0, 0], [0, 0], 2⟩ ⟨none, none⟩ (some 1) [none, some 4]
      ⟨by decide, rfl, rfl⟩⟩

/-- C7: a run on `N` observations returns exactly `N` rows, and the row at
position `j` (counted from 0) carries the row number `j + 1`, whichever
branch wrote it. -/
theorem rownum_sequence (self : Inst) (params : ParamReader) (first : Option ℚ)
    (rest : List (Option ℚ)) (h : self.Ready) :
    ∃ rows, processPartition self params first rest = some rows ∧
      rows.length = (first :: rest).length ∧
      (∀ j r, rows[j]? = some r → r.rownum = j + 1) ∧
      rows.map Row.rownum = List.range' 1 (first :: rest).length := by
  have hrun := processPartition_eq self params first rest h
  have hnum : ∀ j r, (refRows self.setsize (cconstOf params) 1 [] (first :: rest))[j]? = some r →
      r.rownum = j + 1 := by
    intro j r hr
    obtain ⟨x, _, rfl⟩ := row_of_run h hrun hr
    exact refRow_rownum _ _ _ _ _
  refine ⟨_, hrun, refRows_length _ _ _ _ _, hnum, ?_⟩
  apply List.ext_getElem?
  intro j
  rw [List.getElem?_map]
  by_cases hj : j < (first :: rest).length
  · have hj' : j < (refRows self.setsize (cconstOf params) 1 [] (first :: rest)).length := by
      rw [refRows_length]; exact hj
    rw [List.getElem?_eq_getElem hj', List.getElem?_range' _ _ hj, Option.map_some',
      hnum j _ (List.getElem?_eq_getElem hj')]
    simp [Nat.add_comm]
  · have hj' : (refRows self.setsize (cconstOf params) 1 [] (first :: rest)).length ≤ j := by
      rw [refRows_length]; omega
    rw [List.getElem?_eq_none hj', List.getElem?_eq_none (by simp; simpa using hj)]
    rfl

theorem rownum_sequence_witness :
    Inst.Ready ⟨[0, 0], [0, 0], 2⟩ ∧
    ∃ rows, processPartition ⟨[0, 0], [0, 0], 2⟩ ⟨none, none⟩ (some 1) [none, some 4] = some rows ∧
      rows.length = [some (1 : ℚ), none, some 4].length ∧
      (∀ j r, rows[j]? = some r → r.rownum = j + 1) ∧
      rows.map Row.rownum = List.range' 1 [some (1 : ℚ), none, some 4].length :=
  ⟨⟨by decide, rfl, rfl⟩,
    rownum_sequence ⟨[0, 0], [0, 0], 2⟩ ⟨none, none⟩ (some 1) [none, some 4]
      ⟨by decide, rfl, rfl⟩⟩

/-- C8 at the supplied values 0, -1 and -2^61: for `setsize = 0` the error
is "Invalid setsize".  For `setsize = -1` the conversion to `size_t` gives
`2^64 - 1`, the test `setsize < 1` is false and "Invalid setsize" is not
reported, whatever the allocator answers; when the allocator refuses the
`2^64 - 8` bytes the error is the allocation error.  For `setsize = -2^61`
the byte count wraps to 0, and with an allocator that hands out an empty
block for it `setup` succeeds with a window size of `2^64 - 2^61`. -/
theorem setup_negative_setsize (cconst : Option ℚ) (ialloc salloc : ℕ → Option (List ℚ)) :
    setup ⟨some 0, cconst⟩ ialloc salloc = Except.error (100, "Invalid setsize") ∧
    setup ⟨some (-1), cconst⟩ ialloc salloc ≠ Except.error (100, "Invalid setsize") ∧
    setup ⟨some (-1), cconst⟩ (fun _ => none) salloc =
      Except.error (110, "Error allocating iarray memory") ∧
    setup ⟨some (-(2 ^ 61)), cconst⟩ (fun n => if n = 0 then some [] else none)
        (fun n => if n = 0 then some [] else none) =
      Except.ok ⟨[], [], 2 ^ 64 - 2 ^ 61⟩ := by
  have e : ((-1 : ℤ) % 2 ^ 64).toNat = 2 ^ 64 - 1 := by decide
  have e8 : (2 ^ 64 - 1) * sizeofVfloat % 2 ^ 64 = 2 ^ 64 - 8 := by decide
  have f : ((-(2 ^ 61) : ℤ) % 2 ^ 64).toNat = 2 ^ 64 - 2 ^ 61 := by decide
  have f8 : (2 ^ 64 - 2 ^ 61) * sizeofVfloat % 2 ^ 64 = 0 := by decide
  refine ⟨rfl, ?_, ?_, ?_⟩
  · intro hc
    simp only [setup, e] at hc
    rw [if_neg (by decide)] at hc
    simp only [pure_bind, bind, Except.bind, pure, Except.pure, e8] at hc
    cases hi : ialloc (2 ^ 64 - 8) with
    | none => rw [hi] at hc; simp only [throw, throwThe, MonadExceptOf.throw] at hc; cases hc
    | some b =>
      rw [hi] at hc
      cases hs : salloc (2 ^ 64 - 8) with
      | none => rw [hs] at hc; simp only [throw, throwThe, MonadExceptOf.throw] at hc; cases hc
      | some b' => rw [hs] at hc; cases hc
  · simp only [setup, e]
    rw [if_neg (by decide)]
    simp only [pure_bind, bind, Except.bind, pure, Except.pure, e8]
  · simp only [setup, f]
    rw [if_neg (by decide)]
    simp only [pure_bind, bind, Except.bind, pure, Except.pure, f8, if_true]

/-- C9 as stated fails in doubles: with `setsize = 2` and the window
`[2^1023, 2^1023]` of two equal values the sum of line 98 overflows, the
median column is `+inf` instead of `2^1023`, the mad column is `+inf`
instead of `0`, and the cutoff is NaN. -/
theorem degenerate_window_counterexample :
    processPartitionD ⟨[Dbl.nan, Dbl.nan], [Dbl.nan, Dbl.nan], 2⟩ none
        (some (Dbl.ofInt 1 1023)) [some (Dbl.ofInt 1 1023)] =
      some [⟨1, none, none, none⟩,
        ⟨2, some (Dbl.inf false), some (Dbl.inf false), some Dbl.nan⟩] ∧
    Dbl.inf false ≠ Dbl.ofInt 1 1023 ∧ Dbl.inf false ≠ Dbl.ofInt 0 0 := by
  decide

/-- In exact rational arithmetic C9 holds as it is stated: when the values
of the window of a populated row are all equal to `c`, the row reports
median `c` and scaled mad `0`, and the cutoff is the unguarded quotient of
zero by zero, NaN.  For `setsize = 1` this is the row of every non-missing
observation, with `c` the observation itself. -/
theorem degenerate_window_exact (self : Inst) (params : ParamReader) (first : Option ℚ)
    (rest : List (Option ℚ)) (c : ℚ) (h : self.Ready) :
    ∃ rows, processPartition self params first rest = some rows ∧
      (∀ j r, rows[j]? = some r → r.populated →
        (∀ x ∈ windowAt self.setsize (first :: rest) j, x = c) →
        r.median = some c ∧ r.mad = some 0 ∧ r.cutoff = some (fdiv 0 0) ∧
          r.cutoff = some FDiv.nan) ∧
      (self.setsize = 1 → ∀ (j : ℕ) (v : ℚ) (r : Row), (first :: rest)[j]? = some (some v) →
        rows[j]? = some r → r.median = some v ∧ r.mad = some 0 ∧ r.cutoff = some FDiv.nan) := by
  have hrun := processPartition_eq self params first rest h
  refine ⟨_, hrun, ?_, ?_⟩
  · intro j r hr hp hc
    obtain ⟨v, hx, hk, rfl⟩ := populated_row_of_run h hrun hr hp
    have hlen := windowAt_length hk
    rw [statRow_const hc (by rw [hlen]; exact h.pos)
      (mem_of_getLast (windowAt_getLast h.pos hx))]
    exact ⟨rfl, rfl, rfl, rfl⟩
  · intro h1 j v r hx hr
    obtain ⟨x, hx', rfl⟩ := row_of_run h hrun hr
    rw [hx] at hx'
    cases hx'
    have hs := seenUpTo_some hx
    have hk : self.setsize ≤ (seenUpTo (first :: rest) j).length := by
      rw [hs, h1]; simp
    have hlen := windowAt_length hk
    have hlast := windowAt_getLast h.pos hx
    have hall : ∀ y ∈ windowAt self.setsize (first :: rest) j, y = v := by
      intro y hy
      rw [h1] at hlen hlast
      match hw : windowAt 1 (first :: rest) j, hlen, hlast with
      | [a], _, hl =>
        rw [h1, hw] at hy
        simp at hl hy
        rw [hy, hl]
    simp only [refRow, hk, if_true]
    rw [← windowAt, statRow_const hall (by rw [hlen]; exact h.pos) (mem_of_getLast hlast)]
    exact ⟨rfl, rfl, rfl⟩

/-- C9, amended: on the double-precision embedding, when the values of the
window of a populated row are all equal to a finite double `c`, the
constant `C` is finite, and either `K = setsize` is odd or `|c| < 2^1023`
(so that `c + c` of line 98 does not overflow), the row reports median `c`
and a scaled mad that is a zero (with the sign of `C`), and the cutoff is
the unguarded quotient of zero by zero, NaN.  For `setsize = 1` this is the
row of every non-missing finite observation, with `c` the observation
itself. -/
theorem degenerate_window (self : InstD) (cconst : Option Dbl) (first : Option Dbl)
    (rest : List (Option Dbl)) (a b : Bool) (m n : ℕ) (h : self.Ready)
    (hC : cconstOfD cconst = Dbl.fin b n) (hm : isDoubleMag m)
    (hK : self.setsize % 2 = 1 ∨ 2 * m < 2 ^ 2098) :
    ∃ rows, processPartitionD self cconst first rest = some rows ∧
      (∀ j r, rows[j]? = some r → r.populated →
        (∀ x ∈ windowAtD self.setsize (first :: rest) j, x = Dbl.fin a m) →
        r.median = some (Dbl.fin a m) ∧ r.mad = some (Dbl.fin b 0) ∧
          r.cutoff = some (Dbl.div (Dbl.fin false 0) (Dbl.fin b 0)) ∧
          r.cutoff = some Dbl.nan) ∧
      (self.setsize = 1 → ∀ (j : ℕ) (r : RowD), (first :: rest)[j]? = some (some (Dbl.fin a m)) →
        rows[j]? = some r →
        r.median = some (Dbl.fin a m) ∧ r.mad = some (Dbl.fin b 0) ∧ r.cutoff = some Dbl.nan) := by
  have hrun := processPartition_eqD self cconst first rest h
  refine ⟨_, hrun, ?_, ?_⟩
  · intro j r hr hp hc
    obtain ⟨v, hx, hk, rfl⟩ := populated_row_of_runD h hrun hr hp
    have hlen := windowAt_lengthD hk
    rw [hC, statRow_constD hc (by rw [hlen]; exact h.pos)
      (List.mem_of_getLast?_eq_some (windowAt_getLastD h.pos hx)) hm (by rw [hlen]; exact hK)]
    exact ⟨rfl, rfl, by simp [Dbl.div], rfl⟩
  · intro h1 j r hx hr
    obtain ⟨x, hx', rfl⟩ := row_of_runD h hrun hr
    rw [hx] at hx'
    cases hx'
    have hs := seenUpTo_someD hx
    have hk : self.setsize ≤ (seenUpToD (first :: rest) j).length := by
      rw [hs, h1]; simp
    have hlen := windowAt_lengthD hk
    have hlast := windowAt_getLastD h.pos hx
    have hall : ∀ y ∈ windowAtD self.setsize (first :: rest) j, y = Dbl.fin a m := by
      intro y hy
      rw [h1] at hlen hlast
      match hw : windowAtD 1 (first :: rest) j, hlen, hlast with
      | [z], _, hl =>
        rw [h1, hw] at hy
        simp at hl hy
        rw [hy, hl]
    simp only [refRowD, hk, if_true]
    rw [← windowAtD, hC, statRow_constD hall (by rw [hlen]; exact h.pos)
      (List.mem_of_getLast?_eq_some hlast) hm (by rw [hlen]; exact hK)]
    exact ⟨rfl, rfl, rfl⟩

theorem degenerate_window_witness :
    InstD.Ready ⟨[Dbl.nan, Dbl.nan], [Dbl.nan, Dbl.nan], 2⟩ ∧
    cconstOfD none = Dbl.fin false (6677036807539497 * 2 ^ 1022) ∧
    isDoubleMag (2 ^ 1076) ∧
    ((2 : ℕ) % 2 = 1 ∨ 2 * 2 ^ 1076 < 2 ^ 2098) ∧
    ∃ rows, processPartitionD ⟨[Dbl.nan, Dbl.nan], [Dbl.nan, Dbl.nan], 2⟩ none
        (some (Dbl.ofInt 4 0)) [none, some (Dbl.ofInt 4 0)] = some rows ∧
      (∀ j r, rows[j]? = some r → r.populated →
        (∀ x ∈ windowAtD 2 [some (Dbl.ofInt 4 0), none, some (Dbl.ofInt 4 0)] j,
          x = Dbl.fin false (2 ^ 1076)) →
        r.median = some (Dbl.fin false (2 ^ 1076)) ∧ r.mad = some (Dbl.fin false 0) ∧
          r.cutoff = some (Dbl.div (Dbl.fin false 0) (Dbl.fin false 0)) ∧
          r.cutoff = some Dbl.nan) ∧
      ((2 : ℕ) = 1 → ∀ (j : ℕ) (r : RowD),
        [some (Dbl.ofInt 4 0), none, some (Dbl.ofInt 4 0)][j]? =
          some (some (Dbl.fin false (2 ^ 1076))) →
        rows[j]? = some r →
        r.median = some (Dbl.fin false (2 ^ 1076)) ∧ r.mad = some (Dbl.fin false 0) ∧
          r.cutoff = some Dbl.nan) :=
  ⟨⟨by decide, rfl, rfl⟩, by decide, by unfold isDoubleMag; decide, Or.inr (by decide),
    degenerate_window ⟨[Dbl.nan, Dbl.nan], [Dbl.nan, Dbl.nan], 2⟩ none
      (some (Dbl.ofInt 4 0)) [none, some (Dbl.ofInt 4 0)] false false (2 ^ 1076) (6677036807539497 * 2 ^ 1022)
      ⟨by decide, rfl, rfl⟩ (by decide) (by unfold isDoubleMag; decide) (Or.inr (by decide))⟩

/-- In exact rational arithmetic C10 holds as it is stated: for
`setsize ≥ 3` and a positive consistency constant, let the last
observation `v` of a run complete a full window in which it is strictly
greater than the other `setsize - 1` values and deviates strictly more from
the window median than each of them.  Replacing `v` by a greater `v'`
leaves the median and the scaled mad of the last row unchanged, and when
the scaled mad is not zero both cutoffs are finite and the cutoff
strictly increases. -/
theorem outlier_monotone_exact (self : Inst) (params : ParamReader) (first : Option ℚ)
    (rest : List (Option ℚ)) (v v' : ℚ) (h : self.Ready) (hK : 3 ≤ self.setsize)
    (hC : 0 < cconstOf params)
    (hfull : self.setsize ≤ (observed (first :: rest)).length + 1)
    (hmax : ∀ x ∈ lastK (self.setsize - 1) (observed (first :: rest)), x < v)
    (hdev : ∀ x ∈ lastK (self.setsize - 1) (observed (first :: rest)),
      |x - winMedian (lastK (self.setsize - 1) (observed (first :: rest)) ++ [v])| <
        |v - winMedian (lastK (self.setsize - 1) (observed (first :: rest)) ++ [v])|)
    (hv : v < v') :
    ∃ rows rows' r r', processPartition self params first (rest ++ [some v]) = some rows ∧
      processPartition self params first (rest ++ [some v']) = some rows' ∧
      rows.getLast? = some r ∧ rows'.getLast? = some r' ∧
      windowAt self.setsize (first :: (rest ++ [some v])) (rest.length + 1) =
        lastK (self.setsize - 1) (observed (first :: rest)) ++ [v] ∧
      windowAt self.setsize (first :: (rest ++ [some v'])) (rest.length + 1) =
        lastK (self.setsize - 1) (observed (first :: rest)) ++ [v'] ∧
      r.populated ∧ r'.populated ∧ r'.median = r.median ∧ r'.mad = r.mad ∧
      (r.mad ≠ some 0 →
        ∃ q q', r.cutoff = some (FDiv.fin q) ∧ r'.cutoff = some (FDiv.fin q') ∧ q < q') := by
  obtain ⟨rows, hrun, hlast⟩ := last_row_of_run self params first rest v h hfull
  obtain ⟨rows', hrun', hlast'⟩ := last_row_of_run self params first rest v' h hfull
  have hwin : ∀ u : ℚ, windowAt self.setsize (first :: (rest ++ [some u])) (rest.length + 1) =
      lastK (self.setsize - 1) (observed (first :: rest)) ++ [u] := by
    intro u
    have e : first :: (rest ++ [some u]) = (first :: rest) ++ [some u] := rfl
    have hobs : observed [some u] = [u] := rfl
    have ht : List.take (rest.length + 1 + 1) ((first :: rest) ++ [some u]) =
        (first :: rest) ++ [some u] := List.take_of_length_le (by simp)
    rw [windowAt, seenUpTo, e, ht, observed_append, hobs, lastK_snoc h.pos _ u hfull]
  refine ⟨rows, rows', _, _, hrun, hrun', hlast, hlast', hwin v, hwin v', ?_⟩
  generalize hw : lastK (self.setsize - 1) (observed (first :: rest)) = w at hmax hdev ⊢
  have hwl : w.length + 1 = self.setsize := by
    rw [← hw, lastK_length]; omega
  have hK' : 3 ≤ w.length + 1 := by omega
  have hm := winMedian_snoc hK' (fun x hx => (hmax x hx).le)
  rw [hm] at hdev
  generalize hmdef : closedMedian (ascending w) (w.length + 1) = m at hm hdev
  have hmv : m < v := by
    match w, hK', hmax, hdev with
    | x :: _, _, hmax, hdev =>
      have h1 := hmax x (List.mem_cons_self _ _)
      have h2 := hdev x (List.mem_cons_self _ _)
      by_contra hc
      rw [not_lt] at hc
      rw [abs_of_nonpos (by linarith), abs_of_nonpos (by linarith)] at h2
      linarith
  have hav : |v - m| = v - m := abs_of_pos (by linarith)
  have hav' : |v' - m| = v' - m := abs_of_pos (by linarith)
  have hs := outlier_stats (C := cconstOf params) hK' (fun x hx => (hmax x hx).le)
    (by rw [hmdef]; exact fun x hx => (hdev x hx).le)
  have hs' := outlier_stats (C := cconstOf params) (v := v') hK'
    (fun x hx => ((hmax x hx).trans hv).le)
    (by
      rw [hmdef]
      intro x hx
      have := hdev x hx
      rw [hav] at this
      rw [hav']
      linarith)
  rw [hmdef] at hs hs'
  obtain ⟨hs1, hs2⟩ := hs
  obtain ⟨hs1', hs2'⟩ := hs'
  refine ⟨⟨rfl, rfl, rfl⟩, ⟨rfl, rfl, rfl⟩, ?_, ?_, ?_⟩
  · simp only [statRow, hs1, hs1']
  · simp only [statRow, hs2, hs2']
  · intro hne
    have hd0 : winMad (cconstOf params) (w ++ [v]) ≠ 0 := by
      intro hz
      apply hne
      simp only [statRow, hz]
    have hdpos : 0 < winMad (cconstOf params) (w ++ [v]) :=
      lt_of_le_of_ne (winMad_nonneg hC.le _) (Ne.symm hd0)
    have hdeq : winMad (cconstOf params) (w ++ [v']) = winMad (cconstOf params) (w ++ [v]) := by
      rw [hs2, hs2']
    refine ⟨|v - winMedian (w ++ [v])| / winMad (cconstOf params) (w ++ [v]),
      |v' - winMedian (w ++ [v'])| / winMad (cconstOf params) (w ++ [v]), ?_, ?_, ?_⟩
    · simp only [statRow, fdiv, if_neg hd0]
    · simp only [statRow, fdiv, hdeq, if_neg hd0]
    · rw [hs1, hs1', hav, hav']
      exact div_lt_div_of_pos_right (by linarith) hdpos

/-- C11: the rows of a run are a function of the window size, the
consistency constant and the input alone (`refRows` does not mention the
buffers).  Two instances with the same `setsize` and parameters with the
same consistency constant return the same rows on the same input whatever
their buffers hold on entry, and so does the instance a previous run on any
other partition has left behind. -/
theorem run_deterministic (self self' : Inst) (params params' : ParamReader)
    (first : Option ℚ) (rest : List (Option ℚ)) (h : self.Ready) (h' : self'.Ready)
    (hK : self'.setsize = self.setsize) (hC : cconstOf params' = cconstOf params) :
    processPartition self params first rest =
      some (refRows self.setsize (cconstOf params) 1 [] (first :: rest)) ∧
    processPartition self' params' first rest = processPartition self params first rest ∧
    (∀ (p0 : ParamReader) (f0 : Option ℚ) (r0 : List (Option ℚ)),
      ∃ left, partitionEnd self p0 f0 r0 = some left ∧ left.Ready ∧
        left.setsize = self.setsize ∧
        processPartition left params first rest = processPartition self params first rest) := by
  have hrun := processPartition_eq self params first rest h
  refine ⟨hrun, ?_, ?_⟩
  · rw [hrun, processPartition_eq self' params' first rest h', hK, hC]
  · intro p0 f0 r0
    obtain ⟨left, hl, hready, hsz⟩ := partitionEnd_ready p0 f0 r0 h
    refine ⟨left, hl, hready, hsz, ?_⟩
    rw [hrun, processPartition_eq left params first rest hready, hsz]

theorem run_deterministic_witness :
    Inst.Ready ⟨[0, 0], [0, 0], 2⟩ ∧ Inst.Ready ⟨[5, 9], [3, 8], 2⟩ ∧
    (⟨[5, 9], [3, 8], 2⟩ : Inst).setsize = (⟨[0, 0], [0, 0], 2⟩ : Inst).setsize ∧
    cconstOf ⟨some 2, none⟩ = cconstOf ⟨none, none⟩ ∧
    processPartition ⟨[0, 0], [0, 0], 2⟩ ⟨none, none⟩ (some 1) [none, some 4] =
      some (refRows 2 (cconstOf ⟨none, none⟩) 1 [] [some 1, none, some 4]) ∧
    processPartition ⟨[5, 9], [3, 8], 2⟩ ⟨some 2, none⟩ (some 1) [none, some 4] =
      processPartition ⟨[0, 0], [0, 0], 2⟩ ⟨none, none⟩ (some 1) [none, some 4] ∧
    (∀ (p0 : ParamReader) (f0 : Option ℚ) (r0 : List (Option ℚ)),
      ∃ left, partitionEnd ⟨[0, 0], [0, 0], 2⟩ p0 f0 r0 = some left ∧ left.Ready ∧
        left.setsize = 2 ∧
        processPartition left ⟨none, none⟩ (some 1) [none, some 4] =
          processPartition ⟨[0, 0], [0, 0], 2⟩ ⟨none, none⟩ (some 1) [none, some 4]) :=
  ⟨⟨by decide, rfl, rfl⟩, ⟨by decide, rfl, rfl⟩, rfl, rfl,
    run_deterministic ⟨[0, 0], [0, 0], 2⟩ ⟨[5, 9], [3, 8], 2⟩ ⟨none, none⟩ ⟨some 2, none⟩
      (some 1) [none, some 4] ⟨by decide, rfl, rfl⟩ ⟨by decide, rfl, rfl⟩ rfl rfl⟩

/-- C12 as stated fails: with `setsize = 2` and input `[1, 2]` the second
observation arrives when one non-missing observation, fewer than
`setsize`, has been seen before it, and its row is populated. -/
theorem warmup_rule_counterexample :
    ∃ rows r,
      processPartition ⟨[0, 0], [0, 0], 2⟩ ⟨none, none⟩ (some 1) [some 2] = some rows ∧
      (observed [some 1]).length < 2 ∧ rows[1]? = some r ∧ r.populated ∧ ¬ r.allNull := by
  refine ⟨_, statRow (cconstOf ⟨none, none⟩) 2 [1, 2] 2,
    processPartition_eq _ _ _ _ ⟨by decide, rfl, rfl⟩, by simp [observed], ?_, ?_, ?_⟩
  · simp [refRows, refRow, observed, lastK]
  · simp [statRow, Row.populated]
  · simp [statRow, Row.allNull]

/-- C12, amended: a non-missing observation `v` that arrives when fewer
than `setsize - 1` non-missing observations have been seen before it (it is
not yet the `setsize`-th) takes the warm-up branch: it is stored in the
input buffer behind the values seen before it, the index advances by one,
and its row has three NULL statistic columns. -/
theorem warmup_rule (self : Inst) (params : ParamReader) (first : Option ℚ)
    (rest pre post : List (Option ℚ)) (v : ℚ) (h : self.Ready)
    (hsplit : first :: rest = pre ++ some v :: post)
    (hwarm : (observed pre).length + 1 < self.setsize) :
    ∃ st st' r rows,
      loopState self.setsize (cconstOf params) (entryState self) pre = some st ∧
      st.i + 1 < self.setsize ∧
      body self.setsize (cconstOf params) st (some v) = some (st', r) ∧
      st'.i = (observed pre).length + 1 ∧
      st'.iarray.take ((observed pre).length + 1) = observed pre ++ [v] ∧
      processPartition self params first rest = some rows ∧
      rows[pre.length]? = some r ∧ r.allNull := by
  obtain ⟨st, st', rows, hl, hinv, hb, hinv', _, hrun, hrow⟩ := step_of_run params h hsplit
  have hobs : observed [some v] = [v] := rfl
  rw [hobs] at hb hinv' hrow
  have hlen : (observed pre ++ [v]).length = (observed pre).length + 1 := by simp
  obtain ⟨hi', ht'⟩ := hinv'.warm (by rw [hlen]; exact hwarm)
  rw [hlen] at hi' ht'
  refine ⟨st, st', _, rows, hl, ?_, hb, hi', ht', hrun, hrow, ?_⟩
  · rw [(hinv.warm (by omega)).1]; exact hwarm
  · apply refRow_allNull
    rw [refRow_populated_iff, hlen]
    omega

theorem warmup_rule_witness :
    Inst.Ready ⟨[0, 0, 0], [0, 0, 0], 3⟩ ∧
    some (1 : ℚ) :: [none, some 4, some 5] = [some 1, none] ++ some 4 :: [some 5] ∧
    (observed [some 1, none]).length + 1 < 3 ∧
    ∃ st st' r rows,
      loopState 3 (cconstOf ⟨none, none⟩) (entryState ⟨[0, 0, 0], [0, 0, 0], 3⟩) [some 1, none] =
        some st ∧
      st.i + 1 < 3 ∧
      body 3 (cconstOf ⟨none, none⟩) st (some 4) = some (st', r) ∧
      st'.i = (observed [some 1, none]).length + 1 ∧
      st'.iarray.take ((observed [some 1, none]).length + 1) = observed [some 1, none] ++ [4] ∧
      processPartition ⟨[0, 0, 0], [0, 0, 0], 3⟩ ⟨none, none⟩ (some 1) [none, some 4, some 5] =
        some rows ∧
      rows[[some (1 : ℚ), none].length]? = some r ∧ r.allNull :=
  ⟨⟨by decide, rfl, rfl⟩, rfl, by simp [observed],
    warmup_rule ⟨[0, 0, 0], [0, 0, 0], 3⟩ ⟨none, none⟩ (some 1) [none, some 4, some 5]
      [some 1, none] [some 5] 4 ⟨by decide, rfl, rfl⟩ rfl (by simp [observed])⟩

/-- C13: without a `setsize` parameter `setup` works with a window size
of 10 (and succeeds with it when the two allocations of 80 bytes succeed);
with a supplied `setsize` from 1 up to the largest 64-bit integer the
window size is the supplied value.  Without a `cconst` parameter
`processPartition` runs its loop with the consistency constant 1.4826, with
a supplied one it runs the loop with the supplied value; window size and
constant are arguments of the whole loop, the same for every row. -/
theorem parameter_defaults (self : Inst) (sz : Option ℤ) (cc : Option ℚ) (c : ℚ) (p : ℤ)
    (ialloc salloc : ℕ → Option (List ℚ)) (first : Option ℚ) (rest : List (Option ℚ))
    (hp1 : 1 ≤ p) (hp2 : p < 2 ^ 63) :
    (∀ inst, setup ⟨none, cc⟩ ialloc salloc = Except.ok inst → inst.setsize = 10) ∧
    (∀ bi bs, ialloc 80 = some bi → salloc 80 = some bs →
      setup ⟨none, cc⟩ ialloc salloc = Except.ok ⟨bi, bs, 10⟩) ∧
    (∀ inst, setup ⟨some p, cc⟩ ialloc salloc = Except.ok inst → (inst.setsize : ℤ) = p) ∧
    (∀ bi bs, ialloc (p.toNat * sizeofVfloat % 2 ^ 64) = some bi →
      salloc (p.toNat * sizeofVfloat % 2 ^ 64) = some bs →
      setup ⟨some p, cc⟩ ialloc salloc = Except.ok ⟨bi, bs, p.toNat⟩) ∧
    cconstOf ⟨sz, none⟩ = 14826 / 10000 ∧ cconstOf ⟨sz, some c⟩ = c ∧
    processPartition self ⟨sz, none⟩ first rest =
      iterate self.setsize (14826 / 10000) (entryState self) (first :: rest) ∧
    processPartition self ⟨sz, some c⟩ first rest =
      iterate self.setsize c (entryState self) (first :: rest) := by
  refine ⟨?_, ?_, ?_, ?_, rfl, rfl, rfl, rfl⟩
  · intro inst hs
    rw [setup_default] at hs
    cases hi : ialloc 80 with
    | none => rw [hi] at hs; cases hs
    | some bi =>
      rw [hi] at hs
      cases hb : salloc 80 with
      | none => rw [hb] at hs; cases hs
      | some bs => rw [hb] at hs; cases hs; rfl
  · intro bi bs hi hb
    rw [setup_default, hi, hb]
  · intro inst hs
    rw [setup_supplied p cc ialloc salloc hp1 hp2] at hs
    cases hi : ialloc (p.toNat * sizeofVfloat % 2 ^ 64) with
    | none => rw [hi] at hs; cases hs
    | some bi =>
      rw [hi] at hs
      cases hb : salloc (p.toNat * sizeofVfloat % 2 ^ 64) with
      | none => rw [hb] at hs; cases hs
      | some bs =>
        rw [hb] at hs; cases hs
        exact Int.toNat_of_nonneg (by omega)
  · intro bi bs hi hb
    rw [setup_supplied p cc ialloc salloc hp1 hp2, hi, hb]

theorem parameter_defaults_witness :
    (1 : ℤ) ≤ 5 ∧ (5 : ℤ) < 2 ^ 63 ∧
    (∀ inst, setup ⟨none, none⟩ (fun n => some (List.replicate (n / 8) 0))
        (fun n => some (List.replicate (n / 8) 0)) = Except.ok inst → inst.setsize = 10) ∧
    (∀ bi bs, (fun n => some (List.replicate (n / 8) (0 : ℚ))) 80 = some bi →
      (fun n => some (List.replicate (n / 8) (0 : ℚ))) 80 = some bs →
      setup ⟨none, none⟩ (fun n => some (List.replicate (n / 8) 0))
        (fun n => some (List.replicate (n / 8) 0)) = Except.ok ⟨bi, bs, 10⟩) ∧
    (∀ inst, setup ⟨some 5, none⟩ (fun n => some (List.replicate (n / 8) 0))
        (fun n => some (List.replicate (n / 8) 0)) = Except.ok inst → (inst.setsize : ℤ) = 5) ∧
    (∀ bi bs,
      (fun n => some (List.replicate (n / 8) (0 : ℚ)))
        ((5 : ℤ).toNat * sizeofVfloat % 2 ^ 64) = some bi →
      (fun n => some (List.replicate (n / 8) (0 : ℚ)))
        ((5 : ℤ).toNat * sizeofVfloat % 2 ^ 64) = some bs →
      setup ⟨some 5, none⟩ (fun n => some (List.replicate (n / 8) 0))
        (fun n => some (List.replicate (n / 8) 0)) = Except.ok ⟨bi, bs, (5 : ℤ).toNat⟩) ∧
    cconstOf ⟨some 5, none⟩ = 14826 / 10000 ∧ cconstOf ⟨some 5, some 3⟩ = 3 ∧
    processPartition ⟨[0, 0], [0, 0], 2⟩ ⟨some 5, none⟩ (some 1) [some 2] =
      iterate 2 (14826 / 10000) (entryState ⟨[0, 0], [0, 0], 2⟩) [some 1, some 2] ∧
    processPartition ⟨[0, 0], [0, 0], 2⟩ ⟨some 5, some 3⟩ (some 1) [some 2] =
      iterate 2 3 (entryState ⟨[0, 0], [0, 0], 2⟩) [some 1, some 2] :=
  ⟨by decide, by decide,
    parameter_defaults ⟨[0, 0], [0, 0], 2⟩ (some 5) none 3 5
      (fun n => some (List.replicate (n / 8) 0)) (fun n => some (List.replicate (n / 8) 0))
      (some 1) [some 2] (by decide) (by decide)⟩

/-- C14: the full-window branch is executed for an observation `v` of a
run (the warm-up test `i + 1 < setsize` is false in the state before it)
exactly when `v` is at least the `setsize`-th non-missing observation.
Once it is executed, the index `i` equals `setsize` after that step and
after every later step, so the warm-up test is false before every later
observation, and the row of every later non-missing observation is
populated. -/
theorem steady_is_absorbing (self : Inst) (params : ParamReader) (first : Option ℚ)
    (rest pre post : List (Option ℚ)) (v : ℚ) (h : self.Ready)
    (hsplit : first :: rest = pre ++ some v :: post) :
    ∃ st rows,
      loopState self.setsize (cconstOf params) (entryState self) pre = some st ∧
      processPartition self params first rest = some rows ∧
      (¬ st.i + 1 < self.setsize ↔ self.setsize ≤ (observed pre).length + 1) ∧
      (¬ st.i + 1 < self.setsize →
        (∀ n, n ≤ post.length →
          ∃ st', loopState self.setsize (cconstOf params) (entryState self)
              (pre ++ some v :: post.take n) = some st' ∧
            st'.i = self.setsize ∧ ¬ st'.i + 1 < self.setsize) ∧
        (∀ (j : ℕ) (w : ℚ) (r : Row), pre.length ≤ j → (first :: rest)[j]? = some (some w) →
          rows[j]? = some r → r.populated)) := by
  obtain ⟨st, hl, hinv, _⟩ := state_of_run params h pre
  have hrun := processPartition_eq self params first rest h
  refine ⟨st, _, hl, hrun, inv_branch hinv, ?_⟩
  intro hfull
  have hK : self.setsize ≤ (observed pre).length + 1 := (inv_branch hinv).1 hfull
  have hobs : observed [some v] = [v] := rfl
  constructor
  · intro n _
    obtain ⟨st', hl', hinv', _⟩ := state_of_run params h (pre ++ some v :: post.take n)
    have hlen : self.setsize ≤ (observed (pre ++ some v :: post.take n)).length := by
      rw [observed_append, observed_cons, hobs]
      simp only [List.length_append, List.length_singleton]
      omega
    have hi := (hinv'.full hlen).1
    exact ⟨st', hl', hi, by omega⟩
  · intro j w r hj hx hr
    obtain ⟨x, hx', rfl⟩ := row_of_run h hrun hr
    rw [hx] at hx'
    cases hx'
    rw [refRow_populated_iff]
    refine ⟨rfl, ?_⟩
    have := seenUpTo_length_ge pre post v j hj
    rw [hsplit]
    omega

theorem steady_is_absorbing_witness :
    Inst.Ready ⟨[0, 0], [0, 0], 2⟩ ∧
    some (1 : ℚ) :: [some 2, none, some 4] = [some 1] ++ some 2 :: [none, some 4] ∧
    ∃ st rows,
      loopState 2 (cconstOf ⟨none, none⟩) (entryState ⟨[0, 0], [0, 0], 2⟩) [some 1] = some st ∧
      processPartition ⟨[0, 0], [0, 0], 2⟩ ⟨none, none⟩ (some 1) [some 2, none, some 4] =
        some rows ∧
      (¬ st.i + 1 < 2 ↔ 2 ≤ (observed [some 1]).length + 1) ∧
      (¬ st.i + 1 < 2 →
        (∀ n, n ≤ [none, some (4 : ℚ)].length →
          ∃ st', loopState 2 (cconstOf ⟨none, none⟩) (entryState ⟨[0, 0], [0, 0], 2⟩)
              ([some 1] ++ some 2 :: [none, some 4].take n) = some st' ∧
            st'.i = 2 ∧ ¬ st'.i + 1 < 2) ∧
        (∀ (j : ℕ) (w : ℚ) (r : Row), [some (1 : ℚ)].length ≤ j →
          (some (1 : ℚ) :: [some 2, none, some 4])[j]? = some (some w) →
          rows[j]? = some r → r.populated)) :=
  ⟨⟨by decide, rfl, rfl⟩, rfl,
    steady_is_absorbing ⟨[0, 0], [0, 0], 2⟩ ⟨none, none⟩ (some 1) [some 2, none, some 4]
      [some 1] [none, some 4] 2 ⟨by decide, rfl, rfl⟩ rfl⟩

/-- C15: after any input prefix `pre` the input buffer has `setsize`
cells; while fewer than `setsize` non-missing observations have arrived,
`i` is their number and the first `i` cells hold them in arrival order;
from then on the first `setsize - 1` cells hold the `setsize - 1` most
recent ones, oldest first.  When the full-window branch then stores a value
`v` in the last cell, the buffer is exactly the `setsize` most recent
non-missing observations, oldest to newest. -/
theorem fifo_buffer (self : Inst) (params : ParamReader) (pre : List (Option ℚ))
    (h : self.Ready) :
    ∃ st, loopState self.setsize (cconstOf params) (entryState self) pre = some st ∧
      st.iarray.length = self.setsize ∧
      ((observed pre).length < self.setsize →
        st.i = (observed pre).length ∧
        st.iarray.take (observed pre).length = observed pre) ∧
      (self.setsize ≤ (observed pre).length →
        st.iarray.take (self.setsize - 1) = lastK (self.setsize - 1) (observed pre)) ∧
      (∀ v : ℚ, ¬ st.i + 1 < self.setsize →
        ∃ buf, store st.iarray (self.setsize - 1) v = some buf ∧
          buf = windowAt self.setsize (pre ++ [some v]) pre.length ∧
          buf = lastK self.setsize (observed pre ++ [v]) ∧
          buf.length = self.setsize) := by
  obtain ⟨st, hl, hinv, _⟩ := state_of_run params h pre
  refine ⟨st, hl, hinv.ilen, hinv.warm, fun hk => (hinv.full hk).2, ?_⟩
  intro v hfull
  have hK := (inv_branch hinv).1 hfull
  obtain ⟨_, hwin⟩ := inv_window h.pos hinv v hK
  have hobs : observed [some v] = [v] := rfl
  have hw : windowAt self.setsize (pre ++ [some v]) pre.length =
      lastK self.setsize (observed pre ++ [v]) := by
    rw [windowAt, seenUpTo, List.take_of_length_le (by simp), observed_append, hobs]
  refine ⟨_, store_last h.pos hinv.ilen v, ?_, hwin, ?_⟩
  · rw [hw, hwin]
  · rw [hwin, lastK_length]
    simp only [List.length_append, List.length_singleton]
    omega

theorem fifo_buffer_witness :
    Inst.Ready ⟨[0, 0], [0, 0], 2⟩ ∧
    ∃ st, loopState 2 (cconstOf ⟨none, none⟩) (entryState ⟨[0, 0], [0, 0], 2⟩)
        [some 1, none, some 4] = some st ∧
      st.iarray.length = 2 ∧
      ((observed [some 1, none, some 4]).length < 2 →
        st.i = (observed [some 1, none, some 4]).length ∧
        st.iarray.take (observed [some 1, none, some 4]).length =
          observed [some 1, none, some 4]) ∧
      (2 ≤ (observed [some 1, none, some 4]).length →
        st.iarray.take (2 - 1) = lastK (2 - 1) (observed [some 1, none, some 4])) ∧
      (∀ v : ℚ, ¬ st.i + 1 < 2 →
        ∃ buf, store st.iarray (2 - 1) v = some buf ∧
          buf = windowAt 2 ([some 1, none, some 4] ++ [some v])
            [some (1 : ℚ), none, some 4].length ∧
          buf = lastK 2 (observed [some 1, none, some 4] ++ [v]) ∧
          buf.length = 2) :=
  ⟨⟨by decide, rfl, rfl⟩,
    fifo_buffer ⟨[0, 0], [0, 0], 2⟩ ⟨none, none⟩ [some 1, none, some 4]
      ⟨by decide, rfl, rfl⟩⟩


/-- C16: on an instance with `setsize ≥ 1` and buffers of `setsize` cells
a run returns (no access of the bounds-checked embedding is out of bounds),
and at every step of it, on the state `st` before the step: both buffers
have `setsize` cells and the body returns; a warm-up write has
`i ≤ setsize - 2`, inside the buffer; the indices `setsize - 1` and
`setsize / 2` are inside the buffers; for an even `setsize` the index
`setsize / 2 - 1` is a genuine index (`setsize / 2 ≥ 1`) inside the buffer,
and for an odd `setsize` that cell is not read: median and mad are the
loads of cell `setsize / 2` alone. -/
theorem index_safety (self : Inst) (params : ParamReader) (first : Option ℚ)
    (rest pre post : List (Option ℚ)) (x : Option ℚ) (h : self.Ready)
    (hsplit : first :: rest = pre ++ x :: post) :
    (processPartition self params first rest).isSome ∧
    ∃ st, loopState self.setsize (cconstOf params) (entryState self) pre = some st ∧
      st.iarray.length = self.setsize ∧ st.sarray.length = self.setsize ∧
      (body self.setsize (cconstOf params) st x).isSome ∧
      (st.i + 1 < self.setsize → st.i ≤ self.setsize - 2 ∧ st.i < st.iarray.length ∧
        ∀ v, (store st.iarray st.i v).isSome) ∧
      (self.setsize - 1 < st.iarray.length ∧ ∀ v, (store st.iarray (self.setsize - 1) v).isSome) ∧
      self.setsize / 2 < st.sarray.length ∧
      (self.setsize % 2 = 0 → 1 ≤ self.setsize / 2 ∧ self.setsize / 2 - 1 < st.sarray.length) ∧
      (self.setsize % 2 = 1 → ∀ (s : List ℚ) (C : ℚ),
        medianCells s self.setsize = load s (self.setsize / 2) ∧
        madCells C s self.setsize = (load s (self.setsize / 2)).map (fun m => C * m)) := by
  obtain ⟨st, st', rows, hl, hinv, hb, _, _, hrun, _⟩ := step_of_run params h hsplit
  have hK := h.pos
  have hil := hinv.ilen
  have hsl := hinv.slen
  refine ⟨by rw [hrun]; rfl, st, hl, hil, hsl, by rw [hb]; rfl, ?_, ?_, by omega, ?_, ?_⟩
  · intro hw
    have hi : st.i < st.iarray.length := by omega
    exact ⟨by omega, hi, fun v => by simp [store, hi]⟩
  · have hi : self.setsize - 1 < st.iarray.length := by omega
    exact ⟨hi, fun v => by simp [store, hi]⟩
  · intro he
    exact ⟨by omega, by omega⟩
  · intro ho s C
    constructor
    · simp only [medianCells, ho, if_true]
    · simp only [madCells, ho, if_true]
      cases load s (self.setsize / 2) <;> rfl

theorem index_safety_witness :
    Inst.Ready ⟨[0, 0], [0, 0], 2⟩ ∧
    some (1 : ℚ) :: [none, some 4] = [some 1, none] ++ some 4 :: [] ∧
    (processPartition ⟨[0, 0], [0, 0], 2⟩ ⟨none, none⟩ (some 1) [none, some 4]).isSome ∧
    ∃ st, loopState 2 (cconstOf ⟨none, none⟩) (entryState ⟨[0, 0], [0, 0], 2⟩) [some 1, none] =
        some st ∧
      st.iarray.length = 2 ∧ st.sarray.length = 2 ∧
      (body 2 (cconstOf ⟨none, none⟩) st (some 4)).isSome ∧
      (st.i + 1 < 2 → st.i ≤ 2 - 2 ∧ st.i < st.iarray.length ∧
        ∀ v, (store st.iarray st.i v).isSome) ∧
      (2 - 1 < st.iarray.length ∧ ∀ v, (store st.iarray (2 - 1) v).isSome) ∧
      2 / 2 < st.sarray.length ∧
      (2 % 2 = 0 → 1 ≤ 2 / 2 ∧ 2 / 2 - 1 < st.sarray.length) ∧
      (2 % 2 = 1 → ∀ (s : List ℚ) (C : ℚ),
        medianCells s 2 = load s (2 / 2) ∧
        madCells C s 2 = (load s (2 / 2)).map (fun m => C * m)) :=
  ⟨⟨by decide, rfl, rfl⟩, rfl,
    index_safety ⟨[0, 0], [0, 0], 2⟩ ⟨none, none⟩ (some 1) [none, some 4] [some 1, none] []
      (some 4) ⟨by decide, rfl, rfl⟩ rfl⟩


/-- C17: when the windows of two populated rows, of the same run or of two
runs on the same instance, are permutations of one another, the two rows
report the same median and the same scaled mad; each cutoff is the quotient
of the deviation of its own newest value by that common median and mad.
The cutoffs can differ: with `setsize = 3` and `cconst = 1` the inputs
`[1, 2, 10]` and `[1, 10, 2]` give the third rows median 2 and mad 1 but
cutoffs 8 and 0. -/
theorem order_independence (self : Inst) (params : ParamReader) (first first' : Option ℚ)
    (rest rest' : List (Option ℚ)) (h : self.Ready) :
    (∃ rows rows', processPartition self params first rest = some rows ∧
      processPartition self params first' rest' = some rows' ∧
      ∀ (j j' : ℕ) (r r' : Row), rows[j]? = some r → rows'[j']? = some r' →
        r.populated → r'.populated →
        (windowAt self.setsize (first :: rest) j).Perm
          (windowAt self.setsize (first' :: rest') j') →
        r.median = r'.median ∧ r.mad = r'.mad ∧
        ∃ v v' m d, (windowAt self.setsize (first :: rest) j).getLast? = some v ∧
          (windowAt self.setsize (first' :: rest') j').getLast? = some v' ∧
          r.median = some m ∧ r.mad = some d ∧
          r.cutoff = some (fdiv |v - m| d) ∧ r'.cutoff = some (fdiv |v' - m| d)) ∧
    (∃ rows rows' r r',
      processPartition ⟨[0, 0, 0], [0, 0, 0], 3⟩ ⟨none, some 1⟩ (some 1) [some 2, some 10] =
        some rows ∧
      processPartition ⟨[0, 0, 0], [0, 0, 0], 3⟩ ⟨none, some 1⟩ (some 1) [some 10, some 2] =
        some rows' ∧
      rows[2]? = some r ∧ rows'[2]? = some r' ∧
      (windowAt 3 [some 1, some 2, some 10] 2).Perm (windowAt 3 [some 1, some 10, some 2] 2) ∧
      r.median = r'.median ∧ r.mad = r'.mad ∧ r.cutoff ≠ r'.cutoff) := by
  have hrun := processPartition_eq self params first rest h
  have hrun' := processPartition_eq self params first' rest' h
  constructor
  · refine ⟨_, _, hrun, hrun', ?_⟩
    intro j j' r r' hr hr' hp hp' hperm
    obtain ⟨v, hx, _, rfl⟩ := populated_row_of_run h hrun hr hp
    obtain ⟨v', hx', _, rfl⟩ := populated_row_of_run h hrun' hr' hp'
    have hm := winMedian_perm hperm
    have hd := winMad_perm (cconstOf params) hperm
    refine ⟨?_, ?_, v, v', _, _, windowAt_getLast h.pos hx, windowAt_getLast h.pos hx', rfl, rfl,
      rfl, ?_⟩
    · simp only [statRow, hm]
    · simp only [statRow, hd]
    · simp only [statRow, hm, hd]
  · have hr3 : Inst.Ready ⟨[0, 0, 0], [0, 0, 0], 3⟩ := ⟨by decide, rfl, rfl⟩
    have hc : cconstOf ⟨none, some 1⟩ = 1 := rfl
    obtain ⟨e1, e2⟩ := cutoff_order_example
    refine ⟨_, _, ⟨3, some 2, some 1, some (FDiv.fin 8)⟩, ⟨3, some 2, some 1, some (FDiv.fin 0)⟩,
      processPartition_eq _ _ _ _ hr3, processPartition_eq _ _ _ _ hr3, ?_, ?_, ?_, rfl, rfl, ?_⟩
    · rw [hc]
      show (refRows 3 1 1 [] [some 1, some 2, some 10])[2]? = _
      rw [e1]; rfl
    · rw [hc]
      show (refRows 3 1 1 [] [some 1, some 10, some 2])[2]? = _
      rw [e2]; rfl
    · have w1 : windowAt 3 [some 1, some 2, some 10] 2 = [1, 2, 10] := by
        simp [windowAt, seenUpTo, observed, lastK]
      have w2 : windowAt 3 [some 1, some 10, some 2] 2 = [1, 10, 2] := by
        simp [windowAt, seenUpTo, observed, lastK]
      rw [w1, w2]
      exact List.Perm.cons _ (List.Perm.swap _ _ _)
    · intro hc
      simp only [Option.some.injEq, FDiv.fin.injEq] at hc
      norm_num at hc

theorem order_independence_witness :
    Inst.Ready ⟨[0, 0], [0, 0], 2⟩ ∧
    (∃ rows rows',
      processPartition ⟨[0, 0], [0, 0], 2⟩ ⟨none, none⟩ (some 1) [some 4] = some rows ∧
      processPartition ⟨[0, 0], [0, 0], 2⟩ ⟨none, none⟩ (some 4) [none, some 1] = some rows' ∧
      ∀ (j j' : ℕ) (r r' : Row), rows[j]? = some r → rows'[j']? = some r' →
        r.populated → r'.populated →
        (windowAt 2 [some 1, some 4] j).Perm (windowAt 2 [some 4, none, some 1] j') →
        r.median = r'.median ∧ r.mad = r'.mad ∧
        ∃ v v' m d, (windowAt 2 [some 1, some 4] j).getLast? = some v ∧
          (windowAt 2 [some 4, none, some 1] j').getLast? = some v' ∧
          r.median = some m ∧ r.mad = some d ∧
          r.cutoff = some (fdiv |v - m| d) ∧ r'.cutoff = some (fdiv |v' - m| d)) ∧
    (∃ rows rows' r r',
      processPartition ⟨[0, 0, 0], [0, 0, 0], 3⟩ ⟨none, some 1⟩ (some 1) [some 2, some 10] =
        some rows ∧
      processPartition ⟨[0, 0, 0], [0, 0, 0], 3⟩ ⟨none, some 1⟩ (some 1) [some 10, some 2] =
        some rows' ∧
      rows[2]? = some r ∧ rows'[2]? = some r' ∧
      (windowAt 3 [some 1, some 2, some 10] 2).Perm (windowAt 3 [some 1, some 10, some 2] 2) ∧
      r.median = r'.median ∧ r.mad = r'.mad ∧ r.cutoff ≠ r'.cutoff) :=
  ⟨⟨by decide, rfl, rfl⟩,
    order_independence ⟨[0, 0], [0, 0], 2⟩ ⟨none, none⟩ (some 1) (some 4) [some 4]
      [none, some 1] ⟨by decide, rfl, rfl⟩⟩


/-- C18: for `a > 0`, replacing every non-missing observation `x` by
`a * x + c` maps the rows of the run one by one: the row number and the
cutoff stay, a median `m` becomes `a * m + c`, a scaled mad `d` becomes
`a * d`, and a row is populated after the replacement exactly when it was
before. -/
theorem affine_equivariance (self : Inst) (params : ParamReader) (first : Option ℚ)
    (rest : List (Option ℚ)) (a c : ℚ) (h : self.Ready) (ha : 0 < a) :
    ∃ rows rows', processPartition self params first rest = some rows ∧
      processPartition self params (first.map (fun x => a * x + c))
        (rest.map (Option.map (fun x => a * x + c))) = some rows' ∧
      rows' = rows.map (Row.affine a c) ∧
      rows'.length = rows.length ∧
      ∀ (j : ℕ) (r r' : Row), rows[j]? = some r → rows'[j]? = some r' →
        r'.rownum = r.rownum ∧ (r'.populated ↔ r.populated) ∧
        (∀ m, r.median = some m → r'.median = some (a * m + c)) ∧
        (∀ d, r.mad = some d → r'.mad = some (a * d)) ∧
        r'.cutoff = r.cutoff := by
  have hrun := processPartition_eq self params first rest h
  have hrun' := processPartition_eq self params (first.map (fun x => a * x + c))
    (rest.map (Option.map (fun x => a * x + c))) h
  have heq := refRows_affine c ha h.pos (cconstOf params) (first :: rest) 1 []
  rw [List.map_nil, List.map_cons] at heq
  refine ⟨_, _, hrun, hrun', heq, by rw [heq, List.length_map], ?_⟩
  intro j r r' hr hr'
  rw [heq, List.getElem?_map, hr, Option.map_some', Option.some.injEq] at hr'
  subst hr'
  refine ⟨rfl, ?_, ?_, ?_, rfl⟩
  · simp only [Row.populated, Row.affine, Option.isSome_map']
  · intro m hm
    simp only [Row.affine, hm, Option.map_some']
  · intro d hd
    simp only [Row.affine, hd, Option.map_some']

theorem affine_equivariance_witness :
    Inst.Ready ⟨[0, 0], [0, 0], 2⟩ ∧ (0 : ℚ) < 3 ∧
    ∃ rows rows',
      processPartition ⟨[0, 0], [0, 0], 2⟩ ⟨none, none⟩ (some 1) [none, some 4] = some rows ∧
      processPartition ⟨[0, 0], [0, 0], 2⟩ ⟨none, none⟩ ((some 1).map (fun x => 3 * x + 7))
        ([none, some 4].map (Option.map (fun x => 3 * x + 7))) = some rows' ∧
      rows' = rows.map (Row.affine 3 7) ∧
      rows'.length = rows.length ∧
      ∀ (j : ℕ) (r r' : Row), rows[j]? = some r → rows'[j]? = some r' →
        r'.rownum = r.rownum ∧ (r'.populated ↔ r.populated) ∧
        (∀ m, r.median = some m → r'.median = some (3 * m + 7)) ∧
        (∀ d, r.mad = some d → r'.mad = some (3 * d)) ∧
        r'.cutoff = r.cutoff :=
  ⟨⟨by decide, rfl, rfl⟩, by norm_num,
    affine_equivariance ⟨[0, 0], [0, 0], 2⟩ ⟨none, none⟩ (some 1) [none, some 4] 3 7
      ⟨by decide, rfl, rfl⟩ (by norm_num)⟩

/-- C19 as stated fails in doubles: with `setsize = 2` and the window
`[2^1023, 1.25 * 2^1023]` the sum of line 98 overflows and the median
column is `+inf`: it is greater than both window values, and no window
value is greater than or equal to it. -/
theorem median_order_statistic_counterexample :
    processPartitionD ⟨[Dbl.nan, Dbl.nan], [Dbl.nan, Dbl.nan], 2⟩ none
        (some (Dbl.ofInt 1 1023)) [some (Dbl.ofInt 5 1021)] =
      some [⟨1, none, none, none⟩,
        ⟨2, some (Dbl.inf false), some (Dbl.inf false), some Dbl.nan⟩] ∧
    (∀ x ∈ [Dbl.ofInt 1 1023, Dbl.ofInt 5 1021], Dbl.lt x (Dbl.inf false)) ∧
    [Dbl.ofInt 1 1023, Dbl.ofInt 5 1021].countP (fun x => decide (Dbl.le (Dbl.inf false) x)) = 0 ∧
    (2 + 1) / 2 = 1 := by
  decide

/-- In exact rational arithmetic C19 holds as it is stated: the median `m`
of a populated row lies between the least and the greatest value of its
window, at least `⌈setsize / 2⌉` of the `setsize`
window values are `≤ m` and at least as many are `≥ m`, and for an odd
`setsize` the median is one of the window values. -/
theorem median_order_statistic_exact (self : Inst) (params : ParamReader) (first : Option ℚ)
    (rest : List (Option ℚ)) (h : self.Ready) :
    ∃ rows, processPartition self params first rest = some rows ∧
      ∀ j r, rows[j]? = some r → r.populated →
        ∃ m lo hi, r.median = some m ∧
          (windowAt self.setsize (first :: rest) j).length = self.setsize ∧
          lo ∈ windowAt self.setsize (first :: rest) j ∧
          hi ∈ windowAt self.setsize (first :: rest) j ∧
          (∀ x ∈ windowAt self.setsize (first :: rest) j, lo ≤ x) ∧
          (∀ x ∈ windowAt self.setsize (first :: rest) j, x ≤ hi) ∧
          lo ≤ m ∧ m ≤ hi ∧
          (self.setsize + 1) / 2 ≤
            (windowAt self.setsize (first :: rest) j).countP (fun x => decide (x ≤ m)) ∧
          (self.setsize + 1) / 2 ≤
            (windowAt self.setsize (first :: rest) j).countP (fun x => decide (m ≤ x)) ∧
          (self.setsize % 2 = 1 → m ∈ windowAt self.setsize (first :: rest) j) := by
  have hrun := processPartition_eq self params first rest h
  refine ⟨_, hrun, ?_⟩
  intro j r hr hp
  obtain ⟨v, _, hk, rfl⟩ := populated_row_of_run h hrun hr hp
  have hlen := windowAt_length hk
  obtain ⟨lo, hi, h1, h2, h3, h4, h5, h6, h7, h8, h9⟩ :=
    winMedian_order (w := windowAt self.setsize (first :: rest) j) (by rw [hlen]; exact h.pos)
  rw [hlen] at h7 h8 h9
  exact ⟨_, lo, hi, rfl, hlen, h1, h2, h3, h4, h5, h6, h7, h8, h9⟩

/-- C19, amended: on the double-precision embedding, for an input of
finite doubles, the median `m` of a populated row is a number and, with `lo`
the least and `hi` the greatest value of its window: unless `m` is `-inf`,
`lo ≤ m` and at least `⌈setsize / 2⌉` of the `setsize` window values are
`≤ m`; unless `m` is `+inf`, `m ≤ hi` and at least `⌈setsize / 2⌉` of the
window values are `≥ m`.  The median is an infinity only when `setsize` is
even and the sum of the two central values of line 98 overflows; for an odd
`setsize` the median is one of the window values. -/
theorem median_order_statistic (self : InstD) (cconst : Option Dbl) (first : Option Dbl)
    (rest : List (Option Dbl)) (h : self.Ready)
    (hfin : ∀ x ∈ observedD (first :: rest), x.isFinite) :
    ∃ rows, processPartitionD self cconst first rest = some rows ∧
      ∀ j r, rows[j]? = some r → r.populated →
        ∃ m lo hi, r.median = some m ∧
          (windowAtD self.setsize (first :: rest) j).length = self.setsize ∧
          lo ∈ windowAtD self.setsize (first :: rest) j ∧
          hi ∈ windowAtD self.setsize (first :: rest) j ∧
          (∀ x ∈ windowAtD self.setsize (first :: rest) j, Dbl.le lo x) ∧
          (∀ x ∈ windowAtD self.setsize (first :: rest) j, Dbl.le x hi) ∧
          m.isNumber = true ∧
          (m ≠ Dbl.inf true → Dbl.le lo m ∧
            (self.setsize + 1) / 2 ≤
              (windowAtD self.setsize (first :: rest) j).countP (fun x => decide (Dbl.le x m))) ∧
          (m ≠ Dbl.inf false → Dbl.le m hi ∧
            (self.setsize + 1) / 2 ≤
              (windowAtD self.setsize (first :: rest) j).countP (fun x => decide (Dbl.le m x))) ∧
          (self.setsize % 2 = 1 → m ∈ windowAtD self.setsize (first :: rest) j) := by
  have hrun := processPartition_eqD self cconst first rest h
  refine ⟨_, hrun, ?_⟩
  intro j r hr hp
  obtain ⟨v, _, hk, rfl⟩ := populated_row_of_runD h hrun hr hp
  have hlen := windowAt_lengthD hk
  obtain ⟨lo, hi, h1, h2, h3, h4, h5, h6, h7, h8⟩ :=
    winMedian_orderD (w := windowAtD self.setsize (first :: rest) j) (by rw [hlen]; exact h.pos)
      (fun x hx => hfin x (mem_observed_of_mem_windowD hx))
  rw [hlen] at h6 h7 h8
  exact ⟨_, lo, hi, rfl, hlen, h1, h2, h3, h4, h5, h6, h7, h8⟩

theorem median_order_statistic_witness :
    InstD.Ready ⟨[Dbl.nan, Dbl.nan], [Dbl.nan, Dbl.nan], 2⟩ ∧
    (∀ x ∈ observedD [some (Dbl.ofInt 1 0), none, some (Dbl.ofInt 3 0)], x.isFinite) ∧
    ∃ rows, processPartitionD ⟨[Dbl.nan, Dbl.nan], [Dbl.nan, Dbl.nan], 2⟩ none
        (some (Dbl.ofInt 1 0)) [none, some (Dbl.ofInt 3 0)] = some rows ∧
      ∀ j r, rows[j]? = some r → r.populated →
        ∃ m lo hi, r.median = some m ∧
          (windowAtD 2 [some (Dbl.ofInt 1 0), none, some (Dbl.ofInt 3 0)] j).length = 2 ∧
          lo ∈ windowAtD 2 [some (Dbl.ofInt 1 0), none, some (Dbl.ofInt 3 0)] j ∧
          hi ∈ windowAtD 2 [some (Dbl.ofInt 1 0), none, some (Dbl.ofInt 3 0)] j ∧
          (∀ x ∈ windowAtD 2 [some (Dbl.ofInt 1 0), none, some (Dbl.ofInt 3 0)] j, Dbl.le lo x) ∧
          (∀ x ∈ windowAtD 2 [some (Dbl.ofInt 1 0), none, some (Dbl.ofInt 3 0)] j, Dbl.le x hi) ∧
          m.isNumber = true ∧
          (m ≠ Dbl.inf true → Dbl.le lo m ∧
            (2 + 1) / 2 ≤
              (windowAtD 2 [some (Dbl.ofInt 1 0), none, some (Dbl.ofInt 3 0)] j).countP
                (fun x => decide (Dbl.le x m))) ∧
          (m ≠ Dbl.inf false → Dbl.le m hi ∧
            (2 + 1) / 2 ≤
              (windowAtD 2 [some (Dbl.ofInt 1 0), none, some (Dbl.ofInt 3 0)] j).countP
                (fun x => decide (Dbl.le m x))) ∧
          (2 % 2 = 1 → m ∈ windowAtD 2 [some (Dbl.ofInt 1 0), none, some (Dbl.ofInt 3 0)] j) :=
  ⟨⟨by decide, rfl, rfl⟩, by decide,
    median_order_statistic ⟨[Dbl.nan, Dbl.nan], [Dbl.nan, Dbl.nan], 2⟩ none
      (some (Dbl.ofInt 1 0)) [none, some (Dbl.ofInt 3 0)] ⟨by decide, rfl, rfl⟩ (by decide)⟩

/-- In exact rational arithmetic C20 holds as it is stated: with a
non-negative consistency constant the scaled mad `d` of a populated row
satisfies `0 ≤ d ≤ C * (max - min)` for the greatest and the
least value of its window, and when `d > 0` the cutoff is a finite,
non-negative number. -/
theorem statistics_range_exact (self : Inst) (params : ParamReader) (first : Option ℚ)
    (rest : List (Option ℚ)) (h : self.Ready) (hC : 0 ≤ cconstOf params) :
    ∃ rows, processPartition self params first rest = some rows ∧
      ∀ j r, rows[j]? = some r → r.populated →
        ∃ d lo hi, r.mad = some d ∧
          lo ∈ windowAt self.setsize (first :: rest) j ∧
          hi ∈ windowAt self.setsize (first :: rest) j ∧
          (∀ x ∈ windowAt self.setsize (first :: rest) j, lo ≤ x) ∧
          (∀ x ∈ windowAt self.setsize (first :: rest) j, x ≤ hi) ∧
          0 ≤ d ∧ d ≤ cconstOf params * (hi - lo) ∧
          (0 < d → ∃ q, r.cutoff = some (FDiv.fin q) ∧ 0 ≤ q) := by
  have hrun := processPartition_eq self params first rest h
  refine ⟨_, hrun, ?_⟩
  intro j r hr hp
  obtain ⟨v, _, hk, rfl⟩ := populated_row_of_run h hrun hr hp
  have hlen := windowAt_length hk
  obtain ⟨lo, hi, h1, h2, h3, h4, h5, h6⟩ :=
    winMad_range hC (w := windowAt self.setsize (first :: rest) j) (by rw [hlen]; exact h.pos)
  refine ⟨_, lo, hi, rfl, h1, h2, h3, h4, h5, h6, ?_⟩
  intro hd
  refine ⟨|v - winMedian (windowAt self.setsize (first :: rest) j)| /
      winMad (cconstOf params) (windowAt self.setsize (first :: rest) j), ?_,
    div_nonneg (abs_nonneg _) hd.le⟩
  simp only [statRow, fdiv, if_neg (ne_of_gt hd)]

end Mad
